import Mathlib

/-!
# OpenBook: version engine and deployment pipeline

A shallow embedding of the Go sources

* `internal/usecase/git_usecase.go` (`GitUseCase`),
* `internal/repository/postgres/git_repository.go` (`GitRepository`),
* `internal/usecase/deployment_usecase.go`, `internal/service/publisher.go`,
* `internal/repository/postgres/deployment_repository.go`,
* `internal/worker/deployment_processor.go`,

followed by theorems about them.

Conventions of the embedding.

* A Go `string` or `[]byte` whose bytes matter (paths, payloads, digests, JSON text) is a
  `List Nat` of byte values (`Bytes`); the helper `str` turns an ASCII literal into its bytes.
  Strings that are only compared or copied (names, messages, statuses) are Lean strings.
* `uuid.UUID` and `time.Time` are natural numbers; the Go zero values are `0`.
* A table of the relational store is the list of its rows in insertion order; a query for one
  row (`QueryRowContext`) yields the first matching row.
* Everything a call cannot determine from its arguments and the store is read from an
  `Oracle`: the values `uuid.New()` and `time.Now()` return, and whether a statement sent to
  the database comes back with an error.  A statement that comes back with an error has not
  changed the store.
* The iteration order of a Go map is not determined by the map: a `map[string][]byte` is the
  list of its entries in the order in which this run of the `range` loop visits them.
-/

namespace OpenBook

/-! ## Bytes, hexadecimal, SHA-256 -/

/-- Byte strings: the contents of a Go `[]byte` or `string`. -/
abbrev Bytes := List Nat

/-- The bytes of an ASCII literal. -/
def str (s : String) : Bytes := s.toList.map Char.toNat

/-- Whether every element is a byte value. -/
def isBytes (b : Bytes) : Prop := ∀ x ∈ b, x < 256

/-- One digit of `hextable = "0123456789abcdef"` (`encoding/hex`). -/
def hexDigit (n : Nat) : Nat := if n < 10 then 48 + n else 87 + n

/-- Model of `hex.EncodeToString`: two lower-case digits per byte, high nibble first. -/
def hexEncode (bs : Bytes) : Bytes := bs.flatMap (fun b => [hexDigit (b / 16), hexDigit (b % 16)])

namespace Sha256

/-- Round constants of SHA-256 (FIPS 180-4, section 4.2.2). -/
def K : List Nat := [
  0x428a2f98, 0x71374491, 0xb5c0fbcf, 0xe9b5dba5, 0x3956c25b, 0x59f111f1, 0x923f82a4, 0xab1c5ed5,
  0xd807aa98, 0x12835b01, 0x243185be, 0x550c7dc3, 0x72be5d74, 0x80deb1fe, 0x9bdc06a7, 0xc19bf174,
  0xe49b69c1, 0xefbe4786, 0x0fc19dc6, 0x240ca1cc, 0x2de92c6f, 0x4a7484aa, 0x5cb0a9dc, 0x76f988da,
  0x983e5152, 0xa831c66d, 0xb00327c8, 0xbf597fc7, 0xc6e00bf3, 0xd5a79147, 0x06ca6351, 0x14292967,
  0x27b70a85, 0x2e1b2138, 0x4d2c6dfc, 0x53380d13, 0x650a7354, 0x766a0abb, 0x81c2c92e, 0x92722c85,
  0xa2bfe8a1, 0xa81a664b, 0xc24b8b70, 0xc76c51a3, 0xd192e819, 0xd6990624, 0xf40e3585, 0x106aa070,
  0x19a4c116, 0x1e376c08, 0x2748774c, 0x34b0bcb5, 0x391c0cb3, 0x4ed8aa4a, 0x5b9cca4f, 0x682e6ff3,
  0x748f82ee, 0x78a5636f, 0x84c87814, 0x8cc70208, 0x90befffa, 0xa4506ceb, 0xbef9a3f7, 0xc67178f2]

/-- Truncation to a 32-bit word. -/
def w32 (x : Nat) : Nat := x % 4294967296

/-- Rotation of a 32-bit word to the right. -/
def rotr (x n : Nat) : Nat := (x >>> n) ||| w32 (x <<< (32 - n))

/-- Complement of a 32-bit word. -/
def bnot (x : Nat) : Nat := 4294967295 - x

/-- Message padding: a `0x80` byte, zero bytes up to 56 modulo 64, the bit length on 8 bytes. -/
def pad (m : Bytes) : Bytes :=
  let l := m.length
  let z := (119 - l % 64) % 64
  m ++ [0x80] ++ List.replicate z 0 ++
    (List.range 8).map (fun i => ((l * 8) >>> (8 * (7 - i))) % 256)

/-- Big-endian value of a group of bytes. -/
def word (bs : Bytes) : Nat := bs.foldl (fun a b => a * 256 + b) 0

/-- The first `n` big-endian 32-bit words of a block. -/
def words : Nat → Bytes → List Nat
  | 0, _ => []
  | n + 1, bs => word (bs.take 4) :: words n (bs.drop 4)

/-- Message schedule, most recent word first: `n` more words are added to `w`. -/
def extend : Nat → List Nat → List Nat
  | 0, w => w
  | n + 1, w =>
    let w2 := w.getD 1 0
    let w7 := w.getD 6 0
    let w15 := w.getD 14 0
    let w16 := w.getD 15 0
    let s0 := rotr w15 7 ^^^ rotr w15 18 ^^^ (w15 >>> 3)
    let s1 := rotr w2 17 ^^^ rotr w2 19 ^^^ (w2 >>> 10)
    extend n (w32 (w16 + s0 + w7 + s1) :: w)

/-- The eight working variables. -/
structure Vars where
  a : Nat
  b : Nat
  c : Nat
  d : Nat
  e : Nat
  f : Nat
  g : Nat
  h : Nat
deriving DecidableEq, Repr

/-- One round of the compression function, for the pair (round constant, schedule word). -/
def round (s : Vars) (kw : Nat × Nat) : Vars :=
  let S1 := rotr s.e 6 ^^^ rotr s.e 11 ^^^ rotr s.e 25
  let ch := (s.e &&& s.f) ^^^ (bnot s.e &&& s.g)
  let t1 := w32 (s.h + S1 + ch + kw.1 + kw.2)
  let S0 := rotr s.a 2 ^^^ rotr s.a 13 ^^^ rotr s.a 22
  let maj := (s.a &&& s.b) ^^^ (s.a &&& s.c) ^^^ (s.b &&& s.c)
  let t2 := w32 (S0 + maj)
  ⟨w32 (t1 + t2), s.a, s.b, s.c, w32 (s.d + t1), s.e, s.f, s.g⟩

/-- Compression of one 64-byte block into the chaining value. -/
def compress (h : Vars) (block : Bytes) : Vars :=
  let w := (extend 48 (words 16 block).reverse).reverse
  let r := (K.zip w).foldl round h
  ⟨w32 (h.a + r.a), w32 (h.b + r.b), w32 (h.c + r.c), w32 (h.d + r.d),
   w32 (h.e + r.e), w32 (h.f + r.f), w32 (h.g + r.g), w32 (h.h + r.h)⟩

/-- Compression of `n` consecutive blocks. -/
def blocks : Nat → Vars → Bytes → Vars
  | 0, h, _ => h
  | n + 1, h, bs => blocks n (compress h (bs.take 64)) (bs.drop 64)

/-- Big-endian bytes of a 32-bit word. -/
def be32 (x : Nat) : Bytes := [x >>> 24 % 256, x >>> 16 % 256, x >>> 8 % 256, x % 256]

/-- Model of `sha256.Sum256` (and of `sha256.New` followed by writes and `Sum(nil)`): the
32-byte SHA-256 digest of a byte string. -/
def sum256 (m : Bytes) : Bytes :=
  let p := pad m
  let r := blocks (p.length / 64)
    ⟨0x6a09e667, 0xbb67ae85, 0x3c6ef372, 0xa54ff53a, 0x510e527f, 0x9b05688c, 0x1f83d9ab, 0x5be0cd19⟩ p
  be32 r.a ++ be32 r.b ++ be32 r.c ++ be32 r.d ++ be32 r.e ++ be32 r.f ++ be32 r.g ++ be32 r.h

end Sha256

/-- The hex SHA-256 digest of a payload: `hex.EncodeToString(hash[:])` for
`hash := sha256.Sum256(content)`. -/
def sha256Hex (content : Bytes) : Bytes := hexEncode (Sha256.sum256 content)

/-! ## UTF-8 (`unicode/utf8`, `unicode/utf16`)

Runes are natural numbers.  The masks and shifts of the Go code act on values whose bits do
not overlap, so `x & 0x3F` is written `x % 64`, `x << 6` is `x * 64`, `x >> 6` is `x / 64` and
`|` is `+`. -/

/-- The replacement character `utf8.RuneError`, U+FFFD. -/
def RuneError : Nat := 0xFFFD

/-- Model of `utf8.DecodeRune` (and `utf8.DecodeRuneInString`): the first rune of `p` and its
width in bytes; `(RuneError, 1)` for an invalid or truncated encoding, `(RuneError, 0)` for
empty input.  The tables `first` and `acceptRanges` are read by the class of the first byte:
ASCII below `0x80`; two bytes for `0xC2..0xDF`; three bytes for `0xE0..0xEF`, where the second
byte starts at `0xA0` after `0xE0` and ends at `0x9F` after `0xED`; four bytes for
`0xF0..0xF4`, where the second byte starts at `0x90` after `0xF0` and ends at `0x8F` after
`0xF4`; every other first byte is invalid. -/
def decodeRune : Bytes → Nat × Nat
  | [] => (RuneError, 0)
  | p0 :: rest =>
    if p0 < 0x80 then (p0, 1)
    else if p0 < 0xC2 then (RuneError, 1)
    else if p0 < 0xE0 then
      match rest with
      | b1 :: _ =>
        if 0x80 ≤ b1 ∧ b1 ≤ 0xBF then (p0 % 32 * 64 + b1 % 64, 2) else (RuneError, 1)
      | [] => (RuneError, 1)
    else if p0 < 0xF0 then
      match rest with
      | b1 :: b2 :: _ =>
        if (if p0 = 0xE0 then 0xA0 else 0x80) ≤ b1 ∧ b1 ≤ (if p0 = 0xED then 0x9F else 0xBF)
            ∧ 0x80 ≤ b2 ∧ b2 ≤ 0xBF then
          (p0 % 16 * 4096 + b1 % 64 * 64 + b2 % 64, 3)
        else (RuneError, 1)
      | _ => (RuneError, 1)
    else if p0 ≤ 0xF4 then
      match rest with
      | b1 :: b2 :: b3 :: _ =>
        if (if p0 = 0xF0 then 0x90 else 0x80) ≤ b1 ∧ b1 ≤ (if p0 = 0xF4 then 0x8F else 0xBF)
            ∧ 0x80 ≤ b2 ∧ b2 ≤ 0xBF ∧ 0x80 ≤ b3 ∧ b3 ≤ 0xBF then
          (p0 % 8 * 262144 + b1 % 64 * 4096 + b2 % 64 * 64 + b3 % 64, 4)
        else (RuneError, 1)
      | _ => (RuneError, 1)
    else (RuneError, 1)

/-- Model of `utf8.EncodeRune` / `utf8.AppendRune`: the UTF-8 encoding of a rune; surrogates
and values above U+10FFFF are encoded as U+FFFD. -/
def encodeRune (r : Nat) : Bytes :=
  if r ≤ 0x7F then [r]
  else if r ≤ 0x7FF then [0xC0 + r / 64, 0x80 + r % 64]
  else if 0x10FFFF < r ∨ (0xD800 ≤ r ∧ r ≤ 0xDFFF) then [0xEF, 0xBF, 0xBD]
  else if r ≤ 0xFFFF then [0xE0 + r / 4096, 0x80 + r / 64 % 64, 0x80 + r % 64]
  else [0xF0 + r / 262144, 0x80 + r / 4096 % 64, 0x80 + r / 64 % 64, 0x80 + r % 64]

/-- Model of `utf16.IsSurrogate`. -/
def isSurrogate (r : Nat) : Bool := decide (0xD800 ≤ r ∧ r < 0xE000)

/-- Model of `utf16.DecodeRune`; `none` for the second half stands for the `-1` that `getu4`
returns when no escape follows. -/
def utf16DecodeRune (r1 : Nat) (r2 : Option Nat) : Nat :=
  match r2 with
  | none => RuneError
  | some r2 =>
    if 0xD800 ≤ r1 ∧ r1 < 0xDC00 ∧ 0xDC00 ≤ r2 ∧ r2 < 0xE000 then
      (r1 - 0xD800) * 1024 + (r2 - 0xDC00) + 0x10000
    else RuneError

/-! ## JSON strings (`encoding/json`) -/

/-- The table `htmlSafeSet`: the ASCII bytes `json.Marshal` copies without escaping. -/
def htmlSafe (b : Nat) : Bool :=
  decide (0x20 ≤ b ∧ b < 0x80 ∧ b ≠ 0x22 ∧ b ≠ 0x26 ∧ b ≠ 0x3C ∧ b ≠ 0x3E ∧ b ≠ 0x5C)

/-- The escape `appendString` writes for an ASCII byte that is not in `htmlSafeSet`. -/
def escapeByte (b : Nat) : Bytes :=
  if b = 0x5C ∨ b = 0x22 then [0x5C, b]
  else if b = 0x08 then [0x5C, 0x62]
  else if b = 0x0C then [0x5C, 0x66]
  else if b = 0x0A then [0x5C, 0x6E]
  else if b = 0x0D then [0x5C, 0x72]
  else if b = 0x09 then [0x5C, 0x74]
  else [0x5C, 0x75, 0x30, 0x30, hexDigit (b / 16), hexDigit (b % 16)]

/-- The loop of `appendString` (with `escapeHTML` set): the body of the JSON string literal for
`src`.  The first argument bounds the number of iterations; every iteration consumes at least
one byte. -/
def appendStringLoop : Nat → Bytes → Bytes
  | 0, _ => []
  | _, [] => []
  | n + 1, b :: rest =>
    if b < 0x80 then
      if htmlSafe b then b :: appendStringLoop n rest
      else escapeByte b ++ appendStringLoop n rest
    else
      let cs := decodeRune ((b :: rest).take 4)
      if cs.1 = RuneError ∧ cs.2 = 1 then
        [0x5C, 0x75, 0x66, 0x66, 0x66, 0x64] ++ appendStringLoop n rest
      else if cs.1 = 0x2028 ∨ cs.1 = 0x2029 then
        [0x5C, 0x75, 0x32, 0x30, 0x32, hexDigit (cs.1 % 16)]
          ++ appendStringLoop n ((b :: rest).drop cs.2)
      else (b :: rest).take cs.2 ++ appendStringLoop n ((b :: rest).drop cs.2)

/-- Model of `json.Marshal(string(content))`: the JSON string literal for the bytes. -/
def jsonMarshalString (content : Bytes) : Bytes :=
  [0x22] ++ appendStringLoop content.length content ++ [0x22]

/-- Value of a hexadecimal digit, if it is one. -/
def hexVal (c : Nat) : Option Nat :=
  if 0x30 ≤ c ∧ c ≤ 0x39 then some (c - 0x30)
  else if 0x61 ≤ c ∧ c ≤ 0x66 then some (c - 0x61 + 10)
  else if 0x41 ≤ c ∧ c ≤ 0x46 then some (c - 0x41 + 10)
  else none

/-- Model of `getu4`: the value of a leading `\uXXXX` escape; `none` where Go returns `-1`. -/
def getu4 (s : Bytes) : Option Nat :=
  match s with
  | c0 :: c1 :: a :: b :: c :: d :: _ =>
    if c0 = 0x5C ∧ c1 = 0x75 then
      match hexVal a, hexVal b, hexVal c, hexVal d with
      | some a, some b, some c, some d => some (((a * 16 + b) * 16 + c) * 16 + d)
      | _, _, _, _ => none
    else none
  | _ => none

/-- The byte a one-letter escape stands for (`"`, `\`, `/`, `b`, `f`, `n`, `r`, `t`). -/
def simpleEscape (e : Nat) : Option Nat :=
  if e = 0x22 ∨ e = 0x5C ∨ e = 0x2F then some e
  else if e = 0x62 then some 0x08
  else if e = 0x66 then some 0x0C
  else if e = 0x6E then some 0x0A
  else if e = 0x72 then some 0x0D
  else if e = 0x74 then some 0x09
  else none

/-- Puts decoded bytes in front of the decoded rest. -/
def consDecoded (x : Bytes) (r : Option (Bytes × Bytes)) : Option (Bytes × Bytes) :=
  r.map (fun p => (x ++ p.1, p.2))

/-- The scanner and `unquoteBytes` of `encoding/json` on the inside of a string literal, in one
pass: the decoded string and what follows the closing quote, or `none` if the literal is
malformed.  The first argument bounds the number of iterations. -/
def unquoteLoop : Nat → Bytes → Option (Bytes × Bytes)
  | 0, _ => none
  | _, [] => none
  | n + 1, c :: rest =>
    if c = 0x22 then some ([], rest)
    else if c = 0x5C then
      match rest with
      | [] => none
      | e :: rest1 =>
        if e = 0x75 then
          match getu4 (c :: rest) with
          | none => none
          | some rr =>
            if isSurrogate rr then
              let dec := utf16DecodeRune rr (getu4 (rest1.drop 4))
              if dec ≠ RuneError then
                consDecoded (encodeRune dec) (unquoteLoop n (rest1.drop 10))
              else consDecoded (encodeRune RuneError) (unquoteLoop n (rest1.drop 4))
            else consDecoded (encodeRune rr) (unquoteLoop n (rest1.drop 4))
        else
          match simpleEscape e with
          | some x => consDecoded [x] (unquoteLoop n rest1)
          | none => none
    else if c < 0x20 then none
    else if c < 0x80 then consDecoded [c] (unquoteLoop n rest)
    else
      let rs := decodeRune (c :: rest)
      consDecoded (encodeRune rs.1) (unquoteLoop n ((c :: rest).drop rs.2))

/-- JSON white space. -/
def isSpace (c : Nat) : Bool := decide (c = 0x20 ∨ c = 0x09 ∨ c = 0x0D ∨ c = 0x0A)

/-- Model of `json.Unmarshal(data, &content)` for `var content string`: `some s` when the call
returns no error and leaves `s` in `content`, `none` when it returns an error.  A string
literal is decoded; `null` leaves the zero value; every other input is either malformed or a
JSON value of another type, and both make `Unmarshal` return an error. -/
def jsonUnmarshalString (data : Bytes) : Option Bytes :=
  match data.dropWhile isSpace with
  | [] => none
  | c :: rest =>
    if c = 0x22 then
      match unquoteLoop (rest.length + 1) rest with
      | some (s, rem) => if rem.all isSpace then some s else none
      | none => none
    else if (c :: rest).take 4 = [0x6E, 0x75, 0x6C, 0x6C] ∧ ((c :: rest).drop 4).all isSpace then
      some []
    else none

/-- The payload the build worker takes from a blob: the decoded JSON string, or the raw bytes
when `json.Unmarshal` fails (`deployment_processor.go`, lines 110-115). -/
def decodeBlobContent (contentJSON : Bytes) : Bytes :=
  match jsonUnmarshalString contentJSON with
  | some s => s
  | none => contentJSON

/-! ## Domain records (`internal/domain/models.go`) -/

/-- Values of `uuid.UUID`; `0` is `uuid.Nil`. -/
abbrev UUID := Nat

/-- Values of `time.Time`; `0` is the zero time. -/
abbrev Time := Nat

/-- Content storage record `domain.Blob`. -/
structure Blob where
  Hash : Bytes
  ContentJSON : Bytes
  SizeBytes : Nat
  CreatedAt : Time
deriving DecidableEq, Repr

/-- Version snapshot record `domain.Commit`. -/
structure Commit where
  ID : UUID
  WorkspaceID : UUID
  SiteID : Option UUID
  TreeHash : Bytes
  ParentHash : Option UUID
  MergeParentHash : Option UUID
  Message : String
  AuthorID : UUID
  CreatedAt : Time
deriving DecidableEq, Repr

/-- Tree entry record `domain.Tree`: one file of one commit.  The Go field `Type` is `Type_`. -/
structure Tree where
  ID : UUID
  CommitID : UUID
  Path : Bytes
  BlobHash : Bytes
  Type_ : String
  Mode : String
deriving DecidableEq, Repr

/-- Branch record `domain.Branch`: a named pointer to a commit. -/
structure Branch where
  ID : UUID
  WorkspaceID : UUID
  SiteID : UUID
  Name : String
  HeadCommitID : Option UUID
  IsProtected : Bool
  CreatedAt : Time
  UpdatedAt : Time
deriving DecidableEq, Repr

/-- Deployment record `domain.Deployment`: one publish attempt. -/
structure Deployment where
  ID : UUID
  WorkspaceID : UUID
  SiteID : UUID
  EnvironmentID : UUID
  Status : String
  CommitHash : Bytes
  StoragePath : String
  URL : String
  Logs : String
  TriggeredBy : UUID
  CreatedAt : Time
  FinishedAt : Option Time
deriving DecidableEq, Repr

/-- Audit record `domain.AuditLog`; the metadata is kept as the three values it is built from. -/
structure AuditLog where
  ID : UUID
  WorkspaceID : UUID
  UserID : UUID
  Action : String
  MetadataJSON : UUID × UUID × Bytes
  CreatedAt : Time
deriving DecidableEq, Repr

/-! ## The relational store -/

/-- A row of the table `deployments`: the record, and the statuses the row has been given since
it was inserted, oldest first.  The list is a record of the writes to the column `status`, not
a column of its own; its last element is the current status. -/
structure DeploymentRow where
  row : Deployment
  statuses : List String
deriving DecidableEq, Repr

/-- The tables of the database, each the list of its rows in insertion order. -/
structure Store where
  blobs : List Blob
  commits : List Commit
  trees : List Tree
  branches : List Branch
  deployments : List DeploymentRow
  auditLogs : List AuditLog
deriving DecidableEq, Repr

/-- The store with no rows. -/
def Store.empty : Store := ⟨[], [], [], [], [], []⟩

/-- What a call reads from its environment: `uuid k` is the value of the `k`-th call of
`uuid.New()` in the invocation, `now k` the value of the `k`-th call of `time.Now()`, and
`fault k` tells whether the `k`-th statement sent to the database (or the `k`-th operation on
the stream or the file store) comes back with an error.  All three count from `0`. -/
structure Oracle where
  uuid : Nat → UUID
  now : Nat → Time
  fault : Nat → Bool

/-- The error a failed statement comes back with. -/
def dbError : String := "database error"

/-- A byte string shown inside an error message. -/
def showBytes (b : Bytes) : String := String.mk (b.map Char.ofNat)

/-! ## `GitRepository` (`internal/repository/postgres/git_repository.go`) -/

namespace GitRepository

/-- `INSERT INTO blobs ... ON CONFLICT (hash) DO NOTHING`. -/
def CreateBlob (s : Store) (fault : Bool) (blob : Blob) : Except String Store :=
  if fault then .error ("failed to create blob: " ++ dbError)
  else if s.blobs.any (fun b => decide (b.Hash = blob.Hash)) then .ok s
  else .ok { s with blobs := s.blobs ++ [blob] }

/-- `SELECT ... FROM blobs WHERE hash = $1`. -/
def GetBlob (s : Store) (fault : Bool) (hash : Bytes) : Except String Blob :=
  if fault then .error ("failed to get blob: " ++ dbError)
  else
    match s.blobs.find? (fun b => decide (b.Hash = hash)) with
    | some b => .ok b
    | none => .error "blob not found"

/-- `INSERT INTO commits ...`. -/
def CreateCommit (s : Store) (fault : Bool) (commit : Commit) : Except String Store :=
  if fault then .error ("failed to create commit: " ++ dbError)
  else .ok { s with commits := s.commits ++ [commit] }

/-- `SELECT ... FROM commits WHERE id = $1`. -/
def GetCommit (s : Store) (fault : Bool) (id : UUID) : Except String Commit :=
  if fault then .error ("failed to get commit: " ++ dbError)
  else
    match s.commits.find? (fun c => decide (c.ID = id)) with
    | some c => .ok c
    | none => .error "commit not found"

/-- `INSERT INTO trees ...`. -/
def CreateTree (s : Store) (fault : Bool) (tree : Tree) : Except String Store :=
  if fault then .error ("failed to create tree: " ++ dbError)
  else .ok { s with trees := s.trees ++ [tree] }

/-- `SELECT ... FROM trees WHERE commit_id = $1`. -/
def GetTree (s : Store) (fault : Bool) (commitID : UUID) : Except String (List Tree) :=
  if fault then .error ("failed to get tree: " ++ dbError)
  else .ok (s.trees.filter (fun t => decide (t.CommitID = commitID)))

/-- `INSERT INTO branches ...`. -/
def CreateBranch (s : Store) (fault : Bool) (branch : Branch) : Except String Store :=
  if fault then .error ("failed to create branch: " ++ dbError)
  else .ok { s with branches := s.branches ++ [branch] }

/-- `SELECT ... FROM branches WHERE site_id = $1 AND name = $2`. -/
def GetBranch (s : Store) (fault : Bool) (siteID : UUID) (name : String) : Except String Branch :=
  if fault then .error ("failed to get branch: " ++ dbError)
  else
    match s.branches.find? (fun b => decide (b.SiteID = siteID ∧ b.Name = name)) with
    | some b => .ok b
    | none => .error "branch not found"

/-- `UPDATE branches SET head_commit_id = $1, updated_at = $2 WHERE id = $3`. -/
def UpdateBranch (s : Store) (fault : Bool) (branch : Branch) : Except String Store :=
  if fault then .error ("failed to update branch: " ++ dbError)
  else
    .ok { s with branches := s.branches.map (fun b =>
      if b.ID = branch.ID then
        { b with HeadCommitID := branch.HeadCommitID, UpdatedAt := branch.UpdatedAt }
      else b) }

end GitRepository

/-! ## `GitUseCase` (`internal/usecase/git_usecase.go`)

Every operation returns its Go result together with the store it leaves behind. -/

namespace GitUseCase

/-- `GitUseCase.CreateBranch`.  Statement 0 is the existence check, statement 1 the insert. -/
def CreateBranch (s : Store) (o : Oracle) (workspaceID siteID : UUID) (name : String)
    (fromCommitID : Option UUID) : Except String Branch × Store :=
  match GitRepository.GetBranch s (o.fault 0) siteID name with
  | .ok _ => (.error ("branch " ++ name ++ " already exists"), s)
  | .error _ =>
    let branch : Branch :=
      { ID := o.uuid 0, WorkspaceID := workspaceID, SiteID := siteID, Name := name,
        HeadCommitID := fromCommitID, IsProtected := false, CreatedAt := o.now 0,
        UpdatedAt := 0 }
    match GitRepository.CreateBranch s (o.fault 1) branch with
    | .error e => (.error ("failed to create branch: " ++ e), s)
    | .ok s1 => (.ok branch, s1)

/-- `GitUseCase.GetBranch`. -/
def GetBranch (s : Store) (o : Oracle) (siteID : UUID) (name : String) : Except String Branch :=
  GitRepository.GetBranch s (o.fault 0) siteID name

/-- `GitUseCase.MergeBranches`.  Statements 0 to 4: source lookup, target lookup, source head
lookup, commit insert, target update. -/
def MergeBranches (s : Store) (o : Oracle) (workspaceID siteID : UUID)
    (sourceName targetName : String) (authorID : UUID) : Except String Commit × Store :=
  match GitRepository.GetBranch s (o.fault 0) siteID sourceName with
  | .error e => (.error ("failed to get source branch: " ++ e), s)
  | .ok sourceBranch =>
    match sourceBranch.HeadCommitID with
    | none => (.error "source branch has no commits", s)
    | some sourceHeadID =>
      match GitRepository.GetBranch s (o.fault 1) siteID targetName with
      | .error e => (.error ("failed to get target branch: " ++ e), s)
      | .ok targetBranch =>
        match GitRepository.GetCommit s (o.fault 2) sourceHeadID with
        | .error e => (.error ("failed to get source head commit: " ++ e), s)
        | .ok sourceHead =>
          let mergeCommit : Commit :=
            { ID := o.uuid 0, WorkspaceID := workspaceID, SiteID := some siteID,
              TreeHash := sourceHead.TreeHash, ParentHash := targetBranch.HeadCommitID,
              MergeParentHash := sourceBranch.HeadCommitID,
              Message := "Merge branch '" ++ sourceName ++ "' into '" ++ targetName ++ "'",
              AuthorID := authorID, CreatedAt := o.now 0 }
          match GitRepository.CreateCommit s (o.fault 3) mergeCommit with
          | .error e => (.error ("failed to create merge commit: " ++ e), s)
          | .ok s1 =>
            let targetBranch1 : Branch :=
              { targetBranch with HeadCommitID := some mergeCommit.ID, UpdatedAt := o.now 1 }
            match GitRepository.UpdateBranch s1 (o.fault 4) targetBranch1 with
            | .error e => (.error ("failed to update target branch: " ++ e), s1)
            | .ok s2 => (.ok mergeCommit, s2)

/-- Step 2 of `CommitChanges`, the loop over the file map: iteration `i` hashes the payload,
stores the blob (statement `1 + i`) and appends the tree entry.  On an error the loop stops;
the blobs stored so far stay. -/
def createBlobs (o : Oracle) : Nat → Store → List (Bytes × Bytes) → List Tree →
    Except String (List Tree) × Store
  | _, s, [], treeEntries => (.ok treeEntries, s)
  | i, s, (path, content) :: rest, treeEntries =>
    let blobHash := sha256Hex content
    let blob : Blob :=
      { Hash := blobHash, ContentJSON := jsonMarshalString content,
        SizeBytes := content.length, CreatedAt := o.now i }
    match GitRepository.CreateBlob s (o.fault (1 + i)) blob with
    | .error e => (.error ("failed to create blob for " ++ showBytes path ++ ": " ++ e), s)
    | .ok s1 =>
      createBlobs o (i + 1) s1 rest
        (treeEntries ++ [{ ID := o.uuid i, CommitID := 0, Path := path, BlobHash := blobHash,
                           Type_ := "blob", Mode := "100644" }])

/-- The tree digest of step 3: SHA-256 over `Path + BlobHash` of the entries, written to the
hasher in the order of the slice, in hexadecimal. -/
def treeHashOf (treeEntries : List Tree) : Bytes :=
  sha256Hex (treeEntries.flatMap (fun entry => entry.Path ++ entry.BlobHash))

/-- Step 5 of `CommitChanges`: the tree entries are linked to the commit and inserted in
order, entry `j` by statement `first + j`.  On an error the loop stops; the entries inserted
so far stay. -/
def saveTrees (o : Oracle) (commitID : UUID) : Nat → Store → List Tree → Except String Unit × Store
  | _, s, [] => (.ok (), s)
  | k, s, entry :: rest =>
    match GitRepository.CreateTree s (o.fault k) { entry with CommitID := commitID } with
    | .error e => (.error ("failed to create tree entry: " ++ e), s)
    | .ok s1 => saveTrees o commitID (k + 1) s1 rest

/-- `GitUseCase.CommitChanges`.  `files` is the map in the order the `range` loop visits it.
With `n` files, statement 0 is the branch lookup, statements `1..n` store the blobs, statement
`n + 1` inserts the commit, statements `n + 2 .. 2 n + 1` insert the tree entries and statement
`2 n + 2` updates the branch. -/
def CommitChanges (s : Store) (o : Oracle) (workspaceID siteID : UUID) (branchName : String)
    (message : String) (authorID : UUID) (files : List (Bytes × Bytes)) :
    Except String Commit × Store :=
  match GitRepository.GetBranch s (o.fault 0) siteID branchName with
  | .error e => (.error ("branch " ++ branchName ++ " not found: " ++ e), s)
  | .ok branch =>
    match createBlobs o 0 s files [] with
    | (.error e, s1) => (.error e, s1)
    | (.ok treeEntries, s1) =>
      let n := files.length
      let commit : Commit :=
        { ID := o.uuid n, WorkspaceID := workspaceID, SiteID := some siteID,
          TreeHash := treeHashOf treeEntries, ParentHash := branch.HeadCommitID,
          MergeParentHash := none, Message := message, AuthorID := authorID,
          CreatedAt := o.now n }
      match GitRepository.CreateCommit s1 (o.fault (n + 1)) commit with
      | .error e => (.error ("failed to create commit: " ++ e), s1)
      | .ok s2 =>
        match saveTrees o commit.ID (n + 2) s2 treeEntries with
        | (.error e, s3) => (.error e, s3)
        | (.ok _, s3) =>
          let branch1 : Branch :=
            { branch with HeadCommitID := some commit.ID, UpdatedAt := o.now (n + 1) }
          match GitRepository.UpdateBranch s3 (o.fault (2 * n + 2)) branch1 with
          | .error e => (.error ("failed to update branch: " ++ e), s3)
          | .ok s4 => (.ok commit, s4)

end GitUseCase

/-! ## Identifiers as text (`github.com/google/uuid`) -/

/-- The 16 bytes of an identifier, most significant first. -/
def uuidBytes (u : UUID) : Bytes := (List.range 16).map (fun i => u / 256 ^ (15 - i) % 256)

/-- Model of `UUID.String`: the form `xxxxxxxx-xxxx-xxxx-xxxx-xxxxxxxxxxxx` in lower case. -/
def uuidString (u : UUID) : Bytes :=
  let h := hexEncode (uuidBytes u)
  h.take 8 ++ [0x2D] ++ (h.drop 8).take 4 ++ [0x2D] ++ (h.drop 12).take 4 ++ [0x2D]
    ++ (h.drop 16).take 4 ++ [0x2D] ++ h.drop 20

/-- The value of a run of hexadecimal digits, `none` if one of them is not a digit (the loop
over `xtob`). -/
def parseHex (s : Bytes) : Option Nat :=
  s.foldl (fun acc c =>
    match acc, hexVal c with
    | some a, some v => some (a * 16 + v)
    | _, _ => none) (some 0)

/-- Lower-case form of the ASCII letters, for `strings.EqualFold` against an ASCII literal. -/
def asciiLower (s : Bytes) : Bytes := s.map (fun c => if 0x41 ≤ c ∧ c ≤ 0x5A then c + 32 else c)

/-- Model of `uuid.Parse`: accepts 36 characters with dashes, the same behind `urn:uuid:`, the
same behind one more character in front and one behind (the braced form), and 32 digits
without dashes. -/
def uuidParse (s : Bytes) : Option UUID :=
  if s.length = 32 then parseHex s
  else
    let body : Option Bytes :=
      if s.length = 36 then some s
      else if s.length = 45 then
        if asciiLower (s.take 9) = str "urn:uuid:" then some (s.drop 9) else none
      else if s.length = 38 then some (s.drop 1)
      else none
    match body with
    | none => none
    | some t =>
      if t.getD 8 0 ≠ 0x2D ∨ t.getD 13 0 ≠ 0x2D ∨ t.getD 18 0 ≠ 0x2D ∨ t.getD 23 0 ≠ 0x2D then none
      else
        parseHex (t.take 8 ++ (t.drop 9).take 4 ++ (t.drop 14).take 4 ++ (t.drop 19).take 4
          ++ (t.drop 24).take 12)

/-! ## Paths (`path/filepath`, Unix) -/

/-- The elements of a path between its slashes. -/
def splitSlash : Bytes → List Bytes
  | [] => [[]]
  | c :: rest =>
    if c = 0x2F then [] :: splitSlash rest
    else
      match splitSlash rest with
      | h :: t => (c :: h) :: t
      | [] => [[c]]

/-- The elements `filepath.Clean` keeps: empty elements and `.` are dropped, `..` removes the
element before it, is dropped at the root, and is kept at the start of a relative path.
`stack` holds the elements kept so far, the last one first. -/
def cleanElems (rooted : Bool) : List Bytes → List Bytes → List Bytes
  | stack, [] => stack.reverse
  | stack, e :: es =>
    if e = [] ∨ e = [0x2E] then cleanElems rooted stack es
    else if e = [0x2E, 0x2E] then
      match stack with
      | top :: below =>
        if top = [0x2E, 0x2E] then cleanElems rooted (e :: stack) es
        else cleanElems rooted below es
      | [] => if rooted then cleanElems rooted [] es else cleanElems rooted [e] es
    else cleanElems rooted (e :: stack) es

/-- Model of `filepath.Clean`. -/
def pathClean (path : Bytes) : Bytes :=
  match path with
  | [] => [0x2E]
  | c :: _ =>
    let rooted := decide (c = 0x2F)
    let elems := cleanElems rooted [] (splitSlash path)
    if rooted then 0x2F :: [0x2F].intercalate elems
    else if elems = [] then [0x2E]
    else [0x2F].intercalate elems

/-- Model of `filepath.Join`: the elements from the first non-empty one on, joined by slashes
and cleaned; the empty string if all are empty. -/
def filepathJoin (elem : List Bytes) : Bytes :=
  match elem.dropWhile (fun e => decide (e = [])) with
  | [] => []
  | es => pathClean ([0x2F].intercalate es)

/-- Model of `filepath.Dir`: the path up to its last slash, cleaned. -/
def filepathDir (path : Bytes) : Bytes :=
  pathClean (path.reverse.dropWhile (fun c => decide (c ≠ 0x2F))).reverse

/-- Model of `filepath.Ext`: the suffix of the last element from its last dot on, empty if the
last element has no dot. -/
def filepathExt (path : Bytes) : Bytes :=
  let last := path.reverse.takeWhile (fun c => decide (c ≠ 0x2F))
  if last.contains 0x2E then (last.takeWhile (fun c => decide (c ≠ 0x2E)) ++ [0x2E]).reverse
  else []

/-! ## The file store (`os.MkdirAll`, `os.WriteFile`) -/

/-- Directories and files by their cleaned path.  The directories `.` and `/` always exist. -/
structure FileStore where
  dirs : List Bytes
  files : List (Bytes × Bytes)
deriving DecidableEq, Repr

/-- The file store with nothing in it. -/
def FileStore.empty : FileStore := ⟨[], []⟩

/-- Whether a path is a directory. -/
def FileStore.isDir (fs : FileStore) (p : Bytes) : Bool :=
  decide (p = [0x2E]) || decide (p = [0x2F]) || fs.dirs.contains p

/-- Whether a path is a file. -/
def FileStore.isFile (fs : FileStore) (p : Bytes) : Bool :=
  fs.files.any (fun f => decide (f.1 = p))

/-- The content of the file at a path. -/
def FileStore.read (fs : FileStore) (p : Bytes) : Option Bytes :=
  (fs.files.find? (fun f => decide (f.1 = p))).map Prod.snd

/-- A path and the directories above it, up to `.` or `/`. -/
def ancestors : Nat → Bytes → List Bytes
  | 0, _ => []
  | n + 1, p => if p = [0x2E] ∨ p = [0x2F] then [] else p :: ancestors n (filepathDir p)

/-- Model of `os.MkdirAll`: fails when the path or a directory above it is a file, otherwise
makes every directory on the way that is missing. -/
def MkdirAll (fs : FileStore) (fault : Bool) (path : Bytes) : Except String FileStore :=
  if fault then .error "mkdir: input/output error"
  else
    let dirs := ancestors (path.length + 1) path
    if dirs.any fs.isFile then .error "mkdir: not a directory"
    else .ok { fs with dirs := fs.dirs ++ dirs.reverse.filter (fun d => !fs.isDir d) }

/-- Model of `os.WriteFile`: fails when the path is a directory or its parent is not one,
otherwise the file at the path has the given content afterwards. -/
def WriteFile (fs : FileStore) (fault : Bool) (path : Bytes) (data : Bytes) :
    Except String FileStore :=
  if fault then .error "write: input/output error"
  else if fs.isDir path then .error "write: is a directory"
  else if !fs.isDir (filepathDir path) then .error "write: no such file or directory"
  else
    .ok { fs with files := fs.files.filter (fun f => decide (f.1 ≠ path)) ++ [(path, data)] }

/-! ## `DeploymentRepository` (`internal/repository/postgres/deployment_repository.go`) -/

namespace DeploymentRepository

/-- `INSERT INTO deployments (id, workspace_id, site_id, environment_id, status, commit_hash,
triggered_by, created_at)`: the other columns of the new row are null. -/
def Create (s : Store) (fault : Bool) (d : Deployment) : Except String Store :=
  if fault then .error ("failed to create deployment: " ++ dbError)
  else
    .ok { s with deployments := s.deployments ++
      [{ row := { d with StoragePath := "", URL := "", Logs := "", FinishedAt := none },
         statuses := [d.Status] }] }

/-- `UPDATE deployments SET status = $1, finished_at = $2 WHERE id = $3`, where `finished_at` is
the current time for the statuses `success` and `failed` and null otherwise.  `now` is the
value `time.Now()` returns if it is called. -/
def UpdateStatus (s : Store) (fault : Bool) (now : Time) (id : UUID) (status : String) :
    Except String Store :=
  let finishedAt : Option Time :=
    if status = "success" ∨ status = "failed" then some now else none
  if fault then .error ("failed to update deployment status: " ++ dbError)
  else
    .ok { s with deployments := s.deployments.map (fun r =>
      if r.row.ID = id then
        { row := { r.row with Status := status, FinishedAt := finishedAt },
          statuses := r.statuses ++ [status] }
      else r) }

/-- `SELECT ... FROM deployments WHERE id = $1`. -/
def GetByID (s : Store) (fault : Bool) (id : UUID) : Except String Deployment :=
  if fault then .error ("failed to get deployment: " ++ dbError)
  else
    match s.deployments.find? (fun r => decide (r.row.ID = id)) with
    | some r => .ok r.row
    | none => .error "deployment not found"

end DeploymentRepository

/-! ## `AuditLogRepository`, `Publisher` -/

/-- `AuditLogRepository.Create`: `INSERT INTO audit_logs ...`. -/
def AuditLogRepository.Create (s : Store) (fault : Bool) (log : AuditLog) : Except String Store :=
  if fault then .error ("failed to create audit log: " ++ dbError)
  else .ok { s with auditLogs := s.auditLogs ++ [log] }

/-- One entry of a Redis stream: the stream it was added to and its field map. -/
structure StreamMessage where
  Stream : String
  Values : List (String × Bytes)
deriving DecidableEq, Repr

/-- The entries added to the Redis streams, oldest first. -/
abbrev Redis := List StreamMessage

/-- `Publisher.PublishDeployment` (`internal/service/publisher.go`): `XADD` to the stream
`deployments_stream` with the one field `deployment_id`. -/
def Publisher.PublishDeployment (r : Redis) (fault : Bool) (deploymentID : UUID) :
    Except String Redis :=
  if fault then .error "failed to publish deployment event: redis error"
  else
    .ok (r ++ [{ Stream := "deployments_stream",
                 Values := [("deployment_id", uuidString deploymentID)] }])

/-! ## `DeploymentUseCase` (`internal/usecase/deployment_usecase.go`) -/

/-- `DeploymentUseCase.Create`.  The record behind the pointer `d` is returned as the second
component, with the fields the call has assigned.  Operation 0 is the insert of the deployment,
operation 1 the insert of the audit record, operation 2 the publication. -/
def DeploymentUseCase.Create (s : Store) (r : Redis) (o : Oracle) (d : Deployment) :
    Except String Unit × Deployment × Store × Redis :=
  let d1 : Deployment := { d with ID := o.uuid 0, Status := "pending", CreatedAt := o.now 0 }
  match DeploymentRepository.Create s (o.fault 0) d1 with
  | .error e => (.error ("failed to create deployment: " ++ e), d1, s, r)
  | .ok s1 =>
    let audit : AuditLog :=
      { ID := o.uuid 1, WorkspaceID := d1.WorkspaceID, UserID := d1.TriggeredBy,
        Action := "deployment.create",
        MetadataJSON := (d1.SiteID, d1.EnvironmentID, d1.CommitHash), CreatedAt := o.now 1 }
    let s2 : Store :=
      match AuditLogRepository.Create s1 (o.fault 1) audit with
      | .error _ => s1
      | .ok s2 => s2
    match Publisher.PublishDeployment r (o.fault 2) d1.ID with
    | .error e => (.error ("failed to publish deployment event: " ++ e), d1, s2, r)
    | .ok r1 => (.ok (), d1, s2, r1)

/-- `DeploymentUseCase.GetByID`. -/
def DeploymentUseCase.GetByID (s : Store) (o : Oracle) (id : UUID) : Except String Deployment :=
  DeploymentRepository.GetByID s (o.fault 0) id

/-! ## `DeploymentProcessor` (`internal/worker/deployment_processor.go`) -/

namespace DeploymentProcessor

/-- `failDeployment`: the status update to `failed`, whose own error is dropped. -/
def failDeployment (s : Store) (fault : Bool) (now : Time) (id : UUID) : Store :=
  match DeploymentRepository.UpdateStatus s fault now id "failed" with
  | .ok s1 => s1
  | .error _ => s

/-- The loop over the tree entries (lines 82 to 128).  An entry of type `blob` takes three
operations, numbered `k`, `k + 1`, `k + 2`: the blob lookup, the creation of the directory and
the write.  The result carries the file store reached and the number of the next operation;
on an error the loop stops. -/
def writeEntries (s : Store) (o : Oracle) (siteStoragePath : Bytes) :
    Nat → FileStore → List Tree → Except String Unit × FileStore × Nat
  | k, fs, [] => (.ok (), fs, k)
  | k, fs, treeNode :: rest =>
    if treeNode.Type_ = "blob" then
      match GitRepository.GetBlob s (o.fault k) treeNode.BlobHash with
      | .error e => (.error e, fs, k + 1)
      | .ok blob =>
        let fullPath := filepathJoin [siteStoragePath, treeNode.Path]
        match MkdirAll fs (o.fault (k + 1)) (filepathDir fullPath) with
        | .error e => (.error e, fs, k + 2)
        | .ok fs1 =>
          let content := decodeBlobContent blob.ContentJSON
          let isMd := decide (filepathExt treeNode.Path = str ".md")
          let fullPath1 :=
            if isMd then fullPath.take (fullPath.length - 3) ++ str ".html" else fullPath
          let content1 :=
            if isMd then str "<html><body><pre>" ++ content ++ str "</pre></body></html>"
            else content
          match WriteFile fs1 (o.fault (k + 2)) fullPath1 content1 with
          | .error e => (.error e, fs1, k + 3)
          | .ok fs2 => writeEntries s o siteStoragePath (k + 3) fs2 rest
    else writeEntries s o siteStoragePath k fs rest

/-- Steps 3 and 4 of `Process` (lines 48 to 128), between the update to `building` and the
update to `success`: the commit reference is parsed, the commit looked up (operation 2), the
deployment directory made (operation 3), the tree read (operation 4) and its entries written.
These steps read the database and write the file store.  The result carries the file store
reached and the number of the next operation.  Every error exit of these lines has the form
`p.failDeployment(...); return err`; the call of `failDeployment` is made in `Process`. -/
def build (storagePath : Bytes) (s : Store) (fs : FileStore) (o : Oracle)
    (deployment : Deployment) : Except String Unit × FileStore × Nat :=
  match uuidParse deployment.CommitHash with
  | none => (.error "invalid UUID", fs, 2)
  | some commitUUID =>
    match GitRepository.GetCommit s (o.fault 2) commitUUID with
    | .error e => (.error e, fs, 3)
    | .ok commit =>
      let siteStoragePath := filepathJoin [storagePath, uuidString deployment.WorkspaceID,
        uuidString deployment.SiteID, deployment.CommitHash]
      match MkdirAll fs (o.fault 3) siteStoragePath with
      | .error e => (.error e, fs, 4)
      | .ok fs1 =>
        match GitRepository.GetTree s (o.fault 4) commit.ID with
        | .error e => (.error e, fs1, 5)
        | .ok trees => writeEntries s o siteStoragePath 5 fs1 trees

/-- `DeploymentProcessor.Process`, for the processor with storage root `storagePath`.
Operation 0 is the deployment lookup, operation 1 the update to `building`; the operations of
`build` follow.  When `build` fails, `failDeployment` takes the next operation and the error is
returned; otherwise the next operation is the update to `success`. -/
def Process (storagePath : Bytes) (s : Store) (fs : FileStore) (o : Oracle) (deploymentID : UUID) :
    Except String Unit × Store × FileStore :=
  match DeploymentRepository.GetByID s (o.fault 0) deploymentID with
  | .error e => (.error ("failed to get deployment: " ++ e), s, fs)
  | .ok deployment =>
    match DeploymentRepository.UpdateStatus s (o.fault 1) (o.now 0) deployment.ID "building" with
    | .error e => (.error ("failed to update status to building: " ++ e), s, fs)
    | .ok s1 =>
      match build storagePath s1 fs o deployment with
      | (.error e, fs2, k) =>
        (.error e, failDeployment s1 (o.fault k) (o.now 0) deployment.ID, fs2)
      | (.ok _, fs2, k) =>
        match DeploymentRepository.UpdateStatus s1 (o.fault k) (o.now 0) deployment.ID
            "success" with
        | .error e => (.error ("failed to update status to success: " ++ e), s1, fs2)
        | .ok s2 => (.ok (), s2, fs2)

end DeploymentProcessor

/-! ## Notions used in the statements -/

/-- Whether a Go result carries an error. -/
def isError {α : Type} (r : Except String α) : Bool :=
  match r with
  | .error _ => true
  | .ok _ => false

/-- The tree entries the loop of `CommitChanges` builds for the files from number `i` on. -/
def entriesFrom (o : Oracle) : Nat → List (Bytes × Bytes) → List Tree
  | _, [] => []
  | i, (path, content) :: rest =>
    { ID := o.uuid i, CommitID := 0, Path := path, BlobHash := sha256Hex content,
      Type_ := "blob", Mode := "100644" } :: entriesFrom o (i + 1) rest

/-- Equality of Go results is decidable. -/
instance instDecidableEqResult {α : Type} [DecidableEq α] : DecidableEq (Except String α) :=
  fun a b =>
    match a, b with
    | .ok x, .ok y => if h : x = y then isTrue (by rw [h]) else isFalse (fun e => h (by cases e; rfl))
    | .error x, .error y =>
      if h : x = y then isTrue (by rw [h]) else isFalse (fun e => h (by cases e; rfl))
    | .ok _, .error _ => isFalse (fun e => by cases e)
    | .error _, .ok _ => isFalse (fun e => by cases e)

/-- The payload the build worker gets for a path of a commit: the tree of the commit is read
(`GetTree`), the entry with the path is taken, its blob is read (`GetBlob`) and decoded as in
`Process`; `none` when there is no such entry or no such blob.  The database answers both
lookups. -/
def readBack (s : Store) (commitID : UUID) (path : Bytes) : Option Bytes :=
  match GitRepository.GetTree s false commitID with
  | .error _ => none
  | .ok trees =>
    match trees.find? (fun t => decide (t.Path = path)) with
    | none => none
    | some treeNode =>
      match GitRepository.GetBlob s false treeNode.BlobHash with
      | .error _ => none
      | .ok blob => some (decodeBlobContent blob.ContentJSON)

/-- One call to the version engine, with everything it reads from its environment. -/
inductive GitOp where
  | createBranch (o : Oracle) (workspaceID siteID : UUID) (name : String)
      (fromCommitID : Option UUID)
  | commitChanges (o : Oracle) (workspaceID siteID : UUID) (branchName message : String)
      (authorID : UUID) (files : List (Bytes × Bytes))
  | mergeBranches (o : Oracle) (workspaceID siteID : UUID) (sourceName targetName : String)
      (authorID : UUID)

/-- The store a call leaves behind. -/
def GitOp.apply (s : Store) : GitOp → Store
  | .createBranch o workspaceID siteID name fromCommitID =>
    (GitUseCase.CreateBranch s o workspaceID siteID name fromCommitID).2
  | .commitChanges o workspaceID siteID branchName message authorID files =>
    (GitUseCase.CommitChanges s o workspaceID siteID branchName message authorID files).2
  | .mergeBranches o workspaceID siteID sourceName targetName authorID =>
    (GitUseCase.MergeBranches s o workspaceID siteID sourceName targetName authorID).2

/-- The store after a sequence of calls. -/
def runGitOps (s : Store) (ops : List GitOp) : Store := ops.foldl GitOp.apply s

/-- Whether a commit with the given id is in the store. -/
def commitExists (s : Store) (id : UUID) : Bool := s.commits.any (fun c => decide (c.ID = id))

/-- Whether every branch head that is not null is the id of a commit in the store. -/
def headsExist (s : Store) : Bool :=
  s.branches.all (fun b =>
    match b.HeadCommitID with
    | none => true
    | some h => commitExists s h)

/-- Whether every `CreateBranch` of the sequence is given no commit, or the id of a commit
that is in the store when the call is made. -/
def branchesFromExisting : Store → List GitOp → Bool
  | _, [] => true
  | s, op :: rest =>
    (match op with
      | .createBranch _ _ _ _ (some h) => commitExists s h
      | _ => true)
    && branchesFromExisting (op.apply s) rest

/-- The database, the Redis streams and the file store together. -/
structure Pipeline where
  db : Store
  redis : Redis
  files : FileStore
deriving DecidableEq, Repr

/-- One call to the deployment pipeline, with everything it reads from its environment: a
`DeploymentUseCase.Create`, or a `DeploymentProcessor.Process` by the worker. -/
inductive PipelineOp where
  | create (o : Oracle) (d : Deployment)
  | process (o : Oracle) (deploymentID : UUID)

/-- The state a call leaves behind, for the processor with storage root `storagePath`. -/
def PipelineOp.apply (storagePath : Bytes) (w : Pipeline) : PipelineOp → Pipeline
  | .create o d =>
    let r := DeploymentUseCase.Create w.db w.redis o d
    { db := r.2.2.1, redis := r.2.2.2, files := w.files }
  | .process o deploymentID =>
    let r := DeploymentProcessor.Process storagePath w.db w.files o deploymentID
    { db := r.2.1, redis := w.redis, files := r.2.2 }

/-- The state after a sequence of calls. -/
def runPipeline (storagePath : Bytes) (w : Pipeline) (ops : List PipelineOp) : Pipeline :=
  ops.foldl (PipelineOp.apply storagePath) w

/-- The deployment ids the `Process` calls of a sequence are made for, in order. -/
def processedIDs : List PipelineOp → List UUID
  | [] => []
  | .process _ deploymentID :: rest => deploymentID :: processedIDs rest
  | .create _ _ :: rest => processedIDs rest

/-- Whether a sequence of statuses is a prefix of `pending, building, success` or of
`pending, building, failed`. -/
def forwardOnly (l : List String) : Bool :=
  l.isPrefixOf ["pending", "building", "success"] || l.isPrefixOf ["pending", "building", "failed"]

/-- The invariant of the pipeline for a list `P` of processed ids: the statuses of every row
only went forward, and a row whose id was not processed has only been `pending`. -/
def statusInv (P : List UUID) (s : Store) : Prop :=
  ∀ r ∈ s.deployments, forwardOnly r.statuses = true ∧ (r.row.ID ∉ P → r.statuses = ["pending"])

/-- The loop of `utf8.Valid`: rune after rune, no decoding is the error `(RuneError, 1)`.  The
first argument bounds the number of iterations. -/
def utf8ValidLoop : Nat → Bytes → Bool
  | _, [] => true
  | 0, _ :: _ => false
  | n + 1, b :: rest =>
    let rs := decodeRune (b :: rest)
    if rs.1 = RuneError ∧ rs.2 = 1 then false
    else utf8ValidLoop n ((b :: rest).drop rs.2)

/-- Model of `utf8.Valid`: whether the bytes are a sequence of well-formed UTF-8 encodings. -/
def utf8Valid (p : Bytes) : Bool := utf8ValidLoop p.length p

/-- What a decoding that is not an error says about the bytes decoded: `RuneShape l r n` holds
when `l` starts with a well-formed encoding, of `n` bytes, of the rune `r`. -/
inductive RuneShape : Bytes → Nat → Nat → Prop where
  | one (p0 : Nat) (rest : Bytes) : p0 < 0x80 → RuneShape (p0 :: rest) p0 1
  | two (p0 b1 : Nat) (rest : Bytes) : 0xC2 ≤ p0 → p0 < 0xE0 → 0x80 ≤ b1 → b1 ≤ 0xBF →
      RuneShape (p0 :: b1 :: rest) (p0 % 32 * 64 + b1 % 64) 2
  | three (p0 b1 b2 : Nat) (rest : Bytes) : 0xE0 ≤ p0 → p0 < 0xF0 →
      (if p0 = 0xE0 then 0xA0 else 0x80) ≤ b1 → b1 ≤ (if p0 = 0xED then 0x9F else 0xBF) →
      0x80 ≤ b2 → b2 ≤ 0xBF →
      RuneShape (p0 :: b1 :: b2 :: rest) (p0 % 16 * 4096 + b1 % 64 * 64 + b2 % 64) 3
  | four (p0 b1 b2 b3 : Nat) (rest : Bytes) : 0xF0 ≤ p0 → p0 ≤ 0xF4 →
      (if p0 = 0xF0 then 0x90 else 0x80) ≤ b1 → b1 ≤ (if p0 = 0xF4 then 0x8F else 0xBF) →
      0x80 ≤ b2 → b2 ≤ 0xBF → 0x80 ≤ b3 → b3 ≤ 0xBF →
      RuneShape (p0 :: b1 :: b2 :: b3 :: rest)
        (p0 % 8 * 262144 + b1 % 64 * 4096 + b2 % 64 * 64 + b3 % 64) 4

/-! ## `Worker` (`internal/worker/worker.go`) -/

namespace Worker

/-- The entries `XReadGroup` hands to the worker, oldest first: those of the stream
`deployments_stream`. -/
def delivered (r : Redis) : List StreamMessage :=
  r.filter (fun m => decide (m.Stream = "deployments_stream"))

/-- What the body of the loop did with one entry: whether it acknowledged the entry, the id
`Process` was called with when it was called, and the database and file store afterwards. -/
structure Handled where
  acked : Bool
  processed : Option UUID
  db : Store
  files : FileStore
deriving DecidableEq, Repr

/-- The body of the loop of `Worker.Start` for one entry (lines 61 to 80).  The field
`deployment_id` is read as a string and parsed; when it is missing or does not parse the entry
is acknowledged and dropped; otherwise `Process` is called, and the entry is acknowledged when
`Process` returns no error.  A field of a stream entry is always a string. -/
def handleMessage (storagePath : Bytes) (s : Store) (fs : FileStore) (o : Oracle)
    (msg : StreamMessage) : Handled :=
  match msg.Values.lookup "deployment_id" with
  | none => ⟨true, none, s, fs⟩
  | some deploymentIDStr =>
    match uuidParse deploymentIDStr with
    | none => ⟨true, none, s, fs⟩
    | some deploymentID =>
      match DeploymentProcessor.Process storagePath s fs o deploymentID with
      | (.error _, s1, fs1) => ⟨false, some deploymentID, s1, fs1⟩
      | (.ok _, s1, fs1) => ⟨true, some deploymentID, s1, fs1⟩

end Worker

/-! ## Notions for the build worker and the tree hasher -/

/-- The bytes written to the tree hasher in step 3 of `CommitChanges` (lines 160 to 163):
`Path + BlobHash` of each entry, in the order of the slice, with nothing in between. -/
def GitUseCase.treeHasherInput (treeEntries : List Tree) : Bytes :=
  treeEntries.flatMap (fun entry => entry.Path ++ entry.BlobHash)

/-- Whether a byte is one of the digits `0` to `9`, `a` to `f` that `hex.EncodeToString`
writes. -/
def isLowerHex (c : Nat) : Bool := (0x30 ≤ c && c ≤ 0x39) || (0x61 ≤ c && c ≤ 0x66)

/-- Whether a byte string has the form of a hex SHA-256 digest: 64 lower-case hex digits. -/
def isDigest (h : Bytes) : Bool := h.length == 64 && h.all isLowerHex

/-- Whether tree entries are in the order of their paths, bytewise, without repetition. -/
def pathSorted (l : List Tree) : Prop := l.Pairwise (fun a b => a.Path < b.Path)

/-- The order of the paths of tree entries can be decided. -/
instance instDecidablePathSorted (l : List Tree) : Decidable (pathSorted l) := by
  unfold pathSorted
  infer_instance

/-- The path the loop of `Process` writes the file of a tree entry to (lines 93, 118 and 119):
the path of the entry joined to the deployment directory, with the last three bytes replaced
by `.html` when the extension of the entry path is `.md`. -/
def DeploymentProcessor.outputPath (siteStoragePath path : Bytes) : Bytes :=
  let fullPath := filepathJoin [siteStoragePath, path]
  if filepathExt path = str ".md" then fullPath.take (fullPath.length - 3) ++ str ".html"
  else fullPath

/-- The bytes the loop of `Process` writes for a tree entry (lines 110 to 121): the decoded
content of the blob, wrapped in an HTML page when the extension of the entry path is `.md`. -/
def DeploymentProcessor.outputContent (path contentJSON : Bytes) : Bytes :=
  let content := decodeBlobContent contentJSON
  if filepathExt path = str ".md" then
    str "<html><body><pre>" ++ content ++ str "</pre></body></html>"
  else content

/-- The deployment directory of `Process` (line 69): storage root, workspace, site and commit
reference, joined. -/
def DeploymentProcessor.siteStoragePath (storagePath : Bytes) (deployment : Deployment) : Bytes :=
  filepathJoin [storagePath, uuidString deployment.WorkspaceID, uuidString deployment.SiteID,
    deployment.CommitHash]

/-- The text of a cleaned path with the given elements: the last step of `pathClean`. -/
def joinElems (rooted : Bool) (elems : List Bytes) : Bytes :=
  if rooted then 0x2F :: [0x2F].intercalate elems
  else if elems = [] then [0x2E]
  else [0x2F].intercalate elems

/-- Whether a stack of path elements, the last one first, is one `cleanElems` can hold: no
element is empty, `.` or has a slash, and `..` stands only below other `..`, at the start of
a path that is not rooted. -/
def isCleanStack (rooted : Bool) : List Bytes → Bool
  | [] => true
  | e :: below =>
    if e = [0x2E, 0x2E] then !rooted && below.all (fun x => decide (x = [0x2E, 0x2E]))
    else decide (e ≠ []) && decide (e ≠ [0x2E]) && !e.contains 0x2F && isCleanStack rooted below

/-- Whether a path is made of names only: none of its elements is empty, `.` or `..`. -/
def isPlainPath (p : Bytes) : Bool :=
  (splitSlash p).all (fun e => decide (e ≠ []) && decide (e ≠ [0x2E]) && decide (e ≠ [0x2E, 0x2E]))

/-! ## Fixtures for the concrete runs -/

/-- An oracle without errors: the `k`-th identifier is `100 + k`, the clock reads `k`. -/
def calmOracle : Oracle := ⟨fun k => 100 + k, fun k => k, fun _ => false⟩

/-- The store with the single, unborn branch `main` of site `2`; the branch has id `100`. -/
def freshMain : Store := (GitUseCase.CreateBranch Store.empty calmOracle 1 2 "main" none).2

/-- A store with one commit, `7`, of tree digest `D`, and two branches of site `2`: `dev`
(id 10) with head `7` and the unborn `main` (id 11). -/
def twoBranches : Store :=
  { blobs := [], commits := [⟨7, 1, some 2, str "D", none, none, "first", 9, 0⟩], trees := [],
    branches := [⟨10, 1, 2, "dev", some 7, false, 0, 0⟩, ⟨11, 1, 2, "main", none, false, 0, 0⟩],
    deployments := [], auditLogs := [] }

/-- A deployment request for commit reference `nope`, which is not the text of an identifier. -/
def badDeployment : Deployment := ⟨0, 1, 2, 3, "", str "nope", "", "", "", 9, 0, none⟩

/-- The pipeline with nothing stored. -/
def Pipeline.empty : Pipeline := ⟨Store.empty, [], FileStore.empty⟩

/-- The store `freshMain` after the file `a ↦ x` was committed to `main`: the commit has id
`101`, its one tree entry has id `100`. -/
def mainWithA : Store :=
  (GitUseCase.CommitChanges freshMain calmOracle 1 2 "main" "first" 9 [(str "a", str "x")]).2

/-- The store `mainWithA` with a second, unborn branch `dev` (id 300). -/
def mainAndDev : Store :=
  (GitUseCase.CreateBranch mainWithA ⟨fun k => 300 + k, fun k => k, fun _ => false⟩ 1 2 "dev"
    none).2

/-- A deployment request whose caller has filled in an id and a status of its own. -/
def prefilledDeployment : Deployment := ⟨77, 1, 2, 3, "success", str "nope", "", "", "", 9, 0, none⟩

/-- The store after a request for commit reference `nope` was created in the empty store: one
deployment, with id `100`, pending. -/
def onePending : Store :=
  (DeploymentUseCase.Create Store.empty [] calmOracle badDeployment).2.2.1

/-- A store with the commit `7` of three tree entries, the files `index.html` and
`docs/page.md` and a directory entry `docs`, the two blobs of the files, and the pending
deployment `100` of workspace `1` and site `2` for commit `7`. -/
def siteStore : Store :=
  { blobs :=
      [⟨str "2b200d8c3cd569d3017aba0bf0ab12b54786f0f89c55c41202d93d5a4971333e",
        jsonMarshalString (str "<html>Hello</html>"), 18, 0⟩,
       ⟨str "38c64a17e33e98b7abb8edace0888dffe5918eea28fe4812281fa1ecc0664af4",
        jsonMarshalString (str "# Hi"), 4, 0⟩],
    commits := [⟨7, 1, some 2, str "T", none, none, "first", 9, 0⟩],
    trees :=
      [⟨20, 7, str "index.html",
        str "2b200d8c3cd569d3017aba0bf0ab12b54786f0f89c55c41202d93d5a4971333e", "blob", "100644"⟩,
       ⟨21, 7, str "docs", str "", "tree", "040000"⟩,
       ⟨22, 7, str "docs/page.md",
        str "38c64a17e33e98b7abb8edace0888dffe5918eea28fe4812281fa1ecc0664af4", "blob", "100644"⟩],
    branches := [],
    deployments :=
      [⟨⟨100, 1, 2, 3, "pending", str "00000000-0000-0000-0000-000000000007", "", "", "", 9, 0,
          none⟩, ["pending"]⟩],
    auditLogs := [] }

/-- The store `siteStore` with another tree for commit `7`: the one file
`../../../evil.html`. -/
def escapeStore : Store :=
  { siteStore with trees :=
      [⟨20, 7, str "../../../evil.html",
        str "2b200d8c3cd569d3017aba0bf0ab12b54786f0f89c55c41202d93d5a4971333e", "blob",
        "100644"⟩] }

/-- The store `siteStore` with another tree for commit `7`: the two files `a.md` and
`a.html`. -/
def collideStore : Store :=
  { siteStore with trees :=
      [⟨20, 7, str "a.md",
        str "38c64a17e33e98b7abb8edace0888dffe5918eea28fe4812281fa1ecc0664af4", "blob", "100644"⟩,
       ⟨21, 7, str "a.html",
        str "2b200d8c3cd569d3017aba0bf0ab12b54786f0f89c55c41202d93d5a4971333e", "blob",
        "100644"⟩] }

/-! # Theorems -/

/-! ## What the loops of `CommitChanges` leave alone -/

theorem createBlob_frame {s s1 : Store} {f : Bool} {b : Blob}
    (h : GitRepository.CreateBlob s f b = .ok s1) :
    s1.branches = s.branches ∧ s1.commits = s.commits ∧ s1.trees = s.trees
      ∧ s1.deployments = s.deployments ∧ s1.auditLogs = s.auditLogs := by
  unfold GitRepository.CreateBlob at h
  split_ifs at h
  · cases h; simp
  · cases h; simp

theorem createBlobs_frame (o : Oracle) (files : List (Bytes × Bytes)) :
    ∀ (i : Nat) (s : Store) (acc : List Tree),
      (GitUseCase.createBlobs o i s files acc).2.branches = s.branches
      ∧ (GitUseCase.createBlobs o i s files acc).2.commits = s.commits
      ∧ (GitUseCase.createBlobs o i s files acc).2.trees = s.trees
      ∧ (GitUseCase.createBlobs o i s files acc).2.deployments = s.deployments
      ∧ (GitUseCase.createBlobs o i s files acc).2.auditLogs = s.auditLogs := by
  induction files with
  | nil => intro i s acc; simp [GitUseCase.createBlobs]
  | cons f rest ih =>
    intro i s acc
    obtain ⟨path, content⟩ := f
    simp only [GitUseCase.createBlobs]
    split
    · simp
    · rename_i s1 h
      obtain ⟨h1, h2, h3, h4, h5⟩ := createBlob_frame h
      obtain ⟨g1, g2, g3, g4, g5⟩ := ih (i + 1) s1
        (acc ++ [{ ID := o.uuid i, CommitID := 0, Path := path, BlobHash := sha256Hex content,
                   Type_ := "blob", Mode := "100644" }])
      exact ⟨g1.trans h1, g2.trans h2, g3.trans h3, g4.trans h4, g5.trans h5⟩

theorem createBlobs_ok_entries (o : Oracle) (files : List (Bytes × Bytes)) :
    ∀ (i : Nat) (s : Store) (acc es : List Tree) (s1 : Store),
      GitUseCase.createBlobs o i s files acc = (.ok es, s1) → es = acc ++ entriesFrom o i files := by
  induction files with
  | nil => intro i s acc es s1 h; simp [GitUseCase.createBlobs] at h; simp [entriesFrom, h.1]
  | cons f rest ih =>
    intro i s acc es s1 h
    obtain ⟨path, content⟩ := f
    simp only [GitUseCase.createBlobs] at h
    split at h
    · simp at h
    · have := ih _ _ _ _ _ h
      simp [this, entriesFrom]

theorem saveTrees_frame (o : Oracle) (cid : UUID) (entries : List Tree) :
    ∀ (k : Nat) (s : Store),
      (GitUseCase.saveTrees o cid k s entries).2.branches = s.branches
      ∧ (GitUseCase.saveTrees o cid k s entries).2.commits = s.commits
      ∧ (GitUseCase.saveTrees o cid k s entries).2.blobs = s.blobs
      ∧ (GitUseCase.saveTrees o cid k s entries).2.deployments = s.deployments
      ∧ (GitUseCase.saveTrees o cid k s entries).2.auditLogs = s.auditLogs := by
  induction entries with
  | nil => intro k s; simp [GitUseCase.saveTrees]
  | cons e rest ih =>
    intro k s
    simp only [GitUseCase.saveTrees, GitRepository.CreateTree]
    split
    · simp
    · rename_i s1 h
      split_ifs at h
      cases h
      obtain ⟨g1, g2, g3, g4, g5⟩ := ih (k + 1)
        { s with trees := s.trees ++ [{ e with CommitID := cid }] }
      exact ⟨g1, g2, g3, g4, g5⟩

theorem saveTrees_ok_trees (o : Oracle) (cid : UUID) (entries : List Tree) :
    ∀ (k : Nat) (s s1 : Store) (u : Unit),
      GitUseCase.saveTrees o cid k s entries = (.ok u, s1) →
        s1.trees = s.trees ++ entries.map (fun e => { e with CommitID := cid }) := by
  induction entries with
  | nil => intro k s s1 u h; simp [GitUseCase.saveTrees] at h; simp [h]
  | cons e rest ih =>
    intro k s s1 u h
    simp only [GitUseCase.saveTrees, GitRepository.CreateTree] at h
    split at h
    · simp at h
    · rename_i s2 h2
      split_ifs at h2
      cases h2
      have := ih _ _ _ _ h
      simp [this]

/-! ## Tree digest and iteration order -/

set_option maxRecDepth 100000 in
/-- C1: the tree digest is not a function of the file set.  The map with the two entries
`a ↦ x` and `b ↦ y`, committed to the same fresh branch, gets the tree hash `087a...` when the
loop visits `a` first and `94d1...` when it visits `b` first. -/
theorem commitChanges_treeHash_follows_iteration_order :
    (GitUseCase.CommitChanges freshMain calmOracle 1 2 "main" "snapshot" 9
        [(str "a", str "x"), (str "b", str "y")]).1.toOption.map Commit.TreeHash
      = some (str "087ae7f4f16f1c867d77f41b9848be072dccde5c40101baae9ca2632eb3fae61")
    ∧ (GitUseCase.CommitChanges freshMain calmOracle 1 2 "main" "snapshot" 9
        [(str "b", str "y"), (str "a", str "x")]).1.toOption.map Commit.TreeHash
      = some (str "94d13d654a0e4342c6afb099616eb661c7f07fdad4a14ec5cfee3614f5bfbf87") := by
  decide

/-- Every file has its entry among the entries built. -/
theorem entriesFrom_mem (o : Oracle) (files : List (Bytes × Bytes)) :
    ∀ (i : Nat) (f : Bytes × Bytes), f ∈ files →
      ∃ t ∈ entriesFrom o i files, t.Path = f.1 ∧ t.BlobHash = sha256Hex f.2 := by
  induction files with
  | nil => intro i f hf; simp at hf
  | cons g rest ih =>
    intro i f hf
    obtain ⟨path, content⟩ := g
    rcases List.mem_cons.mp hf with h | h
    · subst h
      exact ⟨_, List.mem_cons_self _ _, rfl, rfl⟩
    · obtain ⟨t, ht, hp⟩ := ih (i + 1) f h
      exact ⟨t, List.mem_cons_of_mem _ ht, hp⟩

/-! ## The shape of a run of `CommitChanges` -/

/-- The commit record `CommitChanges` builds for a branch found with head `head`. -/
theorem commitChanges_ok {s s4 : Store} {o : Oracle} {workspaceID siteID : UUID}
    {branchName message : String} {authorID : UUID} {files : List (Bytes × Bytes)} {c : Commit}
    (h : GitUseCase.CommitChanges s o workspaceID siteID branchName message authorID files
      = (.ok c, s4)) :
    ∃ branch s1,
      GitRepository.GetBranch s (o.fault 0) siteID branchName = .ok branch
      ∧ GitUseCase.createBlobs o 0 s files [] = (.ok (entriesFrom o 0 files), s1)
      ∧ c = { ID := o.uuid files.length, WorkspaceID := workspaceID, SiteID := some siteID,
              TreeHash := GitUseCase.treeHashOf (entriesFrom o 0 files),
              ParentHash := branch.HeadCommitID, MergeParentHash := none, Message := message,
              AuthorID := authorID, CreatedAt := o.now files.length }
      ∧ s4.blobs = s1.blobs
      ∧ s4.commits = s.commits ++ [c]
      ∧ s4.trees = s.trees ++ (entriesFrom o 0 files).map (fun e => { e with CommitID := c.ID })
      ∧ s4.branches = s.branches.map (fun b =>
          if b.ID = branch.ID then
            { b with HeadCommitID := some c.ID, UpdatedAt := o.now (files.length + 1) }
          else b)
      ∧ s4.deployments = s.deployments ∧ s4.auditLogs = s.auditLogs := by
  unfold GitUseCase.CommitChanges at h
  split at h
  · simp at h
  · rename_i branch hb
    split at h
    · simp at h
    · rename_i es s1 hcb
      have hes := createBlobs_ok_entries o files 0 s [] es s1 hcb
      simp only [List.nil_append] at hes
      subst hes
      obtain ⟨f1, f2, f3, f4, f5⟩ := createBlobs_frame o files 0 s []
      rw [hcb] at f1 f2 f3 f4 f5
      simp only at f1 f2 f3 f4 f5
      simp only [GitRepository.CreateCommit] at h
      split at h
      · simp at h
      · rename_i s2 hc
        split_ifs at hc
        cases hc
        split at h
        · simp at h
        · rename_i u s3 hst
          have ht := saveTrees_ok_trees o _ _ _ _ _ _ hst
          obtain ⟨g1, g2, g3, g4, g5⟩ := saveTrees_frame o (o.uuid files.length)
            (entriesFrom o 0 files) (files.length + 2)
            { s1 with commits := s1.commits ++ [
              { ID := o.uuid files.length, WorkspaceID := workspaceID, SiteID := some siteID,
                TreeHash := GitUseCase.treeHashOf (entriesFrom o 0 files),
                ParentHash := branch.HeadCommitID, MergeParentHash := none, Message := message,
                AuthorID := authorID, CreatedAt := o.now files.length }] }
          rw [hst] at g1 g2 g3 g4 g5
          simp only at g1 g2 g3 g4 g5 ht
          simp only [GitRepository.UpdateBranch] at h
          split at h
          · simp at h
          · rename_i s5 hu
            split_ifs at hu
            cases hu
            simp only [Prod.mk.injEq, Except.ok.injEq] at h
            obtain ⟨hc, hs⟩ := h
            subst hc
            subst hs
            refine ⟨branch, s1, hb, hcb, rfl, ?_, ?_, ?_, ?_, ?_, ?_⟩
            · simp [g3]
            · simp [g2, f2]
            · simp [ht, f3]
            · simp [g1, f1]
            · simp [g4, f4]
            · simp [g5, f5]

/-- A run of `CommitChanges` either leaves the branches alone or returns a commit. -/
theorem commitChanges_branches_or_ok (s : Store) (o : Oracle) (workspaceID siteID : UUID)
    (branchName message : String) (authorID : UUID) (files : List (Bytes × Bytes)) :
    (GitUseCase.CommitChanges s o workspaceID siteID branchName message authorID
        files).2.branches = s.branches
    ∨ ∃ c, (GitUseCase.CommitChanges s o workspaceID siteID branchName message authorID
        files).1 = .ok c := by
  unfold GitUseCase.CommitChanges
  split
  · exact Or.inl rfl
  · rename_i branch hb
    obtain ⟨f1, -, -, -, -⟩ := createBlobs_frame o files 0 s []
    split
    · rename_i e s1 hcb
      rw [hcb] at f1
      exact Or.inl f1
    · rename_i es s1 hcb
      rw [hcb] at f1
      simp only at f1
      simp only [GitRepository.CreateCommit]
      split
      · exact Or.inl f1
      · rename_i s2 hc
        split_ifs at hc
        cases hc
        obtain ⟨g1, -, -, -, -⟩ := saveTrees_frame o (o.uuid files.length) es (files.length + 2)
            { s1 with commits := s1.commits ++ [
              { ID := o.uuid files.length, WorkspaceID := workspaceID, SiteID := some siteID,
                TreeHash := GitUseCase.treeHashOf es,
                ParentHash := branch.HeadCommitID, MergeParentHash := none, Message := message,
                AuthorID := authorID, CreatedAt := o.now files.length }] }
        split
        · rename_i e s3 hst
          rw [hst] at g1
          simp only at g1
          exact Or.inl (g1.trans f1)
        · rename_i u s3 hst
          rw [hst] at g1
          simp only at g1
          simp only [GitRepository.UpdateBranch]
          split
          · exact Or.inl (g1.trans f1)
          · exact Or.inr ⟨_, rfl⟩

/-! ## The branch head moves last -/

/-- C3: if `CommitChanges` returns an error, the table of branches, and with it the stored head
of the named branch, is what it was before the call; and whenever the call has changed the
table of branches, it returns a commit that is in the store together with one tree entry,
linked to it, for every file of the map. -/
theorem commitChanges_error_keeps_branch_head (s : Store) (o : Oracle) (workspaceID siteID : UUID)
    (branchName message : String) (authorID : UUID) (files : List (Bytes × Bytes)) :
    (isError (GitUseCase.CommitChanges s o workspaceID siteID branchName message authorID
        files).1 = true →
      (GitUseCase.CommitChanges s o workspaceID siteID branchName message authorID
        files).2.branches = s.branches)
    ∧ ((GitUseCase.CommitChanges s o workspaceID siteID branchName message authorID
        files).2.branches ≠ s.branches →
      ∃ c, (GitUseCase.CommitChanges s o workspaceID siteID branchName message authorID
          files).1 = .ok c
        ∧ c ∈ (GitUseCase.CommitChanges s o workspaceID siteID branchName message authorID
          files).2.commits
        ∧ ∀ f ∈ files, ∃ t ∈ (GitUseCase.CommitChanges s o workspaceID siteID branchName
            message authorID files).2.trees,
            t.CommitID = c.ID ∧ t.Path = f.1 ∧ t.BlobHash = sha256Hex f.2) := by
  rcases commitChanges_branches_or_ok s o workspaceID siteID branchName message authorID files
    with hsame | ⟨c, hc⟩
  · exact ⟨fun _ => hsame, fun hne => absurd hsame hne⟩
  · refine ⟨fun he => ?_, fun _ => ⟨c, hc, ?_⟩⟩
    · rw [hc] at he
      simp [isError] at he
    · have hrun : GitUseCase.CommitChanges s o workspaceID siteID branchName message authorID
          files = (.ok c, (GitUseCase.CommitChanges s o workspaceID siteID branchName message
            authorID files).2) := by
        rw [← hc]
      obtain ⟨branch, s1, -, -, -, -, hcs, hts, -, -, -⟩ := commitChanges_ok hrun
      refine ⟨by simp [hcs], fun f hf => ?_⟩
      rw [hts]
      obtain ⟨t, ht, hp, hh⟩ := entriesFrom_mem o files 0 f hf
      exact ⟨{ t with CommitID := c.ID }, by
        simp only [List.mem_append, List.mem_map]
        exact Or.inr ⟨t, ht, rfl⟩, rfl, hp, hh⟩

set_option maxRecDepth 100000 in
/-- C3, a run that fails at its last statement: with two files, statement 6 is the update of
the branch; when it fails the call returns an error and the branches are those of before. -/
theorem commitChanges_error_keeps_branch_head_witness :
    isError (GitUseCase.CommitChanges freshMain ⟨fun k => 100 + k, fun k => k, fun k => k == 6⟩
        1 2 "main" "snapshot" 9 [(str "a", str "x"), (str "b", str "y")]).1 = true
    ∧ (GitUseCase.CommitChanges freshMain ⟨fun k => 100 + k, fun k => k, fun k => k == 6⟩
        1 2 "main" "snapshot" 9 [(str "a", str "x"), (str "b", str "y")]).2.branches
      = freshMain.branches :=
  ⟨by decide, (commitChanges_error_keeps_branch_head freshMain
      ⟨fun k => 100 + k, fun k => k, fun k => k == 6⟩ 1 2 "main" "snapshot" 9
      [(str "a", str "x"), (str "b", str "y")]).1 (by decide)⟩

/-! ## Lookups -/

/-- A lookup that returns a branch was answered by the database, and finds the same branch
whenever it is answered. -/
theorem getBranch_ok {s : Store} {f : Bool} {siteID : UUID} {name : String} {b : Branch}
    (h : GitRepository.GetBranch s f siteID name = .ok b) :
    f = false ∧ GitRepository.GetBranch s false siteID name = .ok b := by
  cases f
  · exact ⟨rfl, h⟩
  · simp [GitRepository.GetBranch] at h

/-- A commit lookup that returns a commit was answered by the database. -/
theorem getCommit_ok {s : Store} {f : Bool} {id : UUID} {c : Commit}
    (h : GitRepository.GetCommit s f id = .ok c) :
    f = false ∧ GitRepository.GetCommit s false id = .ok c := by
  cases f
  · exact ⟨rfl, h⟩
  · simp [GitRepository.GetCommit] at h

/-- The branch a lookup returns is a row of the table with the site and name asked for. -/
theorem getBranch_mem {s : Store} {f : Bool} {siteID : UUID} {name : String} {b : Branch}
    (h : GitRepository.GetBranch s f siteID name = .ok b) :
    b ∈ s.branches ∧ b.SiteID = siteID ∧ b.Name = name := by
  unfold GitRepository.GetBranch at h
  split_ifs at h
  split at h
  · rename_i b1 hf
    cases h
    have := List.find?_some hf
    exact ⟨List.mem_of_find?_eq_some hf, by simpa using this⟩
  · cases h

/-- Looking up by site and name in a table whose rows were changed without touching site or
name. -/
theorem find_branch_map (l : List Branch) (g : Branch → Branch) (siteID : UUID) (name : String)
    (hg : ∀ b, (g b).SiteID = b.SiteID ∧ (g b).Name = b.Name) :
    (l.map g).find? (fun b => decide (b.SiteID = siteID ∧ b.Name = name))
      = (l.find? (fun b => decide (b.SiteID = siteID ∧ b.Name = name))).map g := by
  induction l with
  | nil => rfl
  | cons a rest ih =>
    simp only [List.map_cons, List.find?_cons]
    rw [(hg a).1, (hg a).2]
    split
    · rfl
    · exact ih

/-- The update of a branch keeps site and name of every row. -/
theorem updateBranch_keeps_key (target : Branch) (b : Branch) :
    (if b.ID = target.ID then
        { b with HeadCommitID := target.HeadCommitID, UpdatedAt := target.UpdatedAt }
      else b).SiteID = b.SiteID
    ∧ (if b.ID = target.ID then
        { b with HeadCommitID := target.HeadCommitID, UpdatedAt := target.UpdatedAt }
      else b).Name = b.Name := by
  split_ifs <;> exact ⟨rfl, rfl⟩

/-! ## The shape of a run of `MergeBranches` -/

/-- A run of `MergeBranches` that returns a commit: what was looked up, the commit, and the
store afterwards. -/
theorem mergeBranches_ok {s : Store} {o : Oracle} {workspaceID siteID : UUID}
    {sourceName targetName : String} {authorID : UUID} {c : Commit}
    (h : (GitUseCase.MergeBranches s o workspaceID siteID sourceName targetName authorID).1
      = .ok c) :
    ∃ sourceBranch targetBranch sourceHeadID sourceHead,
      GitRepository.GetBranch s false siteID sourceName = .ok sourceBranch
      ∧ sourceBranch.HeadCommitID = some sourceHeadID
      ∧ GitRepository.GetBranch s false siteID targetName = .ok targetBranch
      ∧ GitRepository.GetCommit s false sourceHeadID = .ok sourceHead
      ∧ c = { ID := o.uuid 0, WorkspaceID := workspaceID, SiteID := some siteID,
              TreeHash := sourceHead.TreeHash, ParentHash := targetBranch.HeadCommitID,
              MergeParentHash := some sourceHeadID,
              Message := "Merge branch '" ++ sourceName ++ "' into '" ++ targetName ++ "'",
              AuthorID := authorID, CreatedAt := o.now 0 }
      ∧ (GitUseCase.MergeBranches s o workspaceID siteID sourceName targetName authorID).2
        = { s with
            commits := s.commits ++ [c],
            branches := s.branches.map (fun b =>
              if b.ID = targetBranch.ID then
                { b with HeadCommitID := some c.ID, UpdatedAt := o.now 1 }
              else b) } := by
  unfold GitUseCase.MergeBranches at h ⊢
  split at h
  · simp at h
  · rename_i sourceBranch hsb
    split at h
    · simp at h
    · rename_i sourceHeadID hhead
      split at h
      · simp at h
      · rename_i targetBranch htb
        split at h
        · simp at h
        · rename_i sourceHead hsh
          simp only [GitRepository.CreateCommit] at h ⊢
          split at h
          · simp at h
          · rename_i s1 hc
            simp only [GitRepository.UpdateBranch] at h ⊢
            split at h
            · simp at h
            · rename_i s2 hu
              simp only [hsb, hhead, htb, hsh, hc, hu]
              split_ifs at hc
              cases hc
              split_ifs at hu
              cases hu
              simp only [Except.ok.injEq] at h
              subst h
              exact ⟨sourceBranch, targetBranch, sourceHeadID, sourceHead, (getBranch_ok hsb).2,
                hhead, (getBranch_ok htb).2, (getCommit_ok hsh).2, by rw [hhead], by rw [hhead]⟩

/-- A run of `MergeBranches` that returns an error has left the branches alone, and has added
at most the merge commit to the commits. -/
theorem mergeBranches_error {s : Store} {o : Oracle} {workspaceID siteID : UUID}
    {sourceName targetName : String} {authorID : UUID}
    (h : isError (GitUseCase.MergeBranches s o workspaceID siteID sourceName targetName
      authorID).1 = true) :
    (GitUseCase.MergeBranches s o workspaceID siteID sourceName targetName authorID).2.branches
      = s.branches
    ∧ ∀ c ∈ s.commits,
      c ∈ (GitUseCase.MergeBranches s o workspaceID siteID sourceName targetName
        authorID).2.commits := by
  unfold GitUseCase.MergeBranches at h ⊢
  split
  · exact ⟨rfl, fun c hc => hc⟩
  · split
    · exact ⟨rfl, fun c hc => hc⟩
    · split
      · exact ⟨rfl, fun c hc => hc⟩
      · split
        · exact ⟨rfl, fun c hc => hc⟩
        · simp only [GitRepository.CreateCommit] at h ⊢
          split
          · exact ⟨rfl, fun c hc => hc⟩
          · rename_i s1 hc
            split_ifs at hc
            cases hc
            simp only [GitRepository.UpdateBranch] at h ⊢
            split
            · exact ⟨rfl, fun c hc => by simp [hc]⟩
            · rename_i s2 hu
              split_ifs at hu with hf
              rename_i hf3 _ _ _
              cases hu
              simp_all [isError, GitRepository.CreateCommit, GitRepository.UpdateBranch]

/-! ## `MergeBranches` -/

/-- C5: in a store where the source branch has head `sourceHeadID`, that commit has tree
digest `sourceHead.TreeHash`, and the target branch is `targetBranch`, a merge that returns a
commit `c` returns one with the source's tree digest, the target's previous head as parent and
the source's head as merge parent; the commit is in the store afterwards and the target
branch's stored head is the id of `c`. -/
theorem mergeBranches_ok_commit (s : Store) (o : Oracle) (workspaceID siteID : UUID)
    (sourceName targetName : String) (authorID : UUID)
    (sourceBranch targetBranch : Branch) (sourceHeadID : UUID) (sourceHead c : Commit)
    (hsrc : GitRepository.GetBranch s false siteID sourceName = .ok sourceBranch)
    (hhead : sourceBranch.HeadCommitID = some sourceHeadID)
    (hcommit : GitRepository.GetCommit s false sourceHeadID = .ok sourceHead)
    (htgt : GitRepository.GetBranch s false siteID targetName = .ok targetBranch)
    (hok : (GitUseCase.MergeBranches s o workspaceID siteID sourceName targetName authorID).1
      = .ok c) :
    c.TreeHash = sourceHead.TreeHash
    ∧ c.ParentHash = targetBranch.HeadCommitID
    ∧ c.MergeParentHash = some sourceHeadID
    ∧ c ∈ (GitUseCase.MergeBranches s o workspaceID siteID sourceName targetName
        authorID).2.commits
    ∧ (GitRepository.GetBranch
        (GitUseCase.MergeBranches s o workspaceID siteID sourceName targetName authorID).2
        false siteID targetName).toOption.map Branch.HeadCommitID = some (some c.ID) := by
  obtain ⟨sb, tb, hid, sh, h1, h2, h3, h4, hc, hs⟩ := mergeBranches_ok hok
  rw [hsrc] at h1
  cases h1
  rw [hhead] at h2
  cases h2
  rw [htgt] at h3
  cases h3
  rw [hcommit] at h4
  cases h4
  rw [hs]
  refine ⟨by rw [hc], by rw [hc], by rw [hc], by simp, ?_⟩
  have hfind := find_branch_map s.branches (fun b =>
      if b.ID = targetBranch.ID then
        { b with HeadCommitID := some c.ID, UpdatedAt := o.now 1 }
      else b) siteID targetName
      (fun b => updateBranch_keeps_key
        { targetBranch with HeadCommitID := some c.ID, UpdatedAt := o.now 1 } b)
  unfold GitRepository.GetBranch at htgt ⊢
  simp only [Bool.false_eq_true, if_false] at htgt ⊢
  rw [hfind]
  split at htgt
  · rename_i b hb
    cases htgt
    rw [hb]
    simp [Except.toOption]
  · cases htgt

/-- C5, at the store `twoBranches`: merging `dev` (head 7, tree digest `D`) into the unborn
`main`. -/
theorem mergeBranches_ok_commit_witness :
    (⟨100, 1, some 2, str "D", none, some 7, "Merge branch 'dev' into 'main'", 9, 0⟩ :
        Commit).TreeHash = str "D"
    ∧ (GitRepository.GetBranch
        (GitUseCase.MergeBranches twoBranches calmOracle 1 2 "dev" "main" 9).2
        false 2 "main").toOption.map Branch.HeadCommitID = some (some 100) :=
  have h := mergeBranches_ok_commit twoBranches calmOracle 1 2 "dev" "main" 9
    ⟨10, 1, 2, "dev", some 7, false, 0, 0⟩ ⟨11, 1, 2, "main", none, false, 0, 0⟩ 7
    ⟨7, 1, some 2, str "D", none, none, "first", 9, 0⟩
    ⟨100, 1, some 2, str "D", none, some 7, "Merge branch 'dev' into 'main'", 9, 0⟩
    (by decide) (by decide) (by decide) (by decide) (by decide)
  ⟨h.1, h.2.2.2.2⟩

/-- C6, as stated, fails when both names are the same: merging `dev` into `dev` in the store
`twoBranches` moves the head of `dev`, the source branch, from commit 7 to the merge commit
100. -/
theorem mergeBranches_self_moves_source :
    (GitRepository.GetBranch twoBranches false 2 "dev").toOption.map Branch.HeadCommitID
      = some (some 7)
    ∧ (GitRepository.GetBranch
        (GitUseCase.MergeBranches twoBranches calmOracle 1 2 "dev" "dev" 9).2
        false 2 "dev").toOption.map Branch.HeadCommitID = some (some 100) := by
  decide

/-- C6, amended: in a store whose branch rows have pairwise different ids, a merge between
two different branch names leaves the record stored for the source branch as it was, whatever
the outcome of the call. -/
theorem mergeBranches_keeps_source (s : Store) (o : Oracle) (workspaceID siteID : UUID)
    (sourceName targetName : String) (authorID : UUID)
    (hne : sourceName ≠ targetName)
    (hids : (s.branches.map Branch.ID).Nodup) :
    GitRepository.GetBranch
        (GitUseCase.MergeBranches s o workspaceID siteID sourceName targetName authorID).2
        false siteID sourceName
      = GitRepository.GetBranch s false siteID sourceName := by
  cases hres : (GitUseCase.MergeBranches s o workspaceID siteID sourceName targetName
      authorID).1 with
  | error e =>
    have herr : isError (GitUseCase.MergeBranches s o workspaceID siteID sourceName targetName
        authorID).1 = true := by rw [hres]; rfl
    have hb := (mergeBranches_error herr).1
    unfold GitRepository.GetBranch
    rw [hb]
  | ok c =>
    obtain ⟨sb, tb, hid, sh, h1, h2, h3, h4, hc, hs⟩ := mergeBranches_ok hres
    rw [hs]
    have hfind := find_branch_map s.branches (fun b =>
        if b.ID = tb.ID then
          { b with HeadCommitID := some c.ID, UpdatedAt := o.now 1 }
        else b) siteID sourceName
        (fun b => updateBranch_keeps_key
          { tb with HeadCommitID := some c.ID, UpdatedAt := o.now 1 } b)
    obtain ⟨hsm, -, hsn⟩ := getBranch_mem h1
    obtain ⟨htm, -, htn⟩ := getBranch_mem h3
    have hidne : sb.ID ≠ tb.ID := by
      intro heq
      have := List.inj_on_of_nodup_map hids hsm htm heq
      rw [this, htn] at hsn
      exact hne hsn.symm
    unfold GitRepository.GetBranch at h1 ⊢
    simp only [Bool.false_eq_true, if_false] at h1 ⊢
    rw [hfind]
    split at h1
    · rename_i b hb
      cases h1
      rw [hb]
      simp [hidne]
    · cases h1

/-- C6, amended, at the store `twoBranches`: merging `dev` into `main`. -/
theorem mergeBranches_keeps_source_witness :
    GitRepository.GetBranch
        (GitUseCase.MergeBranches twoBranches calmOracle 1 2 "dev" "main" 9).2 false 2 "dev"
      = GitRepository.GetBranch twoBranches false 2 "dev" :=
  mergeBranches_keeps_source twoBranches calmOracle 1 2 "dev" "main" 9 (by decide) (by decide)

/-- C7: when the source branch is missing, or the target branch is missing, or the source
branch has no head commit, `MergeBranches` returns an error and the store after the call is the
store before it: no commit was created and no branch record changed. -/
theorem mergeBranches_fails_without_branches (s : Store) (o : Oracle) (workspaceID siteID : UUID)
    (sourceName targetName : String) (authorID : UUID)
    (h : isError (GitRepository.GetBranch s false siteID sourceName) = true
      ∨ isError (GitRepository.GetBranch s false siteID targetName) = true
      ∨ (GitRepository.GetBranch s false siteID sourceName).toOption.map Branch.HeadCommitID
          = some none) :
    isError (GitUseCase.MergeBranches s o workspaceID siteID sourceName targetName authorID).1
      = true
    ∧ (GitUseCase.MergeBranches s o workspaceID siteID sourceName targetName authorID).2 = s := by
  unfold GitUseCase.MergeBranches
  split
  · exact ⟨rfl, rfl⟩
  · rename_i sourceBranch hsb
    split
    · exact ⟨rfl, rfl⟩
    · rename_i sourceHeadID hhead
      split
      · exact ⟨rfl, rfl⟩
      · rename_i targetBranch htb
        exfalso
        rcases h with h | h | h
        · rw [(getBranch_ok hsb).2] at h
          simp [isError] at h
        · rw [(getBranch_ok htb).2] at h
          simp [isError] at h
        · rw [(getBranch_ok hsb).2] at h
          simp [Except.toOption, hhead] at h

/-- C7, at the store `twoBranches`: no branch `gone` to merge from, none to merge into, and
the unborn `main` as a source. -/
theorem mergeBranches_fails_without_branches_witness :
    (isError (GitUseCase.MergeBranches twoBranches calmOracle 1 2 "gone" "main" 9).1 = true
      ∧ (GitUseCase.MergeBranches twoBranches calmOracle 1 2 "gone" "main" 9).2 = twoBranches)
    ∧ (isError (GitUseCase.MergeBranches twoBranches calmOracle 1 2 "dev" "gone" 9).1 = true
      ∧ (GitUseCase.MergeBranches twoBranches calmOracle 1 2 "dev" "gone" 9).2 = twoBranches)
    ∧ (isError (GitUseCase.MergeBranches twoBranches calmOracle 1 2 "main" "dev" 9).1 = true
      ∧ (GitUseCase.MergeBranches twoBranches calmOracle 1 2 "main" "dev" 9).2 = twoBranches) :=
  ⟨mergeBranches_fails_without_branches twoBranches calmOracle 1 2 "gone" "main" 9
      (Or.inl (by decide)),
   mergeBranches_fails_without_branches twoBranches calmOracle 1 2 "dev" "gone" 9
      (Or.inr (Or.inl (by decide))),
   mergeBranches_fails_without_branches twoBranches calmOracle 1 2 "main" "dev" 9
      (Or.inr (Or.inr (by decide)))⟩

/-! ## `CreateBranch` -/

/-- The existence check when the database answers it: in a store that holds a branch `b` for
the site and name, a call of `CreateBranch` whose lookup returns no driver error returns an
error and leaves the store as it was; in particular the head of `b` is unchanged, whatever
`fromCommitID` is passed. -/
theorem createBranch_existing_rejected (s : Store) (o : Oracle) (workspaceID siteID : UUID)
    (name : String) (fromCommitID : Option UUID) (b : Branch)
    (hex : GitRepository.GetBranch s false siteID name = .ok b)
    (hlookup : o.fault 0 = false) :
    isError (GitUseCase.CreateBranch s o workspaceID siteID name fromCommitID).1 = true
    ∧ (GitUseCase.CreateBranch s o workspaceID siteID name fromCommitID).2 = s
    ∧ GitRepository.GetBranch (GitUseCase.CreateBranch s o workspaceID siteID name
        fromCommitID).2 false siteID name = .ok b := by
  unfold GitUseCase.CreateBranch
  rw [hlookup, hex]
  exact ⟨rfl, rfl, hex⟩

/-- The existence check at the store `twoBranches`, answered by the database: a second `dev`,
asked to start at commit 7 or at a commit that does not exist. -/
theorem createBranch_existing_rejected_witness :
    (isError (GitUseCase.CreateBranch twoBranches calmOracle 1 2 "dev" (some 7)).1 = true
      ∧ (GitUseCase.CreateBranch twoBranches calmOracle 1 2 "dev" (some 7)).2 = twoBranches
      ∧ GitRepository.GetBranch (GitUseCase.CreateBranch twoBranches calmOracle 1 2 "dev"
          (some 7)).2 false 2 "dev" = .ok ⟨10, 1, 2, "dev", some 7, false, 0, 0⟩)
    ∧ (isError (GitUseCase.CreateBranch twoBranches calmOracle 1 2 "dev" (some 999)).1 = true
      ∧ (GitUseCase.CreateBranch twoBranches calmOracle 1 2 "dev" (some 999)).2 = twoBranches
      ∧ GitRepository.GetBranch (GitUseCase.CreateBranch twoBranches calmOracle 1 2 "dev"
          (some 999)).2 false 2 "dev" = .ok ⟨10, 1, 2, "dev", some 7, false, 0, 0⟩) :=
  ⟨createBranch_existing_rejected twoBranches calmOracle 1 2 "dev" (some 7)
      ⟨10, 1, 2, "dev", some 7, false, 0, 0⟩ (by decide) (by decide),
   createBranch_existing_rejected twoBranches calmOracle 1 2 "dev" (some 999)
      ⟨10, 1, 2, "dev", some 7, false, 0, 0⟩ (by decide) (by decide)⟩

/-- C8: the existence check of `CreateBranch` takes every error of the lookup for "no such
branch".  The store `twoBranches` holds the branch `dev` of site `2` (id 10, head 7).  When the
lookup of the check comes back with a driver error (operation 0) and the insert is accepted,
`CreateBranch` for site `2` and name `dev` with `fromCommitID` 999 returns no error and inserts a
second row `dev` for the site, with head 999; the head of the first row is unchanged.  With the
same failing lookup, `CommitChanges` and `MergeBranches` return the error and write nothing. -/
theorem createBranch_lookup_error_inserts_duplicate :
    GitRepository.GetBranch twoBranches false 2 "dev" = .ok ⟨10, 1, 2, "dev", some 7, false, 0, 0⟩
    ∧ isError (GitUseCase.CreateBranch twoBranches
        ⟨fun k => 500 + k, fun k => k, fun k => k == 0⟩ 1 2 "dev" (some 999)).1 = false
    ∧ (GitUseCase.CreateBranch twoBranches ⟨fun k => 500 + k, fun k => k, fun k => k == 0⟩ 1 2
        "dev" (some 999)).2.branches.map (fun b => (b.ID, b.SiteID, b.Name, b.HeadCommitID))
      = [(10, 2, "dev", some 7), (11, 2, "main", none), (500, 2, "dev", some 999)]
    ∧ (isError (GitUseCase.CommitChanges twoBranches
          ⟨fun k => 500 + k, fun k => k, fun k => k == 0⟩ 1 2 "dev" "m" 9 []).1 = true
      ∧ (GitUseCase.CommitChanges twoBranches
          ⟨fun k => 500 + k, fun k => k, fun k => k == 0⟩ 1 2 "dev" "m" 9 []).2 = twoBranches)
    ∧ (isError (GitUseCase.MergeBranches twoBranches
          ⟨fun k => 500 + k, fun k => k, fun k => k == 0⟩ 1 2 "dev" "main" 9).1 = true
      ∧ (GitUseCase.MergeBranches twoBranches
          ⟨fun k => 500 + k, fun k => k, fun k => k == 0⟩ 1 2 "dev" "main" 9).2 = twoBranches) := by
  decide

/-- C9: when the site has no branch of the name, a call of `CreateBranch` that returns a
branch returns one with that site id and name, with `fromCommitID` as its head (null when none
is given) and not protected; the branch is a row of the store afterwards and is the one a
lookup by site and name finds. -/
theorem createBranch_ok_branch (s : Store) (o : Oracle) (workspaceID siteID : UUID)
    (name : String) (fromCommitID : Option UUID) (b : Branch)
    (hnone : isError (GitRepository.GetBranch s false siteID name) = true)
    (hok : (GitUseCase.CreateBranch s o workspaceID siteID name fromCommitID).1 = .ok b) :
    b.SiteID = siteID ∧ b.Name = name ∧ b.HeadCommitID = fromCommitID ∧ b.IsProtected = false
    ∧ b ∈ (GitUseCase.CreateBranch s o workspaceID siteID name fromCommitID).2.branches
    ∧ GitRepository.GetBranch (GitUseCase.CreateBranch s o workspaceID siteID name
        fromCommitID).2 false siteID name = .ok b := by
  unfold GitUseCase.CreateBranch at hok ⊢
  split at hok
  · simp at hok
  · rename_i e he
    simp only [GitRepository.CreateBranch] at hok ⊢
    split at hok
    · simp at hok
    · rename_i s1 hs1
      split_ifs at hs1
      cases hs1
      simp only [Except.ok.injEq] at hok
      subst hok
      refine ⟨rfl, rfl, rfl, rfl, by simp, ?_⟩
      unfold GitRepository.GetBranch at hnone ⊢
      simp only [Bool.false_eq_true, if_false] at hnone ⊢
      split at hnone
      · simp [isError] at hnone
      · rename_i hfind
        rw [List.find?_append, hfind]
        simp

/-- C9, on the empty store: a branch `main` with no commit, and one placed at commit 42. -/
theorem createBranch_ok_branch_witness :
    ((⟨100, 1, 2, "main", none, false, 0, 0⟩ : Branch).HeadCommitID = none
      ∧ GitRepository.GetBranch (GitUseCase.CreateBranch Store.empty calmOracle 1 2 "main"
          none).2 false 2 "main" = .ok ⟨100, 1, 2, "main", none, false, 0, 0⟩)
    ∧ ((⟨100, 1, 2, "main", some 42, false, 0, 0⟩ : Branch).HeadCommitID = some 42
      ∧ GitRepository.GetBranch (GitUseCase.CreateBranch Store.empty calmOracle 1 2 "main"
          (some 42)).2 false 2 "main" = .ok ⟨100, 1, 2, "main", some 42, false, 0, 0⟩) :=
  have h1 := createBranch_ok_branch Store.empty calmOracle 1 2 "main" none
    ⟨100, 1, 2, "main", none, false, 0, 0⟩ (by decide) (by decide)
  have h2 := createBranch_ok_branch Store.empty calmOracle 1 2 "main" (some 42)
    ⟨100, 1, 2, "main", some 42, false, 0, 0⟩ (by decide) (by decide)
  ⟨⟨h1.2.2.1, h1.2.2.2.2.2⟩, ⟨h2.2.2.1, h2.2.2.2.2.2⟩⟩

/-! ## Branch heads point to commits of the store -/

/-- The commits of the store stay in the store through a run of `CommitChanges`. -/
theorem commitChanges_commits_mono (s : Store) (o : Oracle) (workspaceID siteID : UUID)
    (branchName message : String) (authorID : UUID) (files : List (Bytes × Bytes)) :
    ∀ c ∈ s.commits, c ∈ (GitUseCase.CommitChanges s o workspaceID siteID branchName message
      authorID files).2.commits := by
  intro c hc
  unfold GitUseCase.CommitChanges
  split
  · exact hc
  · rename_i branch hb
    obtain ⟨-, f2, -, -, -⟩ := createBlobs_frame o files 0 s []
    split
    · rename_i e s1 hcb
      rw [hcb] at f2
      simp only at f2
      simpa [f2] using hc
    · rename_i es s1 hcb
      rw [hcb] at f2
      simp only at f2
      simp only [GitRepository.CreateCommit]
      split
      · simpa [f2] using hc
      · rename_i s2 hcc
        split_ifs at hcc
        cases hcc
        obtain ⟨-, g2, -, -, -⟩ := saveTrees_frame o (o.uuid files.length) es (files.length + 2)
            { s1 with commits := s1.commits ++ [
              { ID := o.uuid files.length, WorkspaceID := workspaceID, SiteID := some siteID,
                TreeHash := GitUseCase.treeHashOf es,
                ParentHash := branch.HeadCommitID, MergeParentHash := none, Message := message,
                AuthorID := authorID, CreatedAt := o.now files.length }] }
        split
        · rename_i e s3 hst
          rw [hst] at g2
          simp only at g2
          simp [g2, f2, hc]
        · rename_i u s3 hst
          rw [hst] at g2
          simp only at g2
          simp only [GitRepository.UpdateBranch]
          split
          · simp [g2, f2, hc]
          · rename_i s5 hu
            split_ifs at hu
            cases hu
            simp [g2, f2, hc]

/-- The meaning of `headsExist`. -/
theorem headsExist_iff (s : Store) :
    headsExist s = true ↔
      ∀ b ∈ s.branches, ∀ h, b.HeadCommitID = some h → ∃ c ∈ s.commits, c.ID = h := by
  unfold headsExist commitExists
  rw [List.all_eq_true]
  constructor
  · intro hall b hb h hh
    have := hall b hb
    rw [hh] at this
    simpa using this
  · intro hall b hb
    split
    · rfl
    · rename_i h hh
      simpa using hall b hb h hh

/-- Heads stay valid when the commits grow and the branches stay. -/
theorem headsExist_of_same_branches {s s1 : Store} (hs : headsExist s = true)
    (hb : s1.branches = s.branches) (hc : ∀ c ∈ s.commits, c ∈ s1.commits) :
    headsExist s1 = true := by
  rw [headsExist_iff] at hs ⊢
  intro b hbm h hh
  rw [hb] at hbm
  obtain ⟨c, hcm, hid⟩ := hs b hbm h hh
  exact ⟨c, hc c hcm, hid⟩

/-- Heads stay valid when a commit is added and some branches are moved to it. -/
theorem headsExist_of_move {s s1 : Store} (hs : headsExist s = true) (c : Commit) (id : UUID)
    (t : Time) (hc : s1.commits = s.commits ++ [c])
    (hb : s1.branches = s.branches.map (fun b =>
      if b.ID = id then { b with HeadCommitID := some c.ID, UpdatedAt := t } else b)) :
    headsExist s1 = true := by
  rw [headsExist_iff] at hs ⊢
  intro b hbm h hh
  rw [hb] at hbm
  obtain ⟨b0, hb0, hmap⟩ := List.mem_map.mp hbm
  rw [hc]
  split_ifs at hmap
  · subst hmap
    simp only [Option.some.injEq] at hh
    exact ⟨c, by simp, hh⟩
  · subst hmap
    obtain ⟨c0, hc0, hid⟩ := hs b0 hb0 h hh
    exact ⟨c0, by simp [hc0], hid⟩

/-- One call keeps the heads valid, if a `CreateBranch` is given no commit or one of the
store. -/
theorem headsExist_apply (s : Store) (op : GitOp) (hs : headsExist s = true)
    (hop : (match op with
      | .createBranch _ _ _ _ (some h) => commitExists s h
      | _ => true) = true) :
    headsExist (op.apply s) = true := by
  cases op with
  | createBranch o workspaceID siteID name fromCommitID =>
    simp only [GitOp.apply, GitUseCase.CreateBranch]
    split
    · exact hs
    · simp only [GitRepository.CreateBranch]
      split
      · exact hs
      · rename_i s1 hs1
        split_ifs at hs1
        cases hs1
        rw [headsExist_iff] at hs ⊢
        intro b hbm h hh
        simp only [List.mem_append, List.mem_singleton] at hbm
        rcases hbm with hbm | hbm
        · exact hs b hbm h hh
        · subst hbm
          simp only at hh
          subst hh
          simp only [commitExists, List.any_eq_true, decide_eq_true_eq] at hop
          exact hop
  | commitChanges o workspaceID siteID branchName message authorID files =>
    simp only [GitOp.apply]
    rcases commitChanges_branches_or_ok s o workspaceID siteID branchName message authorID files
      with hsame | ⟨c, hc⟩
    · exact headsExist_of_same_branches hs hsame
        (commitChanges_commits_mono s o workspaceID siteID branchName message authorID files)
    · have hrun : GitUseCase.CommitChanges s o workspaceID siteID branchName message authorID
          files = (.ok c, (GitUseCase.CommitChanges s o workspaceID siteID branchName message
            authorID files).2) := by
        rw [← hc]
      obtain ⟨branch, s1, -, -, -, -, hcs, -, hbs, -, -⟩ := commitChanges_ok hrun
      exact headsExist_of_move hs c branch.ID (o.now (files.length + 1)) hcs hbs
  | mergeBranches o workspaceID siteID sourceName targetName authorID =>
    simp only [GitOp.apply]
    cases hres : (GitUseCase.MergeBranches s o workspaceID siteID sourceName targetName
        authorID).1 with
    | error e =>
      have herr : isError (GitUseCase.MergeBranches s o workspaceID siteID sourceName targetName
          authorID).1 = true := by rw [hres]; rfl
      exact headsExist_of_same_branches hs (mergeBranches_error herr).1
        (mergeBranches_error herr).2
    | ok c =>
      obtain ⟨sb, tb, hid, sh, -, -, -, -, -, hst⟩ := mergeBranches_ok hres
      exact headsExist_of_move hs c tb.ID (o.now 1) (by rw [hst]) (by rw [hst])

/-- The invariant along a sequence of calls, from any store that has it. -/
theorem headsExist_run (ops : List GitOp) :
    ∀ s : Store, headsExist s = true → branchesFromExisting s ops = true →
      headsExist (runGitOps s ops) = true := by
  induction ops with
  | nil => intro s hs _; exact hs
  | cons op rest ih =>
    intro s hs hops
    simp only [branchesFromExisting, Bool.and_eq_true] at hops
    exact ih (op.apply s) (headsExist_apply s op hs hops.1) hops.2

/-- C10, as stated, fails: on the empty store, `CreateBranch` with the id 42 of a commit that
does not exist stores a branch whose head is 42, and no commit 42 is in the store. -/
theorem createBranch_dangling_head :
    headsExist (runGitOps Store.empty [.createBranch calmOracle 1 2 "main" (some 42)]) = false
    ∧ (GitRepository.GetBranch
        (runGitOps Store.empty [.createBranch calmOracle 1 2 "main" (some 42)]) false 2
        "main").toOption.map Branch.HeadCommitID = some (some 42)
    ∧ isError (GitRepository.GetCommit
        (runGitOps Store.empty [.createBranch calmOracle 1 2 "main" (some 42)]) false 42)
      = true := by
  decide

/-- C10, amended: starting from the empty store, after any sequence of `CreateBranch`,
`CommitChanges` and `MergeBranches` calls in which every `CreateBranch` is given no commit or
the id of a commit that is in the store at that moment, every branch whose head is not null
points to a commit of the store. -/
theorem heads_exist_from_empty (ops : List GitOp)
    (hops : branchesFromExisting Store.empty ops = true) :
    ∀ b ∈ (runGitOps Store.empty ops).branches, ∀ h, b.HeadCommitID = some h →
      ∃ c ∈ (runGitOps Store.empty ops).commits, c.ID = h :=
  (headsExist_iff _).mp (headsExist_run ops Store.empty (by decide) hops)

set_option maxRecDepth 100000 in
/-- C10, amended, on a run that creates `main`, commits one file to it, creates `dev` at that
commit (id 101) and merges `dev` into `main`. -/
theorem heads_exist_from_empty_witness :
    branchesFromExisting Store.empty
        [.createBranch calmOracle 1 2 "main" none,
         .commitChanges calmOracle 1 2 "main" "first" 9 [(str "a", str "x")],
         .createBranch calmOracle 1 2 "dev" (some 101),
         .mergeBranches calmOracle 1 2 "dev" "main" 9] = true
    ∧ headsExist (runGitOps Store.empty
        [.createBranch calmOracle 1 2 "main" none,
         .commitChanges calmOracle 1 2 "main" "first" 9 [(str "a", str "x")],
         .createBranch calmOracle 1 2 "dev" (some 101),
         .mergeBranches calmOracle 1 2 "dev" "main" 9]) = true :=
  ⟨by decide, (headsExist_iff _).mpr (heads_exist_from_empty _ (by decide))⟩

/-! ## Deployment status -/

/-- The deployment a lookup returns has the id asked for. -/
theorem getByID_id {s : Store} {f : Bool} {id : UUID} {d : Deployment}
    (h : DeploymentRepository.GetByID s f id = .ok d) : d.ID = id := by
  unfold DeploymentRepository.GetByID at h
  split_ifs at h
  split at h
  · rename_i r hr
    cases h
    simpa using List.find?_some hr
  · cases h

/-- The rows after a status update that did not fail. -/
theorem updateStatus_ok {s s1 : Store} {f : Bool} {now : Time} {id : UUID} {status : String}
    (h : DeploymentRepository.UpdateStatus s f now id status = .ok s1) :
    ∃ fin, s1.deployments = s.deployments.map (fun r =>
      if r.row.ID = id then
        { row := { r.row with Status := status, FinishedAt := fin },
          statuses := r.statuses ++ [status] }
      else r) := by
  unfold DeploymentRepository.UpdateStatus at h
  split_ifs at h
  all_goals
    cases h
    exact ⟨_, rfl⟩

/-- The rows after `failDeployment`: unchanged, or updated to `failed`. -/
theorem failDeployment_cases (s : Store) (f : Bool) (now : Time) (id : UUID) :
    (DeploymentProcessor.failDeployment s f now id).deployments = s.deployments
    ∨ ∃ fin, (DeploymentProcessor.failDeployment s f now id).deployments
        = s.deployments.map (fun r =>
          if r.row.ID = id then
            { row := { r.row with Status := "failed", FinishedAt := fin },
              statuses := r.statuses ++ ["failed"] }
          else r) := by
  unfold DeploymentProcessor.failDeployment
  split
  · rename_i s1 h
    exact Or.inr (updateStatus_ok h)
  · exact Or.inl rfl

/-- The rows after a run of `Process`: unchanged; or updated to `building`; or updated to
`building` and then to one of `failed` and `success`. -/
theorem process_deployments (storagePath : Bytes) (s : Store) (fs : FileStore) (o : Oracle)
    (id : UUID) :
    (DeploymentProcessor.Process storagePath s fs o id).2.1.deployments = s.deployments
    ∨ ∃ fin1 l2, (l2 = [] ∨ ∃ last fin2, (last = "failed" ∨ last = "success")
          ∧ l2 = [(last, fin2)])
        ∧ (DeploymentProcessor.Process storagePath s fs o id).2.1.deployments
          = l2.foldl (fun rows (u : String × Option Time) => rows.map (fun r =>
              if r.row.ID = id then
                { row := { r.row with Status := u.1, FinishedAt := u.2 },
                  statuses := r.statuses ++ [u.1] }
              else r))
            (s.deployments.map (fun r =>
              if r.row.ID = id then
                { row := { r.row with Status := "building", FinishedAt := fin1 },
                  statuses := r.statuses ++ ["building"] }
              else r)) := by
  unfold DeploymentProcessor.Process
  split
  · exact Or.inl rfl
  · rename_i deployment hd
    have hid := getByID_id hd
    rw [hid]
    split
    · exact Or.inl rfl
    · rename_i s1 hs1
      obtain ⟨fin1, hb⟩ := updateStatus_ok hs1
      right
      have hfail : ∀ (f : Bool) (x : Except String Unit) (fs1 : FileStore),
          ∃ fin1 l2, (l2 = [] ∨ ∃ last fin2, (last = "failed" ∨ last = "success")
              ∧ l2 = [(last, fin2)])
            ∧ (x, DeploymentProcessor.failDeployment s1 f (o.now 0) id, fs1).2.1.deployments
              = l2.foldl (fun rows (u : String × Option Time) => rows.map (fun r =>
                  if r.row.ID = id then
                    { row := { r.row with Status := u.1, FinishedAt := u.2 },
                      statuses := r.statuses ++ [u.1] }
                  else r))
                (s.deployments.map (fun r =>
                  if r.row.ID = id then
                    { row := { r.row with Status := "building", FinishedAt := fin1 },
                      statuses := r.statuses ++ ["building"] }
                  else r)) := by
        intro f x fs1
        rcases failDeployment_cases s1 f (o.now 0) id with h | ⟨fin2, h⟩
        · exact ⟨fin1, [], Or.inl rfl, by simp [h, hb]⟩
        · exact ⟨fin1, [("failed", fin2)], Or.inr ⟨"failed", fin2, Or.inl rfl, rfl⟩, by
            simp [h, hb]⟩
      split
      · exact hfail _ _ _
      · split
        · exact ⟨fin1, [], Or.inl rfl, by simp [hb]⟩
        · rename_i s2 hs2
          obtain ⟨fin2, hs⟩ := updateStatus_ok hs2
          exact ⟨fin1, [("success", fin2)], Or.inr ⟨"success", fin2, Or.inr rfl, rfl⟩,
            by simp [hs, hb]⟩

/-- The rows after a run of `DeploymentUseCase.Create`: unchanged, or one more row whose only
status is `pending`. -/
theorem create_deployments (s : Store) (r : Redis) (o : Oracle) (d : Deployment) :
    (DeploymentUseCase.Create s r o d).2.2.1.deployments = s.deployments
    ∨ ∃ row, (DeploymentUseCase.Create s r o d).2.2.1.deployments
        = s.deployments ++ [{ row := row, statuses := ["pending"] }] := by
  unfold DeploymentUseCase.Create
  simp only [DeploymentRepository.Create, AuditLogRepository.Create]
  by_cases h0 : o.fault 0 = true
  · left
    simp [h0]
  · right
    by_cases h1 : o.fault 1 = true <;> by_cases h2 : o.fault 2 = true <;>
      simp [h0, h1, h2, Publisher.PublishDeployment]

/-- A `Create` keeps the invariant. -/
theorem statusInv_create (P : List UUID) (s : Store) (r : Redis) (o : Oracle) (d : Deployment)
    (h : statusInv P s) : statusInv P (DeploymentUseCase.Create s r o d).2.2.1 := by
  rcases create_deployments s r o d with hd | ⟨row, hd⟩
  · intro x hx
    rw [hd] at hx
    exact h x hx
  · intro x hx
    rw [hd] at hx
    rcases List.mem_append.mp hx with hx | hx
    · exact h x hx
    · simp only [List.mem_singleton] at hx
      subst hx
      exact ⟨by show forwardOnly ["pending"] = true; decide, fun _ => rfl⟩

/-- A `Process` for an id not processed before keeps the invariant. -/
theorem statusInv_process (storagePath : Bytes) (P : List UUID) (s : Store) (fs : FileStore)
    (o : Oracle) (id : UUID) (h : statusInv P s) (hid : id ∉ P) :
    statusInv (id :: P) (DeploymentProcessor.Process storagePath s fs o id).2.1 := by
  rcases process_deployments storagePath s fs o id with hd | ⟨fin1, l2, hl2, hd⟩
  · intro x hx
    rw [hd] at hx
    exact ⟨(h x hx).1, fun hn => (h x hx).2 (fun hp => hn (List.mem_cons_of_mem _ hp))⟩
  · intro x hx
    rw [hd] at hx
    rcases hl2 with hl2 | ⟨last, fin2, hlast, hl2⟩
    · subst hl2
      simp only [List.foldl_nil, List.mem_map] at hx
      obtain ⟨x0, hx0, hx⟩ := hx
      split_ifs at hx with hxid
      · subst hx
        have := (h x0 hx0).2 (by rw [hxid]; exact hid)
        simp only [this]
        exact ⟨by decide, fun hn => absurd (by simp [hxid]) hn⟩
      · subst hx
        exact ⟨(h x0 hx0).1, fun hn => (h x0 hx0).2 (fun hp => hn (List.mem_cons_of_mem _ hp))⟩
    · subst hl2
      simp only [List.foldl_cons, List.foldl_nil, List.mem_map] at hx
      obtain ⟨x1, ⟨x0, hx0, hx1⟩, hx⟩ := hx
      split_ifs at hx1 with hxid
      · subst hx1
        simp only [if_pos hxid] at hx
        subst hx
        have := (h x0 hx0).2 (by rw [hxid]; exact hid)
        simp only [this]
        refine ⟨?_, fun hn => absurd (by simp [hxid]) hn⟩
        rcases hlast with hlast | hlast <;> subst hlast <;> decide
      · subst hx1
        simp only [if_neg hxid] at hx
        subst hx
        exact ⟨(h x0 hx0).1, fun hn => (h x0 hx0).2 (fun hp => hn (List.mem_cons_of_mem _ hp))⟩

/-- The invariant along a sequence of calls with at most one `Process` for each id. -/
theorem statusInv_run (storagePath : Bytes) (ops : List PipelineOp) :
    ∀ (P : List UUID) (w : Pipeline), statusInv P w.db →
      (processedIDs ops).Nodup → (∀ id ∈ processedIDs ops, id ∉ P) →
      ∃ P1, statusInv P1 (runPipeline storagePath w ops).db := by
  induction ops with
  | nil => intro P w h _ _; exact ⟨P, h⟩
  | cons op rest ih =>
    intro P w h hnd hnew
    cases op with
    | create o d =>
      simp only [processedIDs] at hnd hnew
      exact ih P _ (statusInv_create P w.db w.redis o d h) hnd hnew
    | process o id =>
      simp only [processedIDs, List.nodup_cons, List.mem_cons, forall_eq_or_imp] at hnd hnew
      refine ih (id :: P) _ (statusInv_process storagePath P w.db w.files o id h hnew.1) hnd.2 ?_
      intro j hj hjm
      rcases List.mem_cons.mp hjm with hjm | hjm
      · subst hjm
        exact hnd.1 hj
      · exact hnew.2 j hj hjm

/-- C4, as stated, fails when `Process` runs twice for one deployment: a deployment whose
commit reference does not parse is created and processed twice (a redelivery); its row goes
through `pending, building, failed, building, failed`, from `failed` back to `building`. -/
theorem process_twice_regresses :
    (runPipeline (str "storage") Pipeline.empty
        [.create calmOracle badDeployment, .process calmOracle 100,
         .process calmOracle 100]).db.deployments.map DeploymentRow.statuses
      = [["pending", "building", "failed", "building", "failed"]]
    ∧ forwardOnly ["pending", "building", "failed", "building", "failed"] = false := by
  decide

/-- C4, amended: starting with no deployments, after any sequence of `Create` and `Process`
calls in which `Process` is called at most once for each deployment id, the statuses stored
for every deployment, in the order they were stored, form a prefix of `pending, building,
success` or of `pending, building, failed`. -/
theorem deployment_status_forward (storagePath : Bytes) (w : Pipeline) (ops : List PipelineOp)
    (hempty : w.db.deployments = []) (honce : (processedIDs ops).Nodup) :
    (runPipeline storagePath w ops).db.deployments.all (fun r => forwardOnly r.statuses)
      = true := by
  obtain ⟨P1, h⟩ := statusInv_run storagePath ops [] w
    (by intro r hr; rw [hempty] at hr; cases hr) honce (by simp)
  rw [List.all_eq_true]
  intro r hr
  exact (h r hr).1

/-- C4, amended, on a run with two deployments, each created and processed once; both commit
references fail to resolve, the second `Process` also loses its update to `failed`. -/
theorem deployment_status_forward_witness :
    (runPipeline (str "storage") Pipeline.empty
        [.create calmOracle badDeployment,
         .create ⟨fun k => 200 + k, fun k => k, fun _ => false⟩ badDeployment,
         .process calmOracle 100,
         .process ⟨fun k => k, fun k => k, fun k => k == 2⟩ 200]).db.deployments.all
      (fun r => forwardOnly r.statuses) = true :=
  deployment_status_forward (str "storage") Pipeline.empty _ (by decide) (by decide)

/-! ## UTF-8: decoding and encoding agree on well-formed input -/

/-- A decoding that is not the error `(RuneError, 1)` has read a well-formed encoding. -/
theorem decodeRune_shape (l : Bytes) (r n : Nat) (h : decodeRune l = (r, n))
    (hv : ¬ (r = RuneError ∧ n = 1)) (hne : l ≠ []) : RuneShape l r n := by
  rcases l with _ | ⟨p0, rest⟩
  · exact absurd rfl hne
  · unfold decodeRune at h
    simp only at h
    by_cases h1 : p0 < 0x80
    · rw [if_pos h1] at h
      cases h
      exact RuneShape.one _ _ h1
    · rw [if_neg h1] at h
      by_cases h2 : p0 < 0xC2
      · rw [if_pos h2] at h
        cases h
        exact absurd ⟨rfl, rfl⟩ hv
      · rw [if_neg h2] at h
        by_cases h3 : p0 < 0xE0
        · rw [if_pos h3] at h
          rcases rest with _ | ⟨b1, rest1⟩
          · cases h
            exact absurd ⟨rfl, rfl⟩ hv
          · simp only at h
            by_cases hb : 0x80 ≤ b1 ∧ b1 ≤ 0xBF
            · rw [if_pos hb] at h
              cases h
              exact RuneShape.two _ _ _ (by omega) h3 hb.1 hb.2
            · rw [if_neg hb] at h
              cases h
              exact absurd ⟨rfl, rfl⟩ hv
        · rw [if_neg h3] at h
          by_cases h4 : p0 < 0xF0
          · rw [if_pos h4] at h
            rcases rest with _ | ⟨b1, _ | ⟨b2, rest2⟩⟩
            · cases h
              exact absurd ⟨rfl, rfl⟩ hv
            · cases h
              exact absurd ⟨rfl, rfl⟩ hv
            · simp only at h
              by_cases hb : (if p0 = 0xE0 then 0xA0 else 0x80) ≤ b1
                  ∧ b1 ≤ (if p0 = 0xED then 0x9F else 0xBF) ∧ 0x80 ≤ b2 ∧ b2 ≤ 0xBF
              · rw [if_pos hb] at h
                cases h
                exact RuneShape.three _ _ _ _ (by omega) h4 hb.1 hb.2.1 hb.2.2.1 hb.2.2.2
              · rw [if_neg hb] at h
                cases h
                exact absurd ⟨rfl, rfl⟩ hv
          · rw [if_neg h4] at h
            by_cases h5 : p0 ≤ 0xF4
            · rw [if_pos h5] at h
              rcases rest with _ | ⟨b1, _ | ⟨b2, _ | ⟨b3, rest3⟩⟩⟩
              · cases h
                exact absurd ⟨rfl, rfl⟩ hv
              · cases h
                exact absurd ⟨rfl, rfl⟩ hv
              · cases h
                exact absurd ⟨rfl, rfl⟩ hv
              · simp only at h
                by_cases hb : (if p0 = 0xF0 then 0x90 else 0x80) ≤ b1
                    ∧ b1 ≤ (if p0 = 0xF4 then 0x8F else 0xBF)
                    ∧ 0x80 ≤ b2 ∧ b2 ≤ 0xBF ∧ 0x80 ≤ b3 ∧ b3 ≤ 0xBF
                · rw [if_pos hb] at h
                  cases h
                  exact RuneShape.four _ _ _ _ _ (by omega) h5 hb.1 hb.2.1 hb.2.2.1 hb.2.2.2.1
                    hb.2.2.2.2.1 hb.2.2.2.2.2
                · rw [if_neg hb] at h
                  cases h
                  exact absurd ⟨rfl, rfl⟩ hv
            · rw [if_neg h5] at h
              cases h
              exact absurd ⟨rfl, rfl⟩ hv

/-- Encoding the rune of a well-formed encoding gives its bytes back. -/
theorem shape_encode {l : Bytes} {r n : Nat} (h : RuneShape l r n) : encodeRune r = l.take n := by
  cases h with
  | one p0 rest h1 =>
    unfold encodeRune
    rw [if_pos (by omega)]
    rfl
  | two p0 b1 rest h1 h2 h3 h4 =>
    unfold encodeRune
    rw [if_neg (by omega), if_pos (by omega)]
    simp only [List.take_succ_cons, List.take_zero, List.cons.injEq, and_true]
    constructor <;> omega
  | three p0 b1 b2 rest h1 h2 h3 h4 h5 h6 =>
    unfold encodeRune
    have hlo : 0x80 ≤ b1 := by split_ifs at h3 <;> omega
    have hhi : b1 ≤ 0xBF := by split_ifs at h4 <;> omega
    have hE0 : p0 = 0xE0 → 0xA0 ≤ b1 := by intro hp; rw [if_pos hp] at h3; exact h3
    have hED : p0 = 0xED → b1 ≤ 0x9F := by intro hp; rw [if_pos hp] at h4; exact h4
    rw [if_neg (by omega), if_neg (by omega), if_neg (by omega), if_pos (by omega)]
    simp only [List.take_succ_cons, List.take_zero, List.cons.injEq, and_true]
    refine ⟨?_, ?_, ?_⟩ <;> omega
  | four p0 b1 b2 b3 rest h1 h2 h3 h4 h5 h6 h7 h8 =>
    unfold encodeRune
    have hlo : 0x80 ≤ b1 := by split_ifs at h3 <;> omega
    have hhi : b1 ≤ 0xBF := by split_ifs at h4 <;> omega
    have hF0 : p0 = 0xF0 → 0x90 ≤ b1 := by intro hp; rw [if_pos hp] at h3; exact h3
    have hF4 : p0 = 0xF4 → b1 ≤ 0x8F := by intro hp; rw [if_pos hp] at h4; exact h4
    rw [if_neg (by omega), if_neg (by omega), if_neg (by omega), if_neg (by omega)]
    simp only [List.take_succ_cons, List.take_zero, List.cons.injEq, and_true]
    refine ⟨?_, ?_, ?_, ?_⟩ <;> omega

/-- A well-formed encoding decodes the same whatever follows it. -/
theorem shape_decode {l : Bytes} {r n : Nat} (h : RuneShape l r n) (t : Bytes) :
    decodeRune (l.take n ++ t) = (r, n) := by
  cases h with
  | one p0 rest h1 =>
    simp only [List.take_succ_cons, List.take_zero, List.cons_append, List.nil_append]
    unfold decodeRune
    simp only
    rw [if_pos h1]
  | two p0 b1 rest h1 h2 h3 h4 =>
    simp only [List.take_succ_cons, List.take_zero, List.cons_append, List.nil_append]
    unfold decodeRune
    simp only
    rw [if_neg (by omega), if_neg (by omega), if_pos h2, if_pos ⟨h3, h4⟩]
  | three p0 b1 b2 rest h1 h2 h3 h4 h5 h6 =>
    simp only [List.take_succ_cons, List.take_zero, List.cons_append, List.nil_append]
    unfold decodeRune
    simp only
    rw [if_neg (by omega), if_neg (by omega), if_neg (by omega), if_pos h2,
      if_pos ⟨h3, h4, h5, h6⟩]
  | four p0 b1 b2 b3 rest h1 h2 h3 h4 h5 h6 h7 h8 =>
    simp only [List.take_succ_cons, List.take_zero, List.cons_append, List.nil_append]
    unfold decodeRune
    simp only
    rw [if_neg (by omega), if_neg (by omega), if_neg (by omega), if_neg (by omega), if_pos h2,
      if_pos ⟨h3, h4, h5, h6, h7, h8⟩]

/-- A well-formed encoding decodes to its rune. -/
theorem shape_decode_self {l : Bytes} {r n : Nat} (h : RuneShape l r n) :
    decodeRune l = (r, n) := by
  cases h with
  | one p0 rest h1 =>
    unfold decodeRune
    simp only
    rw [if_pos h1]
  | two p0 b1 rest h1 h2 h3 h4 =>
    unfold decodeRune
    simp only
    rw [if_neg (by omega), if_neg (by omega), if_pos h2, if_pos ⟨h3, h4⟩]
  | three p0 b1 b2 rest h1 h2 h3 h4 h5 h6 =>
    unfold decodeRune
    simp only
    rw [if_neg (by omega), if_neg (by omega), if_neg (by omega), if_pos h2,
      if_pos ⟨h3, h4, h5, h6⟩]
  | four p0 b1 b2 b3 rest h1 h2 h3 h4 h5 h6 h7 h8 =>
    unfold decodeRune
    simp only
    rw [if_neg (by omega), if_neg (by omega), if_neg (by omega), if_neg (by omega), if_pos h2,
      if_pos ⟨h3, h4, h5, h6, h7, h8⟩]

/-- The first four bytes decide the decoding. -/
theorem decodeRune_take_four (l : Bytes) : decodeRune (l.take 4) = decodeRune l := by
  rcases l with _ | ⟨a, _ | ⟨b, _ | ⟨c, _ | ⟨d, rest⟩⟩⟩⟩
  · rfl
  · rfl
  · rfl
  · rfl
  · simp only [List.take_succ_cons, List.take_zero]
    unfold decodeRune
    rfl

/-! ## JSON: `Unmarshal` undoes `Marshal` on valid UTF-8 -/

/-- A hexadecimal digit written by the encoder is read back as its value. -/
theorem hexVal_hexDigit (x : Nat) (h : x < 16) : hexVal (hexDigit x) = some x := by
  interval_cases x <;> decide

/-- The decoder on a `\u` escape. -/
theorem unquoteLoop_u (n : Nat) (rest1 : Bytes) :
    unquoteLoop (n + 1) (0x5C :: 0x75 :: rest1)
      = match getu4 (0x5C :: 0x75 :: rest1) with
        | none => none
        | some rr =>
          if isSurrogate rr then
            if utf16DecodeRune rr (getu4 (rest1.drop 4)) ≠ RuneError then
              consDecoded (encodeRune (utf16DecodeRune rr (getu4 (rest1.drop 4))))
                (unquoteLoop n (rest1.drop 10))
            else consDecoded (encodeRune RuneError) (unquoteLoop n (rest1.drop 4))
          else consDecoded (encodeRune rr) (unquoteLoop n (rest1.drop 4)) := by
  simp [unquoteLoop]

/-- The decoder on the escape of an ASCII byte that is not copied as it is. -/
theorem unquoteLoop_escapeByte (b : Nat) (hb : b < 0x80) (hs : htmlSafe b = false) (n : Nat)
    (t : Bytes) :
    unquoteLoop (n + 1) (escapeByte b ++ t) = consDecoded [b] (unquoteLoop n t) := by
  unfold escapeByte
  by_cases h1 : b = 0x5C ∨ b = 0x22
  · rw [if_pos h1]
    rcases h1 with h1 | h1 <;> subst h1 <;> simp [unquoteLoop, simpleEscape]
  · rw [if_neg h1]
    by_cases h2 : b = 0x08
    · subst h2; simp [unquoteLoop, simpleEscape]
    by_cases h3 : b = 0x0C
    · subst h3; simp [unquoteLoop, simpleEscape]
    by_cases h4 : b = 0x0A
    · subst h4; simp [unquoteLoop, simpleEscape]
    by_cases h5 : b = 0x0D
    · subst h5; simp [unquoteLoop, simpleEscape]
    by_cases h6 : b = 0x09
    · subst h6; simp [unquoteLoop, simpleEscape]
    rw [if_neg h2, if_neg h3, if_neg h4, if_neg h5, if_neg h6]
    have hd1 := hexVal_hexDigit (b / 16) (by omega)
    have hd2 := hexVal_hexDigit (b % 16) (by omega)
    have hval : (0 * 16 + 0) * 16 * 16 + b / 16 * 16 + b % 16 = b := by omega
    have hg : getu4 (0x5C :: 0x75 :: 0x30 :: 0x30 :: hexDigit (b / 16) :: hexDigit (b % 16) :: t)
        = some b := by
      unfold getu4
      simp only [hd1, hd2, and_self, if_true]
      have h0 : hexVal 0x30 = some 0 := by decide
      rw [h0]
      simp only [Option.some.injEq]
      omega
    have hsur : isSurrogate b = false := by
      unfold isSurrogate
      simp only [decide_eq_false_iff_not, not_and, not_lt]
      omega
    have henc : encodeRune b = [b] := by
      unfold encodeRune
      rw [if_pos (by omega)]
    show unquoteLoop (n + 1)
        (0x5C :: 0x75 :: (0x30 :: 0x30 :: hexDigit (b / 16) :: hexDigit (b % 16) :: t))
      = consDecoded [b] (unquoteLoop n t)
    rw [unquoteLoop_u, hg]
    simp only [hsur, Bool.false_eq_true, if_false, henc, List.drop_succ_cons, List.drop_zero]

/-- A well-formed encoding has between one byte and all the bytes there are. -/
theorem shape_width {l : Bytes} {r n : Nat} (h : RuneShape l r n) :
    1 ≤ n ∧ n ≤ l.length := by
  cases h <;> simp

/-- The decoder on an ASCII byte that stands for itself. -/
theorem unquoteLoop_plain (c : Nat) (h1 : c ≠ 0x22) (h2 : c ≠ 0x5C) (h3 : ¬ c < 0x20)
    (h4 : c < 0x80) (n : Nat) (t : Bytes) :
    unquoteLoop (n + 1) (c :: t) = consDecoded [c] (unquoteLoop n t) := by
  simp only [unquoteLoop]
  rw [if_neg h1, if_neg h2, if_neg h3, if_pos h4]

/-- The decoder on a byte that is not ASCII. -/
theorem unquoteLoop_multi (c : Nat) (h4 : ¬ c < 0x80) (n : Nat) (t : Bytes) :
    unquoteLoop (n + 1) (c :: t)
      = consDecoded (encodeRune (decodeRune (c :: t)).1)
          (unquoteLoop n ((c :: t).drop (decodeRune (c :: t)).2)) := by
  simp only [unquoteLoop]
  rw [if_neg (by omega), if_neg (by omega), if_neg (by omega), if_neg h4]

/-- The decoder on the closing quote. -/
theorem unquoteLoop_quote (n : Nat) (t : Bytes) : unquoteLoop (n + 1) (0x22 :: t) = some ([], t) := by
  simp [unquoteLoop]

/-- The decoder undoes the encoder: on the encoding of valid UTF-8, followed by the closing
quote, the decoder returns the bytes encoded and what follows the quote. -/
theorem unquoteLoop_appendStringLoop (k : Nat) :
    ∀ (p : Bytes) (n m : Nat) (rem : Bytes), p.length ≤ k → utf8ValidLoop n p = true →
      (appendStringLoop k p).length < m →
      unquoteLoop m (appendStringLoop k p ++ 0x22 :: rem) = some (p, rem) := by
  induction k with
  | zero =>
    intro p n m rem hk _ hm
    have hp : p = [] := List.length_eq_zero.mp (Nat.le_zero.mp hk)
    subst hp
    obtain ⟨m1, rfl⟩ : ∃ m1, m = m1 + 1 := ⟨m - 1, by omega⟩
    simp only [appendStringLoop, List.nil_append]
    exact unquoteLoop_quote m1 rem
  | succ k ih =>
    intro p n m rem hk hv hm
    rcases p with _ | ⟨b, rest⟩
    · obtain ⟨m1, rfl⟩ : ∃ m1, m = m1 + 1 := ⟨m - 1, by omega⟩
      simp only [appendStringLoop, List.nil_append]
      exact unquoteLoop_quote m1 rem
    · rcases n with _ | n
      · simp [utf8ValidLoop] at hv
      · obtain ⟨m1, rfl⟩ : ∃ m1, m = m1 + 1 := ⟨m - 1, by omega⟩
        simp only [utf8ValidLoop] at hv
        cases hrs : decodeRune (b :: rest) with
        | mk r sz =>
          rw [hrs] at hv
          simp only at hv
          split_ifs at hv with herr
          have hshape := decodeRune_shape (b :: rest) r sz hrs herr (by simp)
          have hw := shape_width hshape
          simp only [List.length_cons] at hk hw
          unfold appendStringLoop at hm ⊢
          by_cases hb : b < 0x80
          · have hdec : decodeRune (b :: rest) = (b, 1) := by
              unfold decodeRune
              simp only
              rw [if_pos hb]
            rw [hdec] at hrs
            cases hrs
            simp only [List.drop_succ_cons, List.drop_zero] at hv
            rw [if_pos hb] at hm ⊢
            by_cases hs : htmlSafe b = true
            · rw [if_pos hs] at hm ⊢
              simp only [List.length_cons] at hm
              have hih := ih rest n m1 rem (by omega) hv (by omega)
              have hsafe := hs
              unfold htmlSafe at hsafe
              simp only [decide_eq_true_eq] at hsafe
              rw [List.cons_append, unquoteLoop_plain b (by omega) (by omega) (by omega) hb, hih]
              rfl
            · rw [if_neg hs] at hm ⊢
              simp only [Bool.not_eq_true] at hs
              have hlen : 1 ≤ (escapeByte b).length := by
                unfold escapeByte
                split_ifs <;> simp
              simp only [List.length_append] at hm
              have hih := ih rest n m1 rem (by omega) hv (by omega)
              rw [List.append_assoc, unquoteLoop_escapeByte b hb hs, hih]
              rfl
          · rw [if_neg hb] at hm ⊢
            rw [decodeRune_take_four, hrs] at hm ⊢
            simp only at hm ⊢
            rw [if_neg herr] at hm ⊢
            have henc := shape_encode hshape
            have hlt : ((b :: rest).take sz).length = sz := by
              rw [List.length_take]
              simp only [List.length_cons]
              omega
            have hdl : ((b :: rest).drop sz).length ≤ k := by
              rw [List.length_drop]
              simp only [List.length_cons]
              omega
            by_cases hls : r = 0x2028 ∨ r = 0x2029
            · rw [if_pos hls] at hm ⊢
              simp only [List.length_append, List.length_cons, List.length_nil] at hm
              have hih := ih _ n m1 rem hdl hv (by omega)
              have hg : getu4 (0x5C :: 0x75 :: (0x32 :: 0x30 :: 0x32 :: hexDigit (r % 16)
                  :: (appendStringLoop k ((b :: rest).drop sz) ++ 0x22 :: rem))) = some r := by
                rcases hls with hls | hls <;> rw [hls] <;> rfl
              have hsur : isSurrogate r = false := by
                rcases hls with hls | hls <;> rw [hls] <;> decide
              show unquoteLoop (m1 + 1) (0x5C :: 0x75 :: (0x32 :: 0x30 :: 0x32
                  :: hexDigit (r % 16)
                  :: (appendStringLoop k ((b :: rest).drop sz) ++ 0x22 :: rem)))
                = some (b :: rest, rem)
              rw [unquoteLoop_u, hg]
              simp only [hsur, Bool.false_eq_true, if_false, List.drop_succ_cons, List.drop_zero]
              rw [hih, henc]
              simp [consDecoded]
            · rw [if_neg hls] at hm ⊢
              simp only [List.length_append] at hm
              have hih := ih _ n m1 rem hdl hv (by omega)
              have hdec := shape_decode hshape
                (appendStringLoop k ((b :: rest).drop sz) ++ 0x22 :: rem)
              rw [List.append_assoc]
              have htk : (b :: rest).take sz
                    ++ (appendStringLoop k ((b :: rest).drop sz) ++ 0x22 :: rem)
                  = b :: (rest.take (sz - 1)
                    ++ (appendStringLoop k ((b :: rest).drop sz) ++ 0x22 :: rem)) := by
                obtain ⟨w, rfl⟩ : ∃ w, sz = w + 1 := ⟨sz - 1, by omega⟩
                simp
              rw [htk, unquoteLoop_multi b hb, ← htk, hdec]
              simp only
              rw [List.drop_left' hlt, hih, henc]
              simp [consDecoded]

/-- On valid UTF-8, decoding the JSON text that `json.Marshal` produced gives the bytes back. -/
theorem decodeBlobContent_jsonMarshalString (p : Bytes) (hv : utf8Valid p = true) :
    decodeBlobContent (jsonMarshalString p) = p := by
  have h := unquoteLoop_appendStringLoop p.length p p.length
    ((appendStringLoop p.length p ++ [0x22]).length + 1) [] (le_refl _) hv
    (by simp only [List.length_append, List.length_singleton]; omega)
  unfold decodeBlobContent jsonUnmarshalString jsonMarshalString
  simp only [List.cons_append, List.nil_append, List.append_assoc]
  rw [List.dropWhile_cons_of_neg (by decide)]
  simp only [if_true]
  rw [h]
  simp

/-! ## Reading back what was committed -/

/-- What `CreateBlob` does to the blobs: nothing when the digest is there, else one more. -/
theorem createBlob_blobs {s s1 : Store} {f : Bool} {blob : Blob}
    (h : GitRepository.CreateBlob s f blob = .ok s1) :
    (s1.blobs = s.blobs ∧ ∃ b ∈ s.blobs, b.Hash = blob.Hash) ∨ s1.blobs = s.blobs ++ [blob] := by
  unfold GitRepository.CreateBlob at h
  split_ifs at h with h1 h2
  · cases h
    left
    simp only [List.any_eq_true, decide_eq_true_eq] at h2
    exact ⟨rfl, h2⟩
  · cases h
    right
    rfl

/-- The blobs after the loop of `CommitChanges`: those of before stay, every file has a blob
under its digest, and a blob that was not there before is the encoding of one of the files. -/
theorem createBlobs_blobs (o : Oracle) (files : List (Bytes × Bytes)) :
    ∀ (i : Nat) (s : Store) (acc es : List Tree) (s1 : Store),
      GitUseCase.createBlobs o i s files acc = (.ok es, s1) →
        (∀ b ∈ s.blobs, b ∈ s1.blobs)
        ∧ (∀ f ∈ files, ∃ b ∈ s1.blobs, b.Hash = sha256Hex f.2)
        ∧ (∀ b ∈ s1.blobs, b ∈ s.blobs
            ∨ ∃ f ∈ files, b.Hash = sha256Hex f.2 ∧ b.ContentJSON = jsonMarshalString f.2) := by
  induction files with
  | nil =>
    intro i s acc es s1 h
    simp only [GitUseCase.createBlobs, Prod.mk.injEq] at h
    obtain ⟨-, rfl⟩ := h
    exact ⟨fun b hb => hb, fun f hf => absurd hf (List.not_mem_nil f), fun b hb => Or.inl hb⟩
  | cons g rest ih =>
    intro i s acc es s1 h
    obtain ⟨path, content⟩ := g
    simp only [GitUseCase.createBlobs] at h
    split at h
    · simp at h
    · rename_i s2 hc
      obtain ⟨ih1, ih2, ih3⟩ := ih _ _ _ _ _ h
      have hmono : ∀ b ∈ s.blobs, b ∈ s2.blobs := by
        intro b hb
        rcases createBlob_blobs hc with ⟨he, -⟩ | he <;> rw [he]
        · exact hb
        · exact List.mem_append_left _ hb
      refine ⟨fun b hb => ih1 b (hmono b hb), ?_, ?_⟩
      · intro f hf
        rcases List.mem_cons.mp hf with hf | hf
        · subst hf
          rcases createBlob_blobs hc with ⟨-, b, hb, hh⟩ | he
          · exact ⟨b, ih1 b (hmono b hb), hh⟩
          · refine ⟨⟨sha256Hex content, jsonMarshalString content, content.length, o.now i⟩,
              ih1 _ ?_, rfl⟩
            rw [he]
            simp
        · exact ih2 f hf
      · intro b hb
        rcases ih3 b hb with hb2 | ⟨f, hf, hh⟩
        · rcases createBlob_blobs hc with ⟨he, -⟩ | he
          · rw [he] at hb2
            exact Or.inl hb2
          · rw [he] at hb2
            rcases List.mem_append.mp hb2 with hb3 | hb3
            · exact Or.inl hb3
            · simp only [List.mem_singleton] at hb3
              subst hb3
              exact Or.inr ⟨(path, content), List.mem_cons_self _ _, rfl, rfl⟩
        · exact Or.inr ⟨f, List.mem_cons_of_mem _ hf, hh⟩

/-- Among the entries built for a map, the first one with a given path carries the digest of
the payload stored under that path. -/
theorem entriesFrom_find (o : Oracle) (cid : UUID) (files : List (Bytes × Bytes)) :
    ∀ (i : Nat) (path p : Bytes), (files.map Prod.fst).Nodup → (path, p) ∈ files →
      ∃ e, ((entriesFrom o i files).map (fun e => { e with CommitID := cid })).find?
          (fun t => decide (t.Path = path)) = some e ∧ e.BlobHash = sha256Hex p := by
  induction files with
  | nil => intro i path p _ hm; cases hm
  | cons g rest ih =>
    intro i path p hnd hm
    obtain ⟨path1, content⟩ := g
    simp only [List.map_cons, List.nodup_cons] at hnd
    simp only [entriesFrom, List.map_cons, List.find?_cons]
    rcases List.mem_cons.mp hm with hm | hm
    · cases hm
      simp
    · have hne : path1 ≠ path := by
        intro he
        subst he
        exact hnd.1 (List.mem_map.mpr ⟨(path1, p), hm, rfl⟩)
      simp only [hne, decide_False]
      exact ih (i + 1) path p hnd.2 hm

set_option maxRecDepth 100000 in
/-- C2, as stated, fails for bytes that are not valid UTF-8: the one-byte payload `0xFF`,
committed under the path `a`, reads back as the three bytes of U+FFFD. -/
theorem commitChanges_invalid_utf8_lost :
    (GitUseCase.CommitChanges freshMain calmOracle 1 2 "main" "snapshot" 9
        [(str "a", [0xFF])]).1.toOption.map Commit.ID = some 101
    ∧ readBack (GitUseCase.CommitChanges freshMain calmOracle 1 2 "main" "snapshot" 9
        [(str "a", [0xFF])]).2 101 (str "a") = some [0xEF, 0xBF, 0xBD] := by
  decide

/-- C2, amended: for a file map (distinct paths) and a payload in it that is valid UTF-8,
after a successful `CommitChanges` the blob stored for that path, decoded the way the build
worker decodes it, is byte for byte the payload.  The identifier of the commit is new among
the tree entries, and the digest of the payload names no other content, neither among the
blobs of the store before the call nor among the payloads of the map. -/
theorem commitChanges_roundtrip (s : Store) (o : Oracle) (workspaceID siteID : UUID)
    (branchName message : String) (authorID : UUID) (files : List (Bytes × Bytes)) (c : Commit)
    (path p : Bytes)
    (hkeys : (files.map Prod.fst).Nodup)
    (hmem : (path, p) ∈ files)
    (hutf8 : utf8Valid p = true)
    (hfresh : ∀ t ∈ s.trees, t.CommitID ≠ o.uuid files.length)
    (hstore : ∀ b ∈ s.blobs, b.Hash = sha256Hex p → decodeBlobContent b.ContentJSON = p)
    (hfiles : ∀ f ∈ files, sha256Hex f.2 = sha256Hex p → f.2 = p)
    (hok : (GitUseCase.CommitChanges s o workspaceID siteID branchName message authorID
      files).1 = .ok c) :
    readBack (GitUseCase.CommitChanges s o workspaceID siteID branchName message authorID
      files).2 c.ID path = some p := by
  have hrun : GitUseCase.CommitChanges s o workspaceID siteID branchName message authorID
      files = (.ok c, (GitUseCase.CommitChanges s o workspaceID siteID branchName message
        authorID files).2) := by
    rw [← hok]
  obtain ⟨branch, s1, -, hcb, hc, hblobs, -, htrees, -, -, -⟩ := commitChanges_ok hrun
  obtain ⟨hb1, hb2, hb3⟩ := createBlobs_blobs o files 0 s [] _ s1 hcb
  have hcid : c.ID = o.uuid files.length := by rw [hc]
  obtain ⟨e, hfind, hhash⟩ := entriesFrom_find o c.ID files 0 path p hkeys hmem
  have hold : s.trees.filter (fun t => decide (t.CommitID = c.ID)) = [] := by
    rw [List.filter_eq_nil_iff]
    intro t ht
    simpa [hcid] using hfresh t ht
  have hnew : ((entriesFrom o 0 files).map (fun e => { e with CommitID := c.ID })).filter
      (fun t => decide (t.CommitID = c.ID))
      = (entriesFrom o 0 files).map (fun e => { e with CommitID := c.ID }) := by
    rw [List.filter_eq_self]
    intro t ht
    obtain ⟨t0, -, rfl⟩ := List.mem_map.mp ht
    simp
  obtain ⟨b0, hb0, hb0h⟩ := hb2 (path, p) hmem
  have hsome : ∃ b, (GitUseCase.CommitChanges s o workspaceID siteID branchName message
      authorID files).2.blobs.find? (fun b => decide (b.Hash = e.BlobHash)) = some b := by
    rw [hblobs, hhash]
    cases hf : s1.blobs.find? (fun b => decide (b.Hash = sha256Hex p)) with
    | some b => exact ⟨b, rfl⟩
    | none =>
      have := List.find?_eq_none.mp hf b0 hb0
      simp [hb0h] at this
  obtain ⟨b, hbf⟩ := hsome
  have hbm : b ∈ s1.blobs := by
    rw [hblobs] at hbf
    exact List.mem_of_find?_eq_some hbf
  have hbh : b.Hash = sha256Hex p := by
    have := List.find?_some hbf
    simpa [hhash] using this
  have hdec : decodeBlobContent b.ContentJSON = p := by
    rcases hb3 b hbm with hin | ⟨f, hf, hfh, hfc⟩
    · exact hstore b hin hbh
    · have hfp : f.2 = p := hfiles f hf (by rw [← hfh, hbh])
      rw [hfc, hfp]
      exact decodeBlobContent_jsonMarshalString p hutf8
  unfold readBack GitRepository.GetTree GitRepository.GetBlob
  simp only [Bool.false_eq_true, if_false]
  rw [htrees, List.filter_append, hold, hnew, List.nil_append, hfind]
  simp only
  rw [hbf]
  simp only [hdec]

set_option maxRecDepth 100000 in
/-- C2, amended, on the fresh branch `main`: the payload `<p>é</p>` with its two-byte `é`,
committed under the path `a`, reads back as it was written. -/
theorem commitChanges_roundtrip_witness :
    utf8Valid [0x3C, 0x70, 0x3E, 0xC3, 0xA9, 0x3C, 0x2F, 0x70, 0x3E] = true
    ∧ readBack (GitUseCase.CommitChanges freshMain calmOracle 1 2 "main" "snapshot" 9
        [(str "a", [0x3C, 0x70, 0x3E, 0xC3, 0xA9, 0x3C, 0x2F, 0x70, 0x3E])]).2 101 (str "a")
      = some [0x3C, 0x70, 0x3E, 0xC3, 0xA9, 0x3C, 0x2F, 0x70, 0x3E] :=
  ⟨by decide,
   commitChanges_roundtrip freshMain calmOracle 1 2 "main" "snapshot" 9
    [(str "a", [0x3C, 0x70, 0x3E, 0xC3, 0xA9, 0x3C, 0x2F, 0x70, 0x3E])]
    ⟨101, 1, some 2,
      GitUseCase.treeHashOf (entriesFrom calmOracle 0
        [(str "a", [0x3C, 0x70, 0x3E, 0xC3, 0xA9, 0x3C, 0x2F, 0x70, 0x3E])]),
      none, none, "snapshot", 9, 1⟩
    (str "a") [0x3C, 0x70, 0x3E, 0xC3, 0xA9, 0x3C, 0x2F, 0x70, 0x3E]
    (by decide) (by decide) (by decide) (by decide) (by decide) (by decide) (by decide)⟩

/-! ## `CommitChanges`: parent chain -/

/-- The head a lookup reports after the rows with one id were moved to a commit: the row found
before is found again, at the new head. -/
theorem getBranch_after_move (s s1 : Store) (siteID : UUID) (name : String) (branch : Branch)
    (head : UUID) (t : Time)
    (hb : GitRepository.GetBranch s false siteID name = .ok branch)
    (hs : s1.branches = s.branches.map (fun b =>
      if b.ID = branch.ID then { b with HeadCommitID := some head, UpdatedAt := t } else b)) :
    (GitRepository.GetBranch s1 false siteID name).toOption.map Branch.HeadCommitID
      = some (some head) := by
  have hfind := find_branch_map s.branches (fun b =>
      if b.ID = branch.ID then { b with HeadCommitID := some head, UpdatedAt := t } else b)
      siteID name
      (fun b => updateBranch_keeps_key { branch with HeadCommitID := some head, UpdatedAt := t } b)
  unfold GitRepository.GetBranch at hb ⊢
  simp only [Bool.false_eq_true, if_false] at hb ⊢
  rw [hs, hfind]
  split at hb
  · rename_i b hb1
    cases hb
    rw [hb1]
    simp [Except.toOption]
  · cases hb

/-- C11: for a branch stored with head `b.HeadCommitID` (null or not), a `CommitChanges` that
returns a commit `c` returns one whose parent is that head and whose merge parent is null;
afterwards the stored head of the branch is the id of `c`, so that every further successful
`CommitChanges` on the branch returns a commit whose parent is `c`. -/
theorem commitChanges_ok_parent (s : Store) (o : Oracle) (workspaceID siteID : UUID)
    (branchName message : String) (authorID : UUID) (files : List (Bytes × Bytes))
    (b : Branch) (c : Commit)
    (hbranch : GitRepository.GetBranch s false siteID branchName = .ok b)
    (hok : (GitUseCase.CommitChanges s o workspaceID siteID branchName message authorID
      files).1 = .ok c) :
    c.ParentHash = b.HeadCommitID
    ∧ c.MergeParentHash = none
    ∧ (GitRepository.GetBranch
        (GitUseCase.CommitChanges s o workspaceID siteID branchName message authorID files).2
        false siteID branchName).toOption.map Branch.HeadCommitID = some (some c.ID)
    ∧ ∀ (o2 : Oracle) (workspaceID2 : UUID) (message2 : String) (authorID2 : UUID)
        (files2 : List (Bytes × Bytes)) (c2 : Commit),
        (GitUseCase.CommitChanges
          (GitUseCase.CommitChanges s o workspaceID siteID branchName message authorID files).2
          o2 workspaceID2 siteID branchName message2 authorID2 files2).1 = .ok c2 →
        c2.ParentHash = some c.ID := by
  have hrun : GitUseCase.CommitChanges s o workspaceID siteID branchName message authorID
      files = (.ok c, (GitUseCase.CommitChanges s o workspaceID siteID branchName message
        authorID files).2) := by
    rw [← hok]
  obtain ⟨branch, s1, hgb, -, hc, -, -, -, hbs, -, -⟩ := commitChanges_ok hrun
  have hgb2 := (getBranch_ok hgb).2
  rw [hbranch] at hgb2
  cases hgb2
  have hhead := getBranch_after_move s _ siteID branchName b c.ID (o.now (files.length + 1))
    hbranch hbs
  refine ⟨by rw [hc], by rw [hc], hhead, ?_⟩
  intro o2 workspaceID2 message2 authorID2 files2 c2 hok2
  have hrun2 : GitUseCase.CommitChanges
      (GitUseCase.CommitChanges s o workspaceID siteID branchName message authorID files).2
      o2 workspaceID2 siteID branchName message2 authorID2 files2
      = (.ok c2, (GitUseCase.CommitChanges
        (GitUseCase.CommitChanges s o workspaceID siteID branchName message authorID files).2
        o2 workspaceID2 siteID branchName message2 authorID2 files2).2) := by
    rw [← hok2]
  obtain ⟨branch2, s12, hgb3, -, hc2, -, -, -, -, -, -⟩ := commitChanges_ok hrun2
  have hgb4 := (getBranch_ok hgb3).2
  rw [hgb4] at hhead
  simp only [Except.toOption, Option.map_some', Option.some.injEq] at hhead
  rw [hc2]
  exact hhead

set_option maxRecDepth 100000 in
/-- C11, on the fresh branch `main`: a first commit, with no parent, and the head after it. -/
theorem commitChanges_ok_parent_witness :
    (⟨101, 1, some 2, GitUseCase.treeHashOf (entriesFrom calmOracle 0 [(str "a", str "x")]),
        none, none, "first", 9, 1⟩ : Commit).ParentHash = none
    ∧ (GitRepository.GetBranch
        (GitUseCase.CommitChanges freshMain calmOracle 1 2 "main" "first" 9
          [(str "a", str "x")]).2 false 2 "main").toOption.map Branch.HeadCommitID
      = some (some 101) :=
  have h := commitChanges_ok_parent freshMain calmOracle 1 2 "main" "first" 9
    [(str "a", str "x")] ⟨100, 1, 2, "main", none, false, 0, 0⟩
    ⟨101, 1, some 2, GitUseCase.treeHashOf (entriesFrom calmOracle 0 [(str "a", str "x")]),
      none, none, "first", 9, 1⟩ (by decide) (by decide)
  ⟨h.1, h.2.2.1⟩

/-! ## `CommitChanges`: the tree of the new commit -/

/-- The tree entries stored under the id of the commit that `CommitChanges` returns, when that
id was not in use among the tree entries: the entries built for the files, linked to the
commit, in the order of the loop. -/
theorem commitChanges_stored_tree {s : Store} {o : Oracle} {workspaceID siteID : UUID}
    {branchName message : String} {authorID : UUID} {files : List (Bytes × Bytes)} {c : Commit}
    (hfresh : ∀ t ∈ s.trees, t.CommitID ≠ o.uuid files.length)
    (hok : (GitUseCase.CommitChanges s o workspaceID siteID branchName message authorID
      files).1 = .ok c) :
    c.TreeHash = GitUseCase.treeHashOf (entriesFrom o 0 files)
    ∧ GitRepository.GetTree
        (GitUseCase.CommitChanges s o workspaceID siteID branchName message authorID files).2
        false c.ID
      = .ok ((entriesFrom o 0 files).map (fun e => { e with CommitID := c.ID })) := by
  have hrun : GitUseCase.CommitChanges s o workspaceID siteID branchName message authorID
      files = (.ok c, (GitUseCase.CommitChanges s o workspaceID siteID branchName message
        authorID files).2) := by
    rw [← hok]
  obtain ⟨branch, s1, -, -, hc, -, -, htrees, -, -, -⟩ := commitChanges_ok hrun
  have hcid : c.ID = o.uuid files.length := by rw [hc]
  have hold : s.trees.filter (fun t => decide (t.CommitID = c.ID)) = [] := by
    rw [List.filter_eq_nil_iff]
    intro t ht
    simpa [hcid] using hfresh t ht
  have hnew : ((entriesFrom o 0 files).map (fun e => { e with CommitID := c.ID })).filter
      (fun t => decide (t.CommitID = c.ID))
      = (entriesFrom o 0 files).map (fun e => { e with CommitID := c.ID }) := by
    rw [List.filter_eq_self]
    intro t ht
    obtain ⟨t0, -, rfl⟩ := List.mem_map.mp ht
    simp
  refine ⟨by rw [hc], ?_⟩
  unfold GitRepository.GetTree
  simp only [Bool.false_eq_true, if_false]
  rw [htrees, List.filter_append, hold, hnew, List.nil_append]

/-- Path, digest, type and mode of the entries built for a map. -/
theorem entriesFrom_fields (o : Oracle) (cid : UUID) (files : List (Bytes × Bytes)) :
    ∀ i : Nat, ((entriesFrom o i files).map (fun e => { e with CommitID := cid })).map
        (fun t => (t.CommitID, t.Path, t.BlobHash, t.Type_, t.Mode))
      = files.map (fun f => (cid, f.1, sha256Hex f.2, "blob", "100644")) := by
  induction files with
  | nil => intro i; rfl
  | cons f rest ih =>
    intro i
    obtain ⟨path, content⟩ := f
    simp only [entriesFrom, List.map_cons, List.cons.injEq, true_and]
    exact ih (i + 1)

/-- C12: after a `CommitChanges` that returns a commit `c` (whose id is new among the tree
entries), the tree entries stored for `c` are, in the order of the loop, one entry for each
entry of the file map and no other: linked to `c`, with the path of the file, the hex SHA-256
of its bytes, type `blob` and mode `100644`.  Nothing of the parent commit is among them. -/
theorem commitChanges_full_snapshot (s : Store) (o : Oracle) (workspaceID siteID : UUID)
    (branchName message : String) (authorID : UUID) (files : List (Bytes × Bytes)) (c : Commit)
    (hfresh : ∀ t ∈ s.trees, t.CommitID ≠ o.uuid files.length)
    (hok : (GitUseCase.CommitChanges s o workspaceID siteID branchName message authorID
      files).1 = .ok c) :
    (GitRepository.GetTree
        (GitUseCase.CommitChanges s o workspaceID siteID branchName message authorID files).2
        false c.ID).toOption.map
        (List.map (fun t => (t.CommitID, t.Path, t.BlobHash, t.Type_, t.Mode)))
      = some (files.map (fun f => (c.ID, f.1, sha256Hex f.2, "blob", "100644"))) := by
  rw [(commitChanges_stored_tree hfresh hok).2]
  simp only [Except.toOption, Option.map_some', Option.some.injEq]
  exact entriesFrom_fields o c.ID files 0

set_option maxRecDepth 100000 in
/-- C12, on a branch whose head has the one file `a`: a second commit with the one file `b`
has the one entry `b`. -/
theorem commitChanges_full_snapshot_witness :
    (GitRepository.GetTree
        (GitUseCase.CommitChanges
          (GitUseCase.CommitChanges freshMain calmOracle 1 2 "main" "first" 9
            [(str "a", str "x")]).2
          ⟨fun k => 200 + k, fun k => k, fun _ => false⟩ 1 2 "main" "second" 9
          [(str "b", str "y")]).2
        false 201).toOption.map
        (List.map (fun t => (t.CommitID, t.Path, t.BlobHash, t.Type_, t.Mode)))
      = some [(201, str "b", sha256Hex (str "y"), "blob", "100644")] :=
  commitChanges_full_snapshot
    (GitUseCase.CommitChanges freshMain calmOracle 1 2 "main" "first" 9 [(str "a", str "x")]).2
    ⟨fun k => 200 + k, fun k => k, fun _ => false⟩ 1 2 "main" "second" 9 [(str "b", str "y")]
    ⟨201, 1, some 2,
      GitUseCase.treeHashOf (entriesFrom ⟨fun k => 200 + k, fun k => k, fun _ => false⟩ 0
        [(str "b", str "y")]),
      some 101, none, "second", 9, 1⟩
    (by decide) (by decide)

/-! ## Tree digest and stored tree -/

/-- The tree digest does not read the commit an entry is linked to. -/
theorem treeHashOf_link (cid : UUID) (l : List Tree) :
    GitUseCase.treeHashOf (l.map (fun e => { e with CommitID := cid })) = GitUseCase.treeHashOf l := by
  unfold GitUseCase.treeHashOf
  congr 1
  induction l with
  | nil => rfl
  | cons e rest ih => simp only [List.map_cons, List.flatMap_cons, ih]

/-- The half of the invariant that holds: the tree hash of a commit made by `CommitChanges`
(with an id that is new among the tree entries) is the digest over the tree entries stored
for it, in the order they were stored. -/
theorem commitChanges_treeHash_of_stored (s : Store) (o : Oracle) (workspaceID siteID : UUID)
    (branchName message : String) (authorID : UUID) (files : List (Bytes × Bytes)) (c : Commit)
    (hfresh : ∀ t ∈ s.trees, t.CommitID ≠ o.uuid files.length)
    (hok : (GitUseCase.CommitChanges s o workspaceID siteID branchName message authorID
      files).1 = .ok c) :
    (GitRepository.GetTree
        (GitUseCase.CommitChanges s o workspaceID siteID branchName message authorID files).2
        false c.ID).toOption.map GitUseCase.treeHashOf = some c.TreeHash := by
  obtain ⟨h1, h2⟩ := commitChanges_stored_tree hfresh hok
  rw [h2, h1]
  simp [Except.toOption, treeHashOf_link]

set_option maxRecDepth 100000 in
/-- C13: the invariant fails for `MergeBranches`.  In the store `mainAndDev`, merging `main`
(head 101, one file) into `dev` returns the commit 400 with the tree hash `9ccc...` of commit
101; no tree entry is stored for commit 400, and the digest over no entries is `e3b0...`. -/
theorem mergeBranches_commit_without_tree :
    (GitUseCase.MergeBranches mainAndDev ⟨fun k => 400 + k, fun k => k, fun _ => false⟩ 1 2
        "main" "dev" 9).1.toOption.map (fun c => (c.ID, c.TreeHash))
      = some (400, str "9ccc1e17aaefd88a1b96013b93763263cc1707b208d522ca932ff1bf3a48228d")
    ∧ GitRepository.GetTree
        (GitUseCase.MergeBranches mainAndDev ⟨fun k => 400 + k, fun k => k, fun _ => false⟩ 1 2
          "main" "dev" 9).2 false 400 = .ok []
    ∧ GitUseCase.treeHashOf []
      = str "e3b0c44298fc1c149afbf4c8996fb92427ae41e4649b934ca495991b7852b855" := by
  decide

/-! ## What a failed call leaves behind -/

/-- The loop over the tree entries only appends tree entries. -/
theorem saveTrees_trees_grow (o : Oracle) (cid : UUID) (entries : List Tree) :
    ∀ (k : Nat) (s : Store), s.trees <+: (GitUseCase.saveTrees o cid k s entries).2.trees := by
  induction entries with
  | nil => intro k s; simp [GitUseCase.saveTrees]
  | cons e rest ih =>
    intro k s
    simp only [GitUseCase.saveTrees, GitRepository.CreateTree]
    split
    · exact List.prefix_refl _
    · rename_i s1 h
      split_ifs at h
      cases h
      have hrest := ih (k + 1) { s with trees := s.trees ++ [{ e with CommitID := cid }] }
      exact (List.prefix_append _ _).trans hrest

/-- Whatever its outcome, `CommitChanges` only appends to the commits and to the tree entries,
and it appends at most one commit. -/
theorem commitChanges_grows (s : Store) (o : Oracle) (workspaceID siteID : UUID)
    (branchName message : String) (authorID : UUID) (files : List (Bytes × Bytes)) :
    (∃ cs, (GitUseCase.CommitChanges s o workspaceID siteID branchName message authorID
        files).2.commits = s.commits ++ cs ∧ cs.length ≤ 1)
    ∧ s.trees <+: (GitUseCase.CommitChanges s o workspaceID siteID branchName message authorID
        files).2.trees := by
  unfold GitUseCase.CommitChanges
  split
  · exact ⟨⟨[], by simp⟩, List.prefix_refl _⟩
  · rename_i branch hb
    obtain ⟨-, f2, f3, -, -⟩ := createBlobs_frame o files 0 s []
    split
    · rename_i e s1 hcb
      rw [hcb] at f2 f3
      simp only at f2 f3
      exact ⟨⟨[], by simp [f2]⟩, by simp [f3]⟩
    · rename_i es s1 hcb
      rw [hcb] at f2 f3
      simp only at f2 f3
      simp only [GitRepository.CreateCommit]
      split
      · exact ⟨⟨[], by simp [f2]⟩, by simp [f3]⟩
      · rename_i s2 hcc
        split_ifs at hcc
        cases hcc
        obtain ⟨-, g2, -, -, -⟩ := saveTrees_frame o (o.uuid files.length) es (files.length + 2)
            { s1 with commits := s1.commits ++ [
              { ID := o.uuid files.length, WorkspaceID := workspaceID, SiteID := some siteID,
                TreeHash := GitUseCase.treeHashOf es,
                ParentHash := branch.HeadCommitID, MergeParentHash := none, Message := message,
                AuthorID := authorID, CreatedAt := o.now files.length }] }
        have g3 := saveTrees_trees_grow o (o.uuid files.length) es (files.length + 2)
            { s1 with commits := s1.commits ++ [
              { ID := o.uuid files.length, WorkspaceID := workspaceID, SiteID := some siteID,
                TreeHash := GitUseCase.treeHashOf es,
                ParentHash := branch.HeadCommitID, MergeParentHash := none, Message := message,
                AuthorID := authorID, CreatedAt := o.now files.length }] }
        split
        · rename_i e s3 hst
          rw [hst] at g2 g3
          simp only at g2 g3
          rw [f3] at g3
          exact ⟨⟨_, by rw [g2, f2], by simp⟩, g3⟩
        · rename_i u s3 hst
          rw [hst] at g2 g3
          simp only at g2 g3
          rw [f3] at g3
          simp only [GitRepository.UpdateBranch]
          split
          · exact ⟨⟨_, by rw [g2, f2], by simp⟩, g3⟩
          · rename_i s5 hu
            split_ifs at hu
            cases hu
            exact ⟨⟨_, by rw [g2, f2], by simp⟩, g3⟩

/-- Whatever its outcome, `MergeBranches` appends at most one commit and leaves the tree
entries alone. -/
theorem mergeBranches_grows (s : Store) (o : Oracle) (workspaceID siteID : UUID)
    (sourceName targetName : String) (authorID : UUID) :
    (∃ cs, (GitUseCase.MergeBranches s o workspaceID siteID sourceName targetName
        authorID).2.commits = s.commits ++ cs ∧ cs.length ≤ 1)
    ∧ (GitUseCase.MergeBranches s o workspaceID siteID sourceName targetName authorID).2.trees
      = s.trees := by
  unfold GitUseCase.MergeBranches
  split
  · exact ⟨⟨[], by simp⟩, rfl⟩
  · split
    · exact ⟨⟨[], by simp⟩, rfl⟩
    · split
      · exact ⟨⟨[], by simp⟩, rfl⟩
      · split
        · exact ⟨⟨[], by simp⟩, rfl⟩
        · simp only [GitRepository.CreateCommit]
          split
          · exact ⟨⟨[], by simp⟩, rfl⟩
          · rename_i s1 hc
            split_ifs at hc
            cases hc
            simp only [GitRepository.UpdateBranch]
            split
            · exact ⟨⟨_, rfl, by simp⟩, rfl⟩
            · rename_i s2 hu
              split_ifs at hu
              cases hu
              exact ⟨⟨_, rfl, by simp⟩, rfl⟩

set_option maxRecDepth 100000 in
/-- C14, as stated, fails: nothing is rolled back.  A `CommitChanges` of one file to the fresh
branch `main` whose last statement, the update of the branch, fails returns an error and
leaves its commit and its tree entry in the store; a `MergeBranches` whose update of the target
fails returns an error and leaves its merge commit in the store. -/
theorem failed_calls_leave_commits :
    (isError (GitUseCase.CommitChanges freshMain ⟨fun k => 100 + k, fun k => k, fun k => k == 4⟩
        1 2 "main" "first" 9 [(str "a", str "x")]).1 = true
      ∧ freshMain.commits.length = 0 ∧ freshMain.trees.length = 0
      ∧ (GitUseCase.CommitChanges freshMain ⟨fun k => 100 + k, fun k => k, fun k => k == 4⟩
        1 2 "main" "first" 9 [(str "a", str "x")]).2.commits.map Commit.ID = [101]
      ∧ (GitUseCase.CommitChanges freshMain ⟨fun k => 100 + k, fun k => k, fun k => k == 4⟩
        1 2 "main" "first" 9 [(str "a", str "x")]).2.trees.map Tree.CommitID = [101])
    ∧ (isError (GitUseCase.MergeBranches twoBranches
        ⟨fun k => 100 + k, fun k => k, fun k => k == 4⟩ 1 2 "dev" "main" 9).1 = true
      ∧ twoBranches.commits.map Commit.ID = [7]
      ∧ (GitUseCase.MergeBranches twoBranches
        ⟨fun k => 100 + k, fun k => k, fun k => k == 4⟩ 1 2 "dev" "main" 9).2.commits.map
          Commit.ID = [7, 100]) := by
  decide

/-- C14, amended: whenever `CommitChanges` or `MergeBranches` returns an error, the branch
records, and so every branch head, are the same as before the call, and the commits and tree
entries stored before the call are all still stored, in their place; what the failed call
wrote before the statement that failed (at most one commit; for `CommitChanges` also tree
entries) stays behind them. -/
theorem failed_calls_keep_heads_and_history (s : Store) (o : Oracle) (workspaceID siteID : UUID)
    (branchName message sourceName targetName : String) (authorID : UUID)
    (files : List (Bytes × Bytes)) :
    (isError (GitUseCase.CommitChanges s o workspaceID siteID branchName message authorID
        files).1 = true →
      (GitUseCase.CommitChanges s o workspaceID siteID branchName message authorID
        files).2.branches = s.branches
      ∧ (∃ cs, (GitUseCase.CommitChanges s o workspaceID siteID branchName message authorID
          files).2.commits = s.commits ++ cs ∧ cs.length ≤ 1)
      ∧ s.trees <+: (GitUseCase.CommitChanges s o workspaceID siteID branchName message
          authorID files).2.trees)
    ∧ (isError (GitUseCase.MergeBranches s o workspaceID siteID sourceName targetName
        authorID).1 = true →
      (GitUseCase.MergeBranches s o workspaceID siteID sourceName targetName
        authorID).2.branches = s.branches
      ∧ (∃ cs, (GitUseCase.MergeBranches s o workspaceID siteID sourceName targetName
          authorID).2.commits = s.commits ++ cs ∧ cs.length ≤ 1)
      ∧ (GitUseCase.MergeBranches s o workspaceID siteID sourceName targetName
          authorID).2.trees = s.trees) := by
  constructor
  · intro he
    refine ⟨?_, commitChanges_grows s o workspaceID siteID branchName message authorID files⟩
    rcases commitChanges_branches_or_ok s o workspaceID siteID branchName message authorID files
      with hsame | ⟨c, hc⟩
    · exact hsame
    · rw [hc] at he
      simp [isError] at he
  · intro he
    exact ⟨(mergeBranches_error he).1,
      mergeBranches_grows s o workspaceID siteID sourceName targetName authorID⟩

set_option maxRecDepth 100000 in
/-- C14, amended, on the two failing runs above: the branches are those of before. -/
theorem failed_calls_keep_heads_and_history_witness :
    (GitUseCase.CommitChanges freshMain ⟨fun k => 100 + k, fun k => k, fun k => k == 4⟩
        1 2 "main" "first" 9 [(str "a", str "x")]).2.branches = freshMain.branches
    ∧ (GitUseCase.MergeBranches twoBranches ⟨fun k => 100 + k, fun k => k, fun k => k == 4⟩
        1 2 "dev" "main" 9).2.branches = twoBranches.branches :=
  have h := failed_calls_keep_heads_and_history freshMain
    ⟨fun k => 100 + k, fun k => k, fun k => k == 4⟩ 1 2 "main" "first" "dev" "main" 9
    [(str "a", str "x")]
  have h2 := failed_calls_keep_heads_and_history twoBranches
    ⟨fun k => 100 + k, fun k => k, fun k => k == 4⟩ 1 2 "main" "first" "dev" "main" 9
    [(str "a", str "x")]
  ⟨(h.1 (by decide)).1, (h2.2 (by decide)).1⟩

/-! ## Content-addressed blobs -/

/-- `CreateBlob` keeps the digests of the blobs pairwise different. -/
theorem createBlob_nodup {s s1 : Store} {f : Bool} {blob : Blob}
    (h : GitRepository.CreateBlob s f blob = .ok s1) (hn : (s.blobs.map Blob.Hash).Nodup) :
    (s1.blobs.map Blob.Hash).Nodup := by
  unfold GitRepository.CreateBlob at h
  split_ifs at h with h1 h2
  · cases h
    exact hn
  · cases h
    simp only [List.any_eq_true, decide_eq_true_eq, not_exists, not_and] at h2
    simp only [List.map_append, List.map_cons, List.map_nil]
    rw [List.nodup_append]
    refine ⟨hn, by simp, ?_⟩
    intro a ha hb
    simp only [List.mem_singleton] at hb
    subst hb
    obtain ⟨b, hbm, hbh⟩ := List.mem_map.mp ha
    exact h2 b hbm hbh

/-- The loop of `CommitChanges` keeps the digests of the blobs pairwise different. -/
theorem createBlobs_nodup (o : Oracle) (files : List (Bytes × Bytes)) :
    ∀ (i : Nat) (s : Store) (acc : List Tree), (s.blobs.map Blob.Hash).Nodup →
      ((GitUseCase.createBlobs o i s files acc).2.blobs.map Blob.Hash).Nodup := by
  induction files with
  | nil => intro i s acc hn; simpa [GitUseCase.createBlobs] using hn
  | cons f rest ih =>
    intro i s acc hn
    obtain ⟨path, content⟩ := f
    simp only [GitUseCase.createBlobs]
    split
    · exact hn
    · rename_i s1 h
      exact ih _ _ _ (createBlob_nodup h hn)

/-- The loop of `CommitChanges` on a map cut in two: the second part runs on what the first
part leaves. -/
theorem createBlobs_append (o : Oracle) (pre post : List (Bytes × Bytes)) :
    ∀ (i : Nat) (s : Store) (acc : List Tree),
      GitUseCase.createBlobs o i s (pre ++ post) acc
        = match GitUseCase.createBlobs o i s pre acc with
          | (.ok es, s1) => GitUseCase.createBlobs o (i + pre.length) s1 post es
          | (.error e, s1) => (.error e, s1) := by
  induction pre with
  | nil => intro i s acc; simp [GitUseCase.createBlobs]
  | cons f rest ih =>
    intro i s acc
    obtain ⟨path, content⟩ := f
    simp only [List.cons_append, GitUseCase.createBlobs]
    split
    · rfl
    · rename_i s1 h
      simp only [List.append_eq]
      rw [ih]
      simp only [List.length_cons]
      rw [show i + 1 + rest.length = i + (rest.length + 1) by omega]

/-- In a list whose digests are pairwise different, the blobs with the digest of a member are
that member alone. -/
theorem filter_hash_of_nodup (l : List Blob) (b : Blob) (hn : (l.map Blob.Hash).Nodup)
    (hb : b ∈ l) : l.filter (fun x => decide (x.Hash = b.Hash)) = [b] := by
  induction l with
  | nil => cases hb
  | cons a rest ih =>
    simp only [List.map_cons, List.nodup_cons] at hn
    rcases List.mem_cons.mp hb with h | h
    · subst h
      have hrest : rest.filter (fun x => decide (x.Hash = b.Hash)) = [] := by
        rw [List.filter_eq_nil_iff]
        intro x hx
        simp only [decide_eq_true_eq]
        intro hxe
        exact hn.1 (List.mem_map.mpr ⟨x, hx, hxe⟩)
      simp [List.filter_cons, hrest]
    · have hne : a.Hash ≠ b.Hash := by
        intro he
        exact hn.1 (List.mem_map.mpr ⟨b, h, he.symm⟩)
      simp [List.filter_cons, hne, ih hn.2 h]

/-- C15: the digest of a payload is a function of its bytes (`sha256Hex`), and the blobs are
stored by digest.  In a store whose blob digests are pairwise different, after a
`CommitChanges` that returns a commit the digests are still pairwise different; for every
payload of the map exactly one blob has its digest; every blob stored before the call is
stored unchanged, so a digest stored by an earlier commit keeps its first content; and for a
digest that was not stored, the blob is the one written for the first file of the map with
that digest. -/
theorem commitChanges_dedup (s : Store) (o : Oracle) (workspaceID siteID : UUID)
    (branchName message : String) (authorID : UUID) (files : List (Bytes × Bytes)) (c : Commit)
    (path p : Bytes)
    (hunique : (s.blobs.map Blob.Hash).Nodup)
    (hmem : (path, p) ∈ files)
    (hok : (GitUseCase.CommitChanges s o workspaceID siteID branchName message authorID
      files).1 = .ok c) :
    ((GitUseCase.CommitChanges s o workspaceID siteID branchName message authorID
        files).2.blobs.map Blob.Hash).Nodup
    ∧ (∃ b, (GitUseCase.CommitChanges s o workspaceID siteID branchName message authorID
        files).2.blobs.filter (fun x => decide (x.Hash = sha256Hex p)) = [b])
    ∧ (∀ b ∈ s.blobs, b ∈ (GitUseCase.CommitChanges s o workspaceID siteID branchName message
        authorID files).2.blobs)
    ∧ (∀ pre post, files = pre ++ (path, p) :: post →
        (∀ b ∈ s.blobs, b.Hash ≠ sha256Hex p) → (∀ f ∈ pre, sha256Hex f.2 ≠ sha256Hex p) →
        (GitUseCase.CommitChanges s o workspaceID siteID branchName message authorID
          files).2.blobs.filter (fun x => decide (x.Hash = sha256Hex p))
          = [⟨sha256Hex p, jsonMarshalString p, p.length, o.now pre.length⟩]) := by
  have hrun : GitUseCase.CommitChanges s o workspaceID siteID branchName message authorID
      files = (.ok c, (GitUseCase.CommitChanges s o workspaceID siteID branchName message
        authorID files).2) := by
    rw [← hok]
  obtain ⟨branch, s1, -, hcb, -, hblobs, -, -, -, -, -⟩ := commitChanges_ok hrun
  obtain ⟨hb1, hb2, -⟩ := createBlobs_blobs o files 0 s [] _ s1 hcb
  have hn1 : (s1.blobs.map Blob.Hash).Nodup := by
    have := createBlobs_nodup o files 0 s [] hunique
    rw [hcb] at this
    exact this
  rw [hblobs]
  refine ⟨hn1, ?_, hb1, ?_⟩
  · obtain ⟨b, hbm, hbh⟩ := hb2 (path, p) hmem
    refine ⟨b, ?_⟩
    rw [← hbh]
    exact filter_hash_of_nodup s1.blobs b hn1 hbm
  · intro pre post hsplit hnew hpre
    subst hsplit
    rw [createBlobs_append] at hcb
    cases hmid : GitUseCase.createBlobs o 0 s pre [] with
    | mk res smid =>
      rw [hmid] at hcb
      cases res with
      | error e => simp at hcb
      | ok esmid =>
        simp only [Nat.zero_add] at hcb
        obtain ⟨-, -, hm3⟩ := createBlobs_blobs o pre 0 s [] _ smid hmid
        have habsent : ∀ b ∈ smid.blobs, b.Hash ≠ sha256Hex p := by
          intro b hb
          rcases hm3 b hb with h | ⟨f, hf, hfh, -⟩
          · exact hnew b h
          · rw [hfh]
            exact hpre f hf
        simp only [GitUseCase.createBlobs] at hcb
        split at hcb
        · simp at hcb
        · rename_i s2 hc2
          obtain ⟨hp1, -, -⟩ := createBlobs_blobs o post _ s2 _ _ s1 hcb
          have hin : (⟨sha256Hex p, jsonMarshalString p, p.length, o.now pre.length⟩ : Blob)
              ∈ s2.blobs := by
            rcases createBlob_blobs hc2 with ⟨-, b, hb, hh⟩ | he
            · exact absurd hh (habsent b hb)
            · rw [he]
              simp
          exact filter_hash_of_nodup s1.blobs
            ⟨sha256Hex p, jsonMarshalString p, p.length, o.now pre.length⟩ hn1 (hp1 _ hin)

set_option maxRecDepth 100000 in
/-- C15, on the fresh branch `main`: the same bytes `x` committed under the two paths `a` and
`b` make one blob, the one written for `a` (the first clock reading is 0). -/
theorem commitChanges_dedup_witness :
    (GitUseCase.CommitChanges freshMain calmOracle 1 2 "main" "first" 9
        [(str "a", str "x"), (str "b", str "x")]).2.blobs.filter
        (fun x => decide (x.Hash = sha256Hex (str "x")))
      = [⟨sha256Hex (str "x"), jsonMarshalString (str "x"), 1, 0⟩] :=
  (commitChanges_dedup freshMain calmOracle 1 2 "main" "first" 9
    [(str "a", str "x"), (str "b", str "x")]
    ⟨102, 1, some 2,
      GitUseCase.treeHashOf (entriesFrom calmOracle 0 [(str "a", str "x"), (str "b", str "x")]),
      none, none, "first", 9, 2⟩
    (str "a") (str "x") (by decide) (by decide) (by decide)).2.2.2 [] [(str "b", str "x")] rfl
    (by decide) (by decide)

/-! ## `DeploymentUseCase.Create` -/

/-- The record `Create` leaves behind its pointer, whatever the outcome. -/
theorem create_record (s : Store) (r : Redis) (o : Oracle) (d : Deployment) :
    (DeploymentUseCase.Create s r o d).2.1
      = { d with ID := o.uuid 0, Status := "pending", CreatedAt := o.now 0 } := by
  unfold DeploymentUseCase.Create
  simp only [DeploymentRepository.Create, Publisher.PublishDeployment]
  by_cases h0 : o.fault 0 = true <;> by_cases h2 : o.fault 2 = true <;> simp [h0, h2]

/-- The three outcomes of `Create`, by the operation that fails first: the insert of the
deployment (nothing is written), the publication (the row is written, no event), or neither
(the row is written and the event appended).  The audit record does not enter. -/
theorem create_cases (s : Store) (r : Redis) (o : Oracle) (d : Deployment) :
    (o.fault 0 = true →
      isError (DeploymentUseCase.Create s r o d).1 = true
      ∧ (DeploymentUseCase.Create s r o d).2.2.1 = s
      ∧ (DeploymentUseCase.Create s r o d).2.2.2 = r)
    ∧ (o.fault 0 = false → o.fault 2 = true →
      isError (DeploymentUseCase.Create s r o d).1 = true
      ∧ (DeploymentUseCase.Create s r o d).2.2.1.deployments = s.deployments ++
          [⟨{ d with ID := o.uuid 0, Status := "pending", CreatedAt := o.now 0,
                     StoragePath := "", URL := "", Logs := "", FinishedAt := none },
            ["pending"]⟩]
      ∧ (DeploymentUseCase.Create s r o d).2.2.2 = r)
    ∧ (o.fault 0 = false → o.fault 2 = false →
      (DeploymentUseCase.Create s r o d).1 = .ok ()
      ∧ (DeploymentUseCase.Create s r o d).2.2.1.deployments = s.deployments ++
          [⟨{ d with ID := o.uuid 0, Status := "pending", CreatedAt := o.now 0,
                     StoragePath := "", URL := "", Logs := "", FinishedAt := none },
            ["pending"]⟩]
      ∧ (DeploymentUseCase.Create s r o d).2.2.2 = r ++
          [⟨"deployments_stream", [("deployment_id", uuidString (o.uuid 0))]⟩]) := by
  unfold DeploymentUseCase.Create
  simp only [DeploymentRepository.Create, AuditLogRepository.Create, Publisher.PublishDeployment]
  refine ⟨fun h0 => ?_, fun h0 h2 => ?_, fun h0 h2 => ?_⟩
  · simp [h0, isError]
  · by_cases h1 : o.fault 1 = true <;> simp [h0, h1, h2, isError]
  · by_cases h1 : o.fault 1 = true <;> simp [h0, h1, h2]

/-- A `Create` that succeeds had no failure at its insert and at its publication. -/
theorem create_ok_faults {s : Store} {r : Redis} {o : Oracle} {d : Deployment}
    (hok : (DeploymentUseCase.Create s r o d).1 = .ok ()) :
    o.fault 0 = false ∧ o.fault 2 = false := by
  obtain ⟨h1, h2, -⟩ := create_cases s r o d
  cases h0 : o.fault 0
  · cases h2f : o.fault 2
    · exact ⟨rfl, rfl⟩
    · have := (h2 h0 h2f).1
      rw [hok] at this
      simp [isError] at this
  · have := (h1 h0).1
    rw [hok] at this
    simp [isError] at this

/-- C16: for every input deployment, whatever id and status it carries, a `Create` that
succeeds leaves the record with the id `uuid.New()` returned (not the nil id) and the status
`pending`; the row inserted is that record (the columns the insert does not name are null);
the one event appended is on `deployments_stream` and carries the text of that id.  In no run,
successful or not, is an event appended without the row having been inserted. -/
theorem create_ok_record (s : Store) (r : Redis) (o : Oracle) (d : Deployment)
    (hnew : o.uuid 0 ≠ 0)
    (hok : (DeploymentUseCase.Create s r o d).1 = .ok ()) :
    (DeploymentUseCase.Create s r o d).2.1
        = { d with ID := o.uuid 0, Status := "pending", CreatedAt := o.now 0 }
    ∧ (DeploymentUseCase.Create s r o d).2.1.ID ≠ 0
    ∧ (DeploymentUseCase.Create s r o d).2.1.Status = "pending"
    ∧ (DeploymentUseCase.Create s r o d).2.2.1.deployments = s.deployments ++
        [⟨{ (DeploymentUseCase.Create s r o d).2.1 with
              StoragePath := "", URL := "", Logs := "", FinishedAt := none }, ["pending"]⟩]
    ∧ (DeploymentUseCase.Create s r o d).2.2.2 = r ++
        [⟨"deployments_stream",
          [("deployment_id", uuidString (DeploymentUseCase.Create s r o d).2.1.ID)]⟩]
    ∧ ∀ o2 : Oracle, (DeploymentUseCase.Create s r o2 d).2.2.2 ≠ r →
        (DeploymentUseCase.Create s r o2 d).2.2.1.deployments ≠ s.deployments := by
  obtain ⟨h0, h2⟩ := create_ok_faults hok
  obtain ⟨-, -, h3⟩ := create_cases s r o d
  obtain ⟨-, hd, hr⟩ := h3 h0 h2
  rw [create_record]
  refine ⟨rfl, hnew, rfl, hd, hr, ?_⟩
  intro o2 hne
  obtain ⟨g1, g2, g3⟩ := create_cases s r o2 d
  cases h0' : o2.fault 0
  · cases h2' : o2.fault 2
    · rw [(g3 h0' h2').2.1]
      simp
    · exact absurd (g2 h0' h2').2.2 hne
  · exact absurd (g1 h0').2.2 hne

/-- C16, for a request that arrives with id 77 and status `success`: the record leaves with
id 100 and status `pending`. -/
theorem create_ok_record_witness :
    (DeploymentUseCase.Create Store.empty [] calmOracle prefilledDeployment).2.1.ID = 100
    ∧ (DeploymentUseCase.Create Store.empty [] calmOracle prefilledDeployment).2.1.Status
      = "pending"
    ∧ (DeploymentUseCase.Create Store.empty [] calmOracle prefilledDeployment).2.2.2
      = [⟨"deployments_stream", [("deployment_id", uuidString 100)]⟩] :=
  have h := create_ok_record Store.empty [] calmOracle prefilledDeployment (by decide)
    (by decide)
  ⟨by rw [h.1]; rfl, h.2.2.1, by rw [h.2.2.2.2.1, h.1]; rfl⟩

/-- C17: when the record is inserted and the publication fails, `Create` returns an error,
the row stays in the store with status `pending`, and no event is appended; when the insert
fails, `Create` returns an error, no event is appended and the store is as before. -/
theorem create_failures (s : Store) (r : Redis) (o : Oracle) (d : Deployment) :
    (o.fault 0 = false → o.fault 2 = true →
      isError (DeploymentUseCase.Create s r o d).1 = true
      ∧ (DeploymentUseCase.Create s r o d).2.2.1.deployments = s.deployments ++
          [⟨{ d with ID := o.uuid 0, Status := "pending", CreatedAt := o.now 0,
                     StoragePath := "", URL := "", Logs := "", FinishedAt := none },
            ["pending"]⟩]
      ∧ (DeploymentUseCase.Create s r o d).2.2.2 = r)
    ∧ (o.fault 0 = true →
      isError (DeploymentUseCase.Create s r o d).1 = true
      ∧ (DeploymentUseCase.Create s r o d).2.2.2 = r
      ∧ (DeploymentUseCase.Create s r o d).2.2.1 = s) := by
  obtain ⟨h1, h2, -⟩ := create_cases s r o d
  exact ⟨h2, fun h0 => ⟨(h1 h0).1, (h1 h0).2.2, (h1 h0).2.1⟩⟩

/-- C17, on the empty store: a run whose publication fails, and a run whose insert fails. -/
theorem create_failures_witness :
    (isError (DeploymentUseCase.Create Store.empty []
        ⟨fun k => 100 + k, fun k => k, fun k => k == 2⟩ badDeployment).1 = true
      ∧ (DeploymentUseCase.Create Store.empty []
        ⟨fun k => 100 + k, fun k => k, fun k => k == 2⟩ badDeployment).2.2.1.deployments.map
          (fun x => (x.row.ID, x.row.Status)) = [(100, "pending")]
      ∧ (DeploymentUseCase.Create Store.empty []
        ⟨fun k => 100 + k, fun k => k, fun k => k == 2⟩ badDeployment).2.2.2 = [])
    ∧ (isError (DeploymentUseCase.Create Store.empty []
        ⟨fun k => 100 + k, fun k => k, fun k => k == 0⟩ badDeployment).1 = true
      ∧ (DeploymentUseCase.Create Store.empty []
        ⟨fun k => 100 + k, fun k => k, fun k => k == 0⟩ badDeployment).2.2.2 = []) :=
  have h := (create_failures Store.empty [] ⟨fun k => 100 + k, fun k => k, fun k => k == 2⟩
    badDeployment).1 (by decide) (by decide)
  have g := (create_failures Store.empty [] ⟨fun k => 100 + k, fun k => k, fun k => k == 0⟩
    badDeployment).2 (by decide)
  ⟨⟨h.1, by rw [h.2.1]; rfl, h.2.2⟩, ⟨g.1, g.2.1⟩⟩

/-- C18: two runs of `Create` on the same input that differ only in whether the insert of the
audit record fails (operation 1) return the same result, leave the same record behind the
pointer, the same deployments and the same stream entries; of the store only the audit
records differ. -/
theorem create_ignores_audit (s : Store) (r : Redis) (o o2 : Oracle) (d : Deployment)
    (huuid : ∀ k, o.uuid k = o2.uuid k) (hnow : ∀ k, o.now k = o2.now k)
    (hfault : ∀ k, k ≠ 1 → o.fault k = o2.fault k) :
    (DeploymentUseCase.Create s r o d).1 = (DeploymentUseCase.Create s r o2 d).1
    ∧ (DeploymentUseCase.Create s r o d).2.1 = (DeploymentUseCase.Create s r o2 d).2.1
    ∧ (DeploymentUseCase.Create s r o d).2.2.1.deployments
      = (DeploymentUseCase.Create s r o2 d).2.2.1.deployments
    ∧ (DeploymentUseCase.Create s r o d).2.2.2 = (DeploymentUseCase.Create s r o2 d).2.2.2
    ∧ { (DeploymentUseCase.Create s r o d).2.2.1 with auditLogs := [] }
      = { (DeploymentUseCase.Create s r o2 d).2.2.1 with auditLogs := [] } := by
  unfold DeploymentUseCase.Create
  simp only [DeploymentRepository.Create, AuditLogRepository.Create, Publisher.PublishDeployment]
  rw [huuid 0, hnow 0, hfault 0 (by decide), hfault 2 (by decide)]
  by_cases h0 : o2.fault 0 = true <;> by_cases h2 : o2.fault 2 = true <;>
    by_cases h1 : o.fault 1 = true <;> by_cases h1' : o2.fault 1 = true <;>
    simp [h0, h1, h1', h2]

/-- C18, on the empty store: the run in which the audit insert fails and the run in which
nothing fails. -/
theorem create_ignores_audit_witness :
    (DeploymentUseCase.Create Store.empty [] ⟨fun k => 100 + k, fun k => k, fun k => k == 1⟩
        badDeployment).1
      = (DeploymentUseCase.Create Store.empty [] calmOracle badDeployment).1
    ∧ (DeploymentUseCase.Create Store.empty [] ⟨fun k => 100 + k, fun k => k, fun k => k == 1⟩
        badDeployment).2.2.2
      = (DeploymentUseCase.Create Store.empty [] calmOracle badDeployment).2.2.2 :=
  have h := create_ignores_audit Store.empty [] ⟨fun k => 100 + k, fun k => k, fun k => k == 1⟩
    calmOracle badDeployment (fun _ => rfl) (fun _ => rfl)
    (fun k hk => by
      show (k == 1) = false
      simpa using hk)
  ⟨h.1, h.2.2.2.1⟩

/-- C19: the stream and the field of the test are not those of the publisher.  After a
successful `Create` on the empty store the stream `deployments:events` has no entry; the event
is the entry of `deployments_stream` whose field `deployment_id` is the text of the id, and it
has no field `payload`. -/
theorem create_event_not_on_test_stream :
    (DeploymentUseCase.Create Store.empty [] calmOracle badDeployment).1 = .ok ()
    ∧ (DeploymentUseCase.Create Store.empty [] calmOracle badDeployment).2.2.2.filter
        (fun m => decide (m.Stream = "deployments:events")) = []
    ∧ (DeploymentUseCase.Create Store.empty [] calmOracle badDeployment).2.2.2
      = [⟨"deployments_stream",
          [("deployment_id", str "00000000-0000-0000-0000-000000000064")]⟩]
    ∧ (DeploymentUseCase.Create Store.empty [] calmOracle badDeployment).2.2.2.map
        (fun m => m.Values.lookup "payload") = [none] := by
  decide

/-! ## Identifiers as text: `Parse` undoes `String` -/

/-- The text with dashes of 32 characters is parsed as the 32 characters without them. -/
theorem uuidParse_dashed (h : Bytes) (hl : h.length = 32) :
    uuidParse (h.take 8 ++ [0x2D] ++ (h.drop 8).take 4 ++ [0x2D] ++ (h.drop 12).take 4 ++ [0x2D]
        ++ (h.drop 16).take 4 ++ [0x2D] ++ h.drop 20)
      = parseHex h := by
  rcases h with _ | ⟨x0, _ | ⟨x1, _ | ⟨x2, _ | ⟨x3, _ | ⟨x4, _ | ⟨x5, _ | ⟨x6, _ | ⟨x7, _ | ⟨x8, _ | ⟨x9, _ | ⟨x10, _ | ⟨x11, _ | ⟨x12, _ | ⟨x13, _ | ⟨x14, _ | ⟨x15, _ | ⟨x16, _ | ⟨x17, _ | ⟨x18, _ | ⟨x19, _ | ⟨x20, _ | ⟨x21, _ | ⟨x22, _ | ⟨x23, _ | ⟨x24, _ | ⟨x25, _ | ⟨x26, _ | ⟨x27, _ | ⟨x28, _ | ⟨x29, _ | ⟨x30, _ | ⟨x31, _ | ⟨y, ys⟩⟩⟩⟩⟩⟩⟩⟩⟩⟩⟩⟩⟩⟩⟩⟩⟩⟩⟩⟩⟩⟩⟩⟩⟩⟩⟩⟩⟩⟩⟩⟩⟩
  all_goals first
    | (simp only [List.length_cons, List.length_nil] at hl; omega)
    | skip
  simp [uuidParse]

/-- Two hexadecimal digits for each byte. -/
theorem hexEncode_length (bs : Bytes) : (hexEncode bs).length = 2 * bs.length := by
  induction bs with
  | nil => rfl
  | cons b rest ih =>
    simp only [hexEncode, List.flatMap_cons, List.length_append, List.length_cons,
      List.length_nil] at ih ⊢
    omega

/-- The hexadecimal text of a list of bytes with one more byte behind. -/
theorem hexEncode_snoc (bs : Bytes) (b : Nat) :
    hexEncode (bs ++ [b]) = hexEncode bs ++ [hexDigit (b / 16), hexDigit (b % 16)] := by
  simp [hexEncode, List.flatMap_append]

/-- Reading the hexadecimal text of bytes gives their big-endian value. -/
theorem parseHex_hexEncode (bs : Bytes) :
    (∀ b ∈ bs, b < 256) → parseHex (hexEncode bs) = some (bs.foldl (fun a b => a * 256 + b) 0) := by
  induction bs using List.reverseRecOn with
  | nil => intro _; rfl
  | append_singleton rest b ih =>
    intro hb
    have hlt : b < 256 := hb b (by simp)
    have hrest := ih (fun x hx => hb x (by simp [hx]))
    rw [hexEncode_snoc]
    unfold parseHex at hrest ⊢
    rw [List.foldl_append, hrest]
    simp only [List.foldl_cons, List.foldl_nil, List.foldl_append]
    rw [hexVal_hexDigit (b / 16) (by omega), hexVal_hexDigit (b % 16) (by omega)]
    simp only [Option.some.injEq]
    omega

/-- The sixteen bytes of an identifier. -/
theorem uuidBytes_eq (u : UUID) :
    uuidBytes u = [u / 256 ^ 15 % 256, u / 256 ^ 14 % 256, u / 256 ^ 13 % 256,
      u / 256 ^ 12 % 256, u / 256 ^ 11 % 256, u / 256 ^ 10 % 256, u / 256 ^ 9 % 256,
      u / 256 ^ 8 % 256, u / 256 ^ 7 % 256, u / 256 ^ 6 % 256, u / 256 ^ 5 % 256,
      u / 256 ^ 4 % 256, u / 256 ^ 3 % 256, u / 256 ^ 2 % 256, u / 256 ^ 1 % 256,
      u / 256 ^ 0 % 256] := by
  rfl

/-- The big-endian value of the low `n` bytes of a number, most significant first, is the
number modulo `256 ^ n`. -/
theorem bigEndian_value (n : Nat) : ∀ u : Nat,
    ((List.range n).map (fun i => u / 256 ^ (n - 1 - i) % 256)).foldl (fun a b => a * 256 + b) 0
      = u % 256 ^ n := by
  induction n with
  | zero => intro u; simp [Nat.mod_one]
  | succ n ih =>
    intro u
    rw [List.range_succ, List.map_append, List.foldl_append]
    have hmap : (List.range n).map (fun i => u / 256 ^ (n + 1 - 1 - i) % 256)
        = (List.range n).map (fun i => u / 256 / 256 ^ (n - 1 - i) % 256) := by
      apply List.map_congr_left
      intro i hi
      have hlt : i < n := List.mem_range.mp hi
      rw [Nat.div_div_eq_div_mul, ← pow_succ',
        show n - 1 - i + 1 = n + 1 - 1 - i by omega]
    rw [hmap, ih (u / 256)]
    simp only [List.map_cons, List.map_nil, List.foldl_cons, List.foldl_nil,
      Nat.add_sub_cancel, Nat.sub_self, pow_zero, Nat.div_one]
    rw [pow_succ', Nat.mod_mul]
    ring

/-- The big-endian value of the sixteen bytes of an identifier is the identifier. -/
theorem uuidBytes_value (u : Nat) (hu : u < 2 ^ 128) :
    (uuidBytes u).foldl (fun a b => a * 256 + b) 0 = u := by
  have h := bigEndian_value 16 u
  rw [Nat.mod_eq_of_lt (by norm_num at hu ⊢; exact hu)] at h
  exact h

/-- Parsing undoes printing: for every identifier (a value of 128 bits), `uuid.Parse` of its
`String()` form gives the identifier back. -/
theorem uuidParse_uuidString (u : Nat) (hu : u < 2 ^ 128) :
    uuidParse (uuidString u) = some u := by
  have hlen : (hexEncode (uuidBytes u)).length = 32 := by
    rw [hexEncode_length, uuidBytes_eq]
    rfl
  unfold uuidString
  simp only
  rw [uuidParse_dashed _ hlen, parseHex_hexEncode, uuidBytes_value u hu]
  intro b hb
  rw [uuidBytes_eq] at hb
  simp only [List.mem_cons, List.mem_singleton, List.not_mem_nil, or_false] at hb
  rcases hb with h | h | h | h | h | h | h | h | h | h | h | h | h | h | h | h <;>
    (rw [h]; exact Nat.mod_lt _ (by decide))

/-- What the body of the worker loop does with an entry whose field `deployment_id` parses to
`D`: it calls `Process` with `D`, and the database and the files afterwards are those
`Process` leaves. -/
theorem handleMessage_parsed (sp : Bytes) (s : Store) (fs : FileStore) (o : Oracle)
    (msg : StreamMessage) (t : Bytes) (D : UUID)
    (hfield : msg.Values.lookup "deployment_id" = some t) (hparse : uuidParse t = some D) :
    (Worker.handleMessage sp s fs o msg).processed = some D ∧
    (Worker.handleMessage sp s fs o msg).db = (DeploymentProcessor.Process sp s fs o D).2.1 ∧
    (Worker.handleMessage sp s fs o msg).files = (DeploymentProcessor.Process sp s fs o D).2.2 ∧
    (Worker.handleMessage sp s fs o msg).acked
      = !isError (DeploymentProcessor.Process sp s fs o D).1 := by
  unfold Worker.handleMessage
  rw [hfield]
  simp only
  rw [hparse]
  simp only
  rcases hp : DeploymentProcessor.Process sp s fs o D with ⟨res, s1, fs1⟩
  cases res <;> simp [isError]

/-- C20: publisher and worker agree on the event.  For every deployment id `D` (a `uuid.UUID`,
a value of 128 bits) and every content `r` of the streams, `PublishDeployment` appends one
entry, to the stream `deployments_stream` and with the one field `deployment_id`; the entry is
the newest of the entries the worker reads from that stream; its field `deployment_id` is the
string `D.String()`; parsing that string gives `D` again; and the body of the worker loop calls
`Process` with exactly `D`, leaving the database and the files `Process` leaves for `D`. -/
theorem publish_then_worker (D : UUID) (hD : D < 2 ^ 128) (r : Redis) (sp : Bytes) (s : Store)
    (fs : FileStore) (o : Oracle) :
    Publisher.PublishDeployment r false D
      = .ok (r ++ [⟨"deployments_stream", [("deployment_id", uuidString D)]⟩]) ∧
    Worker.delivered (r ++ [⟨"deployments_stream", [("deployment_id", uuidString D)]⟩])
      = Worker.delivered r ++ [⟨"deployments_stream", [("deployment_id", uuidString D)]⟩] ∧
    (StreamMessage.mk "deployments_stream" [("deployment_id", uuidString D)]).Values.lookup
      "deployment_id" = some (uuidString D) ∧
    uuidParse (uuidString D) = some D ∧
    (Worker.handleMessage sp s fs o
      ⟨"deployments_stream", [("deployment_id", uuidString D)]⟩).processed = some D ∧
    (Worker.handleMessage sp s fs o ⟨"deployments_stream", [("deployment_id", uuidString D)]⟩).db
      = (DeploymentProcessor.Process sp s fs o D).2.1 ∧
    (Worker.handleMessage sp s fs o
      ⟨"deployments_stream", [("deployment_id", uuidString D)]⟩).files
      = (DeploymentProcessor.Process sp s fs o D).2.2 := by
  have hparse := uuidParse_uuidString D hD
  have hfield : (StreamMessage.mk "deployments_stream"
      [("deployment_id", uuidString D)]).Values.lookup "deployment_id" = some (uuidString D) := by
    simp [List.lookup]
  have hh := handleMessage_parsed sp s fs o _ _ D hfield hparse
  refine ⟨?_, ?_, hfield, hparse, hh.1, hh.2.1, hh.2.2.1⟩
  · simp [Publisher.PublishDeployment]
  · simp [Worker.delivered, List.filter_append]

/-- The agreement of publisher and worker on the deployment id `100`, with nothing in the
streams, the database and the file store. -/
theorem publish_then_worker_witness :
    (100 : Nat) < 2 ^ 128 ∧
    uuidParse (uuidString 100) = some 100 ∧
    (Worker.handleMessage (str "/srv") Store.empty FileStore.empty calmOracle
      ⟨"deployments_stream", [("deployment_id", uuidString 100)]⟩).processed = some 100 :=
  ⟨by norm_num,
   (publish_then_worker 100 (by norm_num) [] (str "/srv") Store.empty FileStore.empty
      calmOracle).2.2.2.1,
   (publish_then_worker 100 (by norm_num) [] (str "/srv") Store.empty FileStore.empty
      calmOracle).2.2.2.2.1⟩

/-! ## `UpdateStatus` and the time of completion -/

/-- C21: after an `UpdateStatus` that did not fail, every stored deployment with the id of the
call has the new status, and its `finished_at` is the time of the call when the new status is
`success` or `failed` and null otherwise; so it is non-null exactly when the new status, which
is the stored status, is terminal.  The rows with another id are rows of before. -/
theorem updateStatus_finishedAt (s s1 : Store) (fault : Bool) (now : Time) (id : UUID)
    (status : String) (r : DeploymentRow)
    (h : DeploymentRepository.UpdateStatus s fault now id status = .ok s1)
    (hr : r ∈ s1.deployments) :
    (r.row.ID = id →
      r.row.Status = status
      ∧ r.row.FinishedAt = (if status = "success" ∨ status = "failed" then some now else none)
      ∧ (r.row.FinishedAt ≠ none ↔ status = "success" ∨ status = "failed")
      ∧ (r.row.FinishedAt ≠ none ↔ r.row.Status = "success" ∨ r.row.Status = "failed"))
    ∧ (r.row.ID ≠ id → r ∈ s.deployments)
    ∧ s1.deployments.map (fun x => x.row.ID) = s.deployments.map (fun x => x.row.ID) := by
  unfold DeploymentRepository.UpdateStatus at h
  cases fault
  · simp only [Bool.false_eq_true, if_false, Except.ok.injEq] at h
    subst h
    simp only [List.mem_map] at hr
    obtain ⟨r0, hr0, hrr⟩ := hr
    refine ⟨?_, ?_, ?_⟩
    · intro hid
      by_cases h0 : r0.row.ID = id
      · rw [if_pos h0] at hrr
        subst hrr
        by_cases ht : status = "success" ∨ status = "failed"
        · simp [ht]
        · simp [ht]
      · rw [if_neg h0] at hrr
        subst hrr
        exact absurd hid h0
    · intro hid
      by_cases h0 : r0.row.ID = id
      · rw [if_pos h0] at hrr
        subst hrr
        exact absurd h0 hid
      · rw [if_neg h0] at hrr
        subst hrr
        exact hr0
    · simp only [List.map_map]
      apply List.map_congr_left
      intro x _
      simp only [Function.comp]
      by_cases h0 : x.row.ID = id
      · rw [if_pos h0]
      · rw [if_neg h0]
  · simp at h

/-- C21, on the store with the one pending deployment `100`: after the update to `success` at
time 5 the row is finished at 5; after the update to `building` it is not finished. -/
theorem updateStatus_finishedAt_witness :
    ((DeploymentRepository.UpdateStatus onePending false 5 100 "success").toOption.map
        (fun s => s.deployments.map (fun r => (r.row.Status, r.row.FinishedAt)))
      = some [("success", some 5)])
    ∧ ((⟨100, 1, 2, 3, "building", str "nope", "", "", "", 9, 0, none⟩ : Deployment).FinishedAt
        ≠ none ↔ "building" = "success" ∨ "building" = "failed") :=
  ⟨by decide,
   ((updateStatus_finishedAt onePending
      ⟨[], [], [], [], [⟨⟨100, 1, 2, 3, "building", str "nope", "", "", "", 9, 0, none⟩,
        ["pending", "building"]⟩], [⟨101, 1, 9, "deployment.create", (2, 3, str "nope"), 1⟩]⟩
      false 5 100 "building"
      ⟨⟨100, 1, 2, 3, "building", str "nope", "", "", "", 9, 0, none⟩, ["pending", "building"]⟩
      (by decide) (by decide)).1 rfl).2.2.1⟩

/-! ## The exits of `Process` -/

/-- The five ways `Process` ends: the lookup fails; the update to `building` fails; a step of
the build fails, and `failDeployment` is called; the update to `success` fails; or all is
well. -/
theorem process_cases (sp : Bytes) (s : Store) (fs : FileStore) (o : Oracle) (id : UUID) :
    (∃ e, DeploymentRepository.GetByID s (o.fault 0) id = .error e
      ∧ DeploymentProcessor.Process sp s fs o id
        = (.error ("failed to get deployment: " ++ e), s, fs))
    ∨ (∃ d e, DeploymentRepository.GetByID s (o.fault 0) id = .ok d
      ∧ DeploymentRepository.UpdateStatus s (o.fault 1) (o.now 0) id "building" = .error e
      ∧ DeploymentProcessor.Process sp s fs o id
        = (.error ("failed to update status to building: " ++ e), s, fs))
    ∨ (∃ d s1 e fs2 k, DeploymentRepository.GetByID s (o.fault 0) id = .ok d
      ∧ DeploymentRepository.UpdateStatus s (o.fault 1) (o.now 0) id "building" = .ok s1
      ∧ DeploymentProcessor.build sp s1 fs o d = (.error e, fs2, k)
      ∧ DeploymentProcessor.Process sp s fs o id
        = (.error e, DeploymentProcessor.failDeployment s1 (o.fault k) (o.now 0) id, fs2))
    ∨ (∃ d s1 e fs2 k, DeploymentRepository.GetByID s (o.fault 0) id = .ok d
      ∧ DeploymentRepository.UpdateStatus s (o.fault 1) (o.now 0) id "building" = .ok s1
      ∧ DeploymentProcessor.build sp s1 fs o d = (.ok (), fs2, k)
      ∧ DeploymentRepository.UpdateStatus s1 (o.fault k) (o.now 0) id "success" = .error e
      ∧ DeploymentProcessor.Process sp s fs o id
        = (.error ("failed to update status to success: " ++ e), s1, fs2))
    ∨ (∃ d s1 s2 fs2 k, DeploymentRepository.GetByID s (o.fault 0) id = .ok d
      ∧ DeploymentRepository.UpdateStatus s (o.fault 1) (o.now 0) id "building" = .ok s1
      ∧ DeploymentProcessor.build sp s1 fs o d = (.ok (), fs2, k)
      ∧ DeploymentRepository.UpdateStatus s1 (o.fault k) (o.now 0) id "success" = .ok s2
      ∧ DeploymentProcessor.Process sp s fs o id = (.ok (), s2, fs2)) := by
  unfold DeploymentProcessor.Process
  cases hd : DeploymentRepository.GetByID s (o.fault 0) id with
  | error e => exact Or.inl ⟨e, rfl, rfl⟩
  | ok d =>
    have hid := getByID_id hd
    simp only
    rw [hid]
    cases hb : DeploymentRepository.UpdateStatus s (o.fault 1) (o.now 0) id "building" with
    | error e => exact Or.inr (Or.inl ⟨d, e, rfl, rfl, rfl⟩)
    | ok s1 =>
      simp only
      rcases hbuild : DeploymentProcessor.build sp s1 fs o d with ⟨res, fs2, k⟩
      cases res with
      | error e => exact Or.inr (Or.inr (Or.inl ⟨d, s1, e, fs2, k, rfl, rfl, hbuild, rfl⟩))
      | ok u =>
        cases u
        simp only
        cases hs : DeploymentRepository.UpdateStatus s1 (o.fault k) (o.now 0) id "success" with
        | error e =>
          exact Or.inr (Or.inr (Or.inr (Or.inl ⟨d, s1, e, fs2, k, rfl, rfl, hbuild, hs, rfl⟩)))
        | ok s2 =>
          exact Or.inr (Or.inr (Or.inr (Or.inr ⟨d, s1, s2, fs2, k, rfl, rfl, hbuild, hs, rfl⟩)))

/-! ## The worker loop -/

/-- C22: a message whose field `deployment_id` is missing, or holds a string that does not
parse as a UUID, is acknowledged and dropped: `Process` is not called, and the database and
the file store are those of before (a field of a stream entry is always a string). -/
theorem handleMessage_poison (sp : Bytes) (s : Store) (fs : FileStore) (o : Oracle)
    (msg : StreamMessage)
    (h : msg.Values.lookup "deployment_id" = none
      ∨ ∃ t, msg.Values.lookup "deployment_id" = some t ∧ uuidParse t = none) :
    Worker.handleMessage sp s fs o msg = ⟨true, none, s, fs⟩ := by
  unfold Worker.handleMessage
  rcases h with h | ⟨t, ht, hp⟩
  · rw [h]
  · rw [ht]
    simp only
    rw [hp]

/-- C22, on the store with the pending deployment `100`: a message without the field, and a
message whose field is the text `nope`. -/
theorem handleMessage_poison_witness :
    Worker.handleMessage (str "/srv") onePending FileStore.empty calmOracle
        ⟨"deployments_stream", [("payload", str "00000000-0000-0000-0000-000000000064")]⟩
      = ⟨true, none, onePending, FileStore.empty⟩
    ∧ Worker.handleMessage (str "/srv") onePending FileStore.empty calmOracle
        ⟨"deployments_stream", [("deployment_id", str "nope")]⟩
      = ⟨true, none, onePending, FileStore.empty⟩ :=
  ⟨handleMessage_poison (str "/srv") onePending FileStore.empty calmOracle
      ⟨"deployments_stream", [("payload", str "00000000-0000-0000-0000-000000000064")]⟩
      (Or.inl (by decide)),
   handleMessage_poison (str "/srv") onePending FileStore.empty calmOracle
      ⟨"deployments_stream", [("deployment_id", str "nope")]⟩
      (Or.inr ⟨str "nope", by decide, by decide⟩)⟩

/-- C23: for a message whose field `deployment_id` parses to `D`, the worker acknowledges the
message exactly when `Process` returns no error; and when `Process` returns no error, the
last statement of the run is the update of `D` to `success`, which did not fail: the database
it leaves is the database of that update, and every stored deployment with id `D` has status
`success`, the last of its statuses. -/
theorem handleMessage_ack_iff_success (sp : Bytes) (s : Store) (fs : FileStore) (o : Oracle)
    (msg : StreamMessage) (t : Bytes) (D : UUID)
    (hfield : msg.Values.lookup "deployment_id" = some t) (hparse : uuidParse t = some D) :
    ((Worker.handleMessage sp s fs o msg).acked = true
      ↔ (DeploymentProcessor.Process sp s fs o D).1 = .ok ())
    ∧ ((DeploymentProcessor.Process sp s fs o D).1 = .ok () →
      (∃ s1 k, DeploymentRepository.UpdateStatus s1 (o.fault k) (o.now 0) D "success"
          = .ok (DeploymentProcessor.Process sp s fs o D).2.1)
      ∧ ∀ r ∈ (DeploymentProcessor.Process sp s fs o D).2.1.deployments, r.row.ID = D →
          r.row.Status = "success" ∧ r.statuses.getLast? = some "success") := by
  have hack := (handleMessage_parsed sp s fs o msg t D hfield hparse).2.2.2
  constructor
  · rw [hack]
    cases hres : (DeploymentProcessor.Process sp s fs o D).1 with
    | error e => simp [isError]
    | ok u => cases u; simp [isError]
  · intro hok
    rcases process_cases sp s fs o D with ⟨e, -, hp⟩ | ⟨d, e, -, -, hp⟩ |
      ⟨d, s1, e, fs2, k, -, -, -, hp⟩ | ⟨d, s1, e, fs2, k, -, -, -, -, hp⟩ |
      ⟨d, s1, s2, fs2, k, -, -, -, hs, hp⟩
    · rw [hp] at hok; cases hok
    · rw [hp] at hok; cases hok
    · rw [hp] at hok; cases hok
    · rw [hp] at hok; cases hok
    · rw [hp]
      refine ⟨⟨s1, k, hs⟩, ?_⟩
      intro r hr hid
      obtain ⟨fin, hrows⟩ := updateStatus_ok hs
      simp only at hr
      rw [hrows, List.mem_map] at hr
      obtain ⟨r0, -, hrr⟩ := hr
      by_cases h0 : r0.row.ID = D
      · rw [if_pos h0] at hrr
        subst hrr
        simp
      · rw [if_neg h0] at hrr
        subst hrr
        exact absurd hid h0

set_option maxRecDepth 100000 in
/-- C23, on the store `siteStore`: the message for deployment `100` is acknowledged when
nothing fails, and is not acknowledged when the write of the first file fails. -/
theorem handleMessage_ack_iff_success_witness :
    (Worker.handleMessage (str "/srv") siteStore FileStore.empty calmOracle
        ⟨"deployments_stream", [("deployment_id", uuidString 100)]⟩).acked = true
    ∧ ¬ (Worker.handleMessage (str "/srv") siteStore FileStore.empty
        ⟨fun k => 100 + k, fun k => k, fun k => k == 7⟩
        ⟨"deployments_stream", [("deployment_id", uuidString 100)]⟩).acked = true :=
  ⟨(handleMessage_ack_iff_success (str "/srv") siteStore FileStore.empty calmOracle
      ⟨"deployments_stream", [("deployment_id", uuidString 100)]⟩ (uuidString 100) 100
      (by decide) (by decide)).1.mpr (by decide),
   fun h => absurd ((handleMessage_ack_iff_success (str "/srv") siteStore FileStore.empty
      ⟨fun k => 100 + k, fun k => k, fun k => k == 7⟩
      ⟨"deployments_stream", [("deployment_id", uuidString 100)]⟩ (uuidString 100) 100
      (by decide) (by decide)).1.mp h) (by decide)⟩

/-! ## Errors of `Process` and the status `failed` -/

set_option maxRecDepth 100000 in
/-- C24, as stated, fails.  On the store `siteStore`, in three runs of `Process` for the
deployment `100` in each of which one statement fails and every other statement would
succeed, `Process` returns an error and the deployment is not `failed`: when the lookup of the
deployment fails (operation 0) and when the update to `building` fails (operation 1) the row
is as before, pending; when the update to `success` fails (operation 11) the row stays at
`building`, with both files written. -/
theorem process_error_without_failed :
    (isError (DeploymentProcessor.Process (str "/srv") siteStore FileStore.empty
        ⟨fun k => 100 + k, fun k => k, fun k => k == 0⟩ 100).1 = true
      ∧ (DeploymentProcessor.Process (str "/srv") siteStore FileStore.empty
        ⟨fun k => 100 + k, fun k => k, fun k => k == 0⟩ 100).2.1 = siteStore)
    ∧ (isError (DeploymentProcessor.Process (str "/srv") siteStore FileStore.empty
        ⟨fun k => 100 + k, fun k => k, fun k => k == 1⟩ 100).1 = true
      ∧ (DeploymentProcessor.Process (str "/srv") siteStore FileStore.empty
        ⟨fun k => 100 + k, fun k => k, fun k => k == 1⟩ 100).2.1 = siteStore)
    ∧ (isError (DeploymentProcessor.Process (str "/srv") siteStore FileStore.empty
        ⟨fun k => 100 + k, fun k => k, fun k => k == 11⟩ 100).1 = true
      ∧ (DeploymentProcessor.Process (str "/srv") siteStore FileStore.empty
        ⟨fun k => 100 + k, fun k => k, fun k => k == 11⟩ 100).2.1.deployments.map
          (fun r => (r.row.Status, r.statuses)) = [("building", ["pending", "building"])]
      ∧ (DeploymentProcessor.Process (str "/srv") siteStore FileStore.empty
        ⟨fun k => 100 + k, fun k => k, fun k => k == 11⟩ 100).2.2.files.length = 2) := by
  decide

/-- C24, amended: when a step of the build fails (the parse of the commit reference, the
lookup of the commit, the creation of a directory, the reading of the tree or of a blob, the
write of a file), `Process` returns that error after `failDeployment`, the status update to
`failed`, has been issued; when that update does not fail, every stored deployment with the id
has status `failed`, written after `building`.  Every other error of `Process` comes from the
lookup of the deployment or from the update to `building`, and then the database and the files
are those of before, or from the update to `success`, and then the database is that of the
update to `building`. -/
theorem process_error_marks_failed (sp : Bytes) (s : Store) (fs : FileStore) (o : Oracle)
    (id : UUID) :
    (∀ d s1 e fs2 k, DeploymentRepository.GetByID s (o.fault 0) id = .ok d →
      DeploymentRepository.UpdateStatus s (o.fault 1) (o.now 0) id "building" = .ok s1 →
      DeploymentProcessor.build sp s1 fs o d = (.error e, fs2, k) →
      DeploymentProcessor.Process sp s fs o id
          = (.error e, DeploymentProcessor.failDeployment s1 (o.fault k) (o.now 0) id, fs2)
      ∧ (o.fault k = false →
          ∀ r ∈ (DeploymentProcessor.Process sp s fs o id).2.1.deployments, r.row.ID = id →
            r.row.Status = "failed" ∧ ∃ l, r.statuses = l ++ ["building", "failed"]))
    ∧ (isError (DeploymentProcessor.Process sp s fs o id).1 = true →
      (∃ d s1 e fs2 k, DeploymentRepository.GetByID s (o.fault 0) id = .ok d
        ∧ DeploymentRepository.UpdateStatus s (o.fault 1) (o.now 0) id "building" = .ok s1
        ∧ DeploymentProcessor.build sp s1 fs o d = (.error e, fs2, k))
      ∨ ((isError (DeploymentRepository.GetByID s (o.fault 0) id) = true
          ∨ isError (DeploymentRepository.UpdateStatus s (o.fault 1) (o.now 0) id "building")
            = true)
        ∧ (DeploymentProcessor.Process sp s fs o id).2 = (s, fs))
      ∨ (∃ s1 k, DeploymentRepository.UpdateStatus s (o.fault 1) (o.now 0) id "building" = .ok s1
        ∧ isError (DeploymentRepository.UpdateStatus s1 (o.fault k) (o.now 0) id "success") = true
        ∧ (DeploymentProcessor.Process sp s fs o id).2.1 = s1)) := by
  constructor
  · intro d s1 e fs2 k hd hb hbuild
    have hp : DeploymentProcessor.Process sp s fs o id
        = (.error e, DeploymentProcessor.failDeployment s1 (o.fault k) (o.now 0) id, fs2) := by
      rcases process_cases sp s fs o id with ⟨e', hd', -⟩ | ⟨d', e', -, hb', -⟩ |
        ⟨d', s1', e', fs2', k', hd', hb', hbuild', hp⟩ |
        ⟨d', s1', e', fs2', k', hd', hb', hbuild', -, -⟩ |
        ⟨d', s1', s2, fs2', k', hd', hb', hbuild', -, -⟩
      · rw [hd] at hd'; cases hd'
      · rw [hb] at hb'; cases hb'
      · rw [hd] at hd'; cases hd'
        rw [hb] at hb'; cases hb'
        rw [hbuild] at hbuild'; cases hbuild'
        exact hp
      · rw [hd] at hd'; cases hd'
        rw [hb] at hb'; cases hb'
        rw [hbuild] at hbuild'; cases hbuild'
      · rw [hd] at hd'; cases hd'
        rw [hb] at hb'; cases hb'
        rw [hbuild] at hbuild'; cases hbuild'
    refine ⟨hp, ?_⟩
    intro hk r hr hid
    rw [hp, hk] at hr
    simp only [DeploymentProcessor.failDeployment, DeploymentRepository.UpdateStatus,
      Bool.false_eq_true, if_false] at hr
    obtain ⟨fin, hrows⟩ := updateStatus_ok hb
    rw [hrows] at hr
    simp only [List.mem_map, List.map_map] at hr
    obtain ⟨r0, -, hrr⟩ := hr
    simp only [Function.comp] at hrr
    by_cases h0 : r0.row.ID = id
    · simp only [h0, if_true] at hrr
      subst hrr
      exact ⟨rfl, r0.statuses, by simp⟩
    · simp only [h0, if_false] at hrr
      subst hrr
      exact absurd hid h0
  · intro herr
    rcases process_cases sp s fs o id with ⟨e, hd, hp⟩ | ⟨d, e, hd, hb, hp⟩ |
      ⟨d, s1, e, fs2, k, hd, hb, hbuild, hp⟩ | ⟨d, s1, e, fs2, k, hd, hb, hbuild, hs, hp⟩ |
      ⟨d, s1, s2, fs2, k, hd, hb, hbuild, hs, hp⟩
    · exact Or.inr (Or.inl ⟨Or.inl (by rw [hd]; rfl), by rw [hp]⟩)
    · exact Or.inr (Or.inl ⟨Or.inr (by rw [hb]; rfl), by rw [hp]⟩)
    · exact Or.inl ⟨d, s1, e, fs2, k, hd, hb, hbuild⟩
    · exact Or.inr (Or.inr ⟨s1, k, hb, by rw [hs]; rfl, by rw [hp]⟩)
    · rw [hp] at herr
      simp [isError] at herr

set_option maxRecDepth 100000 in
/-- C24, amended, on the store `onePending`, whose deployment `100` names the commit reference
`nope`: the parse fails, and the row ends `failed`. -/
theorem process_error_marks_failed_witness :
    (DeploymentProcessor.Process (str "/srv") onePending FileStore.empty calmOracle 100).2.1
      = DeploymentProcessor.failDeployment
          { onePending with deployments :=
            [⟨⟨100, 1, 2, 3, "building", str "nope", "", "", "", 9, 0, none⟩,
              ["pending", "building"]⟩] } false 0 100
    ∧ (DeploymentProcessor.failDeployment
          { onePending with deployments :=
            [⟨⟨100, 1, 2, 3, "building", str "nope", "", "", "", 9, 0, none⟩,
              ["pending", "building"]⟩] } false 0 100).deployments.map
        (fun r => (r.row.Status, r.statuses)) = [("failed", ["pending", "building", "failed"])] :=
  ⟨congrArg (fun x => x.2.1)
    ((process_error_marks_failed (str "/srv") onePending FileStore.empty calmOracle 100).1
      ⟨100, 1, 2, 3, "pending", str "nope", "", "", "", 9, 0, none⟩
      { onePending with deployments :=
        [⟨⟨100, 1, 2, 3, "building", str "nope", "", "", "", 9, 0, none⟩,
          ["pending", "building"]⟩] }
      "invalid UUID" FileStore.empty 2 (by decide) (by decide) (by decide)).1,
   by decide⟩

/-! ## A deployment whose commit does not resolve -/

/-- A lookup of a deployment that returns a row was answered by the database. -/
theorem getByID_ok {s : Store} {f : Bool} {id : UUID} {d : Deployment}
    (h : DeploymentRepository.GetByID s f id = .ok d) :
    f = false ∧ DeploymentRepository.GetByID s false id = .ok d := by
  cases f
  · exact ⟨rfl, h⟩
  · simp [DeploymentRepository.GetByID] at h

/-- A status update that did not fail was not refused, and touches the deployments only. -/
theorem updateStatus_frame {s s1 : Store} {f : Bool} {now : Time} {id : UUID} {status : String}
    (h : DeploymentRepository.UpdateStatus s f now id status = .ok s1) :
    f = false ∧ s1.commits = s.commits ∧ s1.trees = s.trees ∧ s1.blobs = s.blobs := by
  unfold DeploymentRepository.UpdateStatus at h
  cases f
  · simp only [Bool.false_eq_true, if_false, Except.ok.injEq] at h
    subst h
    exact ⟨rfl, rfl, rfl, rfl⟩
  · simp at h

/-- The build of a deployment whose commit reference does not parse, or names no stored
commit, fails before anything is done to the file store, at operation 2 or 3. -/
theorem build_unresolved (sp : Bytes) (s : Store) (fs : FileStore) (o : Oracle) (d : Deployment)
    (hbad : uuidParse d.CommitHash = none
      ∨ ∃ c, uuidParse d.CommitHash = some c ∧ ∀ x ∈ s.commits, x.ID ≠ c) :
    ∃ e k, DeploymentProcessor.build sp s fs o d = (.error e, fs, k) ∧ k ≤ 3 := by
  unfold DeploymentProcessor.build
  rcases hbad with hp | ⟨c, hp, hc⟩
  · rw [hp]
    exact ⟨_, 2, rfl, by omega⟩
  · rw [hp]
    simp only
    have hnone : s.commits.find? (fun x => decide (x.ID = c)) = none := by
      rw [List.find?_eq_none]
      intro x hx
      simpa using hc x hx
    have hget : ∃ e, GitRepository.GetCommit s (o.fault 2) c = .error e := by
      unfold GitRepository.GetCommit
      split_ifs
      · exact ⟨_, rfl⟩
      · rw [hnone]
        exact ⟨_, rfl⟩
    obtain ⟨e, he⟩ := hget
    rw [he]
    exact ⟨e, 3, rfl, by omega⟩

/-- C25: for a stored deployment `d` whose commit reference does not parse as a UUID, or names
a commit that is not stored, `Process` returns an error and leaves the file store as it was:
no directory is made and no file is written.  When the database does not fail, the status of
the deployment is set to `building` and then to `failed`. -/
theorem process_unresolved_commit (sp : Bytes) (s : Store) (fs : FileStore) (o : Oracle)
    (id : UUID) (d : Deployment)
    (hd : DeploymentRepository.GetByID s false id = .ok d)
    (hbad : uuidParse d.CommitHash = none
      ∨ ∃ c, uuidParse d.CommitHash = some c ∧ ∀ x ∈ s.commits, x.ID ≠ c) :
    isError (DeploymentProcessor.Process sp s fs o id).1 = true
    ∧ (DeploymentProcessor.Process sp s fs o id).2.2 = fs
    ∧ ((∀ k, k ≤ 3 → o.fault k = false) →
      (DeploymentProcessor.Process sp s fs o id).2.1.deployments
        = s.deployments.map (fun r =>
          if r.row.ID = id then
            { row := { r.row with Status := "failed", FinishedAt := some (o.now 0) },
              statuses := r.statuses ++ ["building", "failed"] }
          else r)) := by
  rcases process_cases sp s fs o id with ⟨e, hd', hp⟩ | ⟨d', e, hd', hb, hp⟩ |
    ⟨d', s1, e, fs2, k, hd', hb, hbuild, hp⟩ | ⟨d', s1, e, fs2, k, hd', hb, hbuild, hs, hp⟩ |
    ⟨d', s1, s2, fs2, k, hd', hb, hbuild, hs, hp⟩
  · refine ⟨by rw [hp]; rfl, by rw [hp], ?_⟩
    intro hcalm
    rw [hcalm 0 (by omega), hd] at hd'
    cases hd'
  · refine ⟨by rw [hp]; rfl, by rw [hp], ?_⟩
    intro hcalm
    rw [hcalm 1 (by omega)] at hb
    simp [DeploymentRepository.UpdateStatus] at hb
  · have hdd := (getByID_ok hd').2
    rw [hd] at hdd
    cases hdd
    obtain ⟨-, hcom, -, -⟩ := updateStatus_frame hb
    obtain ⟨e', k', hb', hk'⟩ := build_unresolved sp s1 fs o d (by rw [hcom]; exact hbad)
    rw [hbuild] at hb'
    cases hb'
    refine ⟨by rw [hp]; rfl, by rw [hp], ?_⟩
    intro hcalm
    rw [hp]
    simp only [DeploymentProcessor.failDeployment, DeploymentRepository.UpdateStatus,
      hcalm k hk', Bool.false_eq_true, if_false]
    rw [hcalm 1 (by omega)] at hb
    simp only [DeploymentRepository.UpdateStatus, Bool.false_eq_true, if_false,
      Except.ok.injEq] at hb
    subst hb
    simp only [List.map_map]
    apply List.map_congr_left
    intro r _
    simp only [Function.comp]
    by_cases h0 : r.row.ID = id
    · simp [h0]
    · simp [h0]
  · have hdd := (getByID_ok hd').2
    rw [hd] at hdd
    cases hdd
    obtain ⟨-, hcom, -, -⟩ := updateStatus_frame hb
    obtain ⟨e', k', hb', -⟩ := build_unresolved sp s1 fs o d (by rw [hcom]; exact hbad)
    rw [hbuild] at hb'
    cases hb'
  · have hdd := (getByID_ok hd').2
    rw [hd] at hdd
    cases hdd
    obtain ⟨-, hcom, -, -⟩ := updateStatus_frame hb
    obtain ⟨e', k', hb', -⟩ := build_unresolved sp s1 fs o d (by rw [hcom]; exact hbad)
    rw [hbuild] at hb'
    cases hb'

set_option maxRecDepth 100000 in
/-- C25, on the store `onePending` (commit reference `nope`) and on the store `siteStore`
with its commit taken away: the files are untouched, the statuses run pending, building,
failed. -/
theorem process_unresolved_commit_witness :
    ((DeploymentProcessor.Process (str "/srv") onePending FileStore.empty calmOracle 100).2.2
        = FileStore.empty
      ∧ (DeploymentProcessor.Process (str "/srv") onePending FileStore.empty calmOracle
          100).2.1.deployments.map (fun r => (r.row.Status, r.statuses))
        = [("failed", ["pending", "building", "failed"])])
    ∧ isError (DeploymentProcessor.Process (str "/srv") { siteStore with commits := [] }
        FileStore.empty calmOracle 100).1 = true :=
  have h := process_unresolved_commit (str "/srv") onePending FileStore.empty calmOracle 100
    ⟨100, 1, 2, 3, "pending", str "nope", "", "", "", 9, 0, none⟩ (by decide)
    (Or.inl (by decide))
  have g := process_unresolved_commit (str "/srv") { siteStore with commits := [] }
    FileStore.empty calmOracle 100
    ⟨100, 1, 2, 3, "pending", str "00000000-0000-0000-0000-000000000007", "", "", "", 9, 0, none⟩
    (by decide) (Or.inr ⟨7, by decide, by decide⟩)
  ⟨⟨h.2.1, by rw [h.2.2 (fun _ _ => rfl)]; decide⟩, g.1⟩

/-! ## The input of the tree hasher -/

/-- The tree digest is the SHA-256, in hexadecimal, of the hasher input. -/
theorem treeHashOf_input (l : List Tree) :
    GitUseCase.treeHashOf l = sha256Hex (GitUseCase.treeHasherInput l) := rfl

set_option maxRecDepth 100000 in
/-- C29, as stated, fails: the paths and digests are written without a separator.  The tree
entries `CommitChanges` builds for the one file `a2d71...4881b ↦ y` and for the two files
`a ↦ x`, `b ↦ y` (the digest of `x` is `2d71...4881`) are both in the order of their paths, all
their blob hashes are 64 hex digits, the two lists differ, and they give the hasher the same
bytes. -/
theorem treeHasherInput_not_injective :
    pathSorted (entriesFrom calmOracle 0
        [(str "a2d711642b726b04401627ca9fbac32f5c8530fb1903cc4db02258717921a4881b", str "y")])
    ∧ pathSorted (entriesFrom calmOracle 0 [(str "a", str "x"), (str "b", str "y")])
    ∧ ((entriesFrom calmOracle 0
        [(str "a2d711642b726b04401627ca9fbac32f5c8530fb1903cc4db02258717921a4881b", str "y")]
        ++ entriesFrom calmOracle 0 [(str "a", str "x"), (str "b", str "y")]).all
          (fun e => isDigest e.BlobHash)) = true
    ∧ (entriesFrom calmOracle 0
        [(str "a2d711642b726b04401627ca9fbac32f5c8530fb1903cc4db02258717921a4881b",
          str "y")]).map (fun e => (e.Path, e.BlobHash))
      ≠ (entriesFrom calmOracle 0 [(str "a", str "x"), (str "b", str "y")]).map
          (fun e => (e.Path, e.BlobHash))
    ∧ GitUseCase.treeHasherInput (entriesFrom calmOracle 0
        [(str "a2d711642b726b04401627ca9fbac32f5c8530fb1903cc4db02258717921a4881b", str "y")])
      = GitUseCase.treeHasherInput
          (entriesFrom calmOracle 0 [(str "a", str "x"), (str "b", str "y")]) := by
  decide

/-- A digest has 64 bytes, all of them hex digits. -/
theorem isDigest_iff (h : Bytes) :
    isDigest h = true ↔ h.length = 64 ∧ ∀ c ∈ h, isLowerHex c = true := by
  simp [isDigest, List.all_eq_true]

/-- Two lists of entries with the same hasher input and paths of the same lengths, entry by
entry, have the same paths and digests. -/
theorem treeHasherInput_inj_lengths (l1 : List Tree) : ∀ l2 : List Tree,
    (∀ e ∈ l1, e.BlobHash.length = 64) → (∀ e ∈ l2, e.BlobHash.length = 64) →
    GitUseCase.treeHasherInput l1 = GitUseCase.treeHasherInput l2 →
    l1.map (fun e => e.Path.length) = l2.map (fun e => e.Path.length) →
    l1.map (fun e => (e.Path, e.BlobHash)) = l2.map (fun e => (e.Path, e.BlobHash)) := by
  induction l1 with
  | nil =>
    intro l2 _ _ _ hlen
    cases l2 with
    | nil => rfl
    | cons b t => simp at hlen
  | cons a t ih =>
    intro l2 h1 h2 hin hlen
    cases l2 with
    | nil => simp at hlen
    | cons b t2 =>
      simp only [List.map_cons, List.cons.injEq] at hlen
      simp only [GitUseCase.treeHasherInput, List.flatMap_cons, List.append_assoc] at hin
      obtain ⟨hp, hrest⟩ := List.append_inj hin hlen.1
      have ha := h1 a (List.mem_cons_self _ _)
      have hb := h2 b (List.mem_cons_self _ _)
      obtain ⟨hh, hrest2⟩ := List.append_inj hrest (by rw [ha, hb])
      have := ih t2 (fun e he => h1 e (List.mem_cons_of_mem _ he))
        (fun e he => h2 e (List.mem_cons_of_mem _ he)) hrest2 hlen.2
      simp only [List.map_cons, hp, hh, this]

/-- A path without hex digits in front of a digest is read off the front of the bytes: when
two such pairs are followed by anything and give the same bytes, the paths are the same. -/
theorem path_of_front (p q h g r1 r2 : Bytes)
    (hp : ∀ c ∈ p, isLowerHex c = false) (hq : ∀ c ∈ q, isLowerHex c = false)
    (hh : h.length = 64 ∧ ∀ c ∈ h, isLowerHex c = true)
    (hg : g.length = 64 ∧ ∀ c ∈ g, isLowerHex c = true)
    (heq : p ++ (h ++ r1) = q ++ (g ++ r2)) : p = q := by
  induction p generalizing q with
  | nil =>
    cases q with
    | nil => rfl
    | cons c q' =>
      exfalso
      cases h with
      | nil => simp at hh
      | cons x h' =>
        simp only [List.nil_append, List.cons_append, List.cons.injEq] at heq
        have h1 := hh.2 x (List.mem_cons_self _ _)
        have h2 := hq c (List.mem_cons_self _ _)
        rw [heq.1] at h1
        rw [h1] at h2
        cases h2
  | cons c p' ih =>
    cases q with
    | nil =>
      exfalso
      cases g with
      | nil => simp at hg
      | cons x g' =>
        simp only [List.nil_append, List.cons_append, List.cons.injEq] at heq
        have h1 := hg.2 x (List.mem_cons_self _ _)
        have h2 := hp c (List.mem_cons_self _ _)
        rw [← heq.1] at h1
        rw [h1] at h2
        cases h2
    | cons d q' =>
      simp only [List.cons_append, List.cons.injEq] at heq
      rw [heq.1, ih q' (fun x hx => hp x (List.mem_cons_of_mem _ hx))
        (fun x hx => hq x (List.mem_cons_of_mem _ hx)) heq.2]

/-- Two lists of entries with the same hasher input, digests of 64 hex digits and paths
without hex digits have the same paths and digests. -/
theorem treeHasherInput_inj_nohex (l1 : List Tree) : ∀ l2 : List Tree,
    (∀ e ∈ l1, isDigest e.BlobHash = true) → (∀ e ∈ l2, isDigest e.BlobHash = true) →
    (∀ e ∈ l1, ∀ c ∈ e.Path, isLowerHex c = false) →
    (∀ e ∈ l2, ∀ c ∈ e.Path, isLowerHex c = false) →
    GitUseCase.treeHasherInput l1 = GitUseCase.treeHasherInput l2 →
    l1.map (fun e => (e.Path, e.BlobHash)) = l2.map (fun e => (e.Path, e.BlobHash)) := by
  induction l1 with
  | nil =>
    intro l2 _ h2 _ _ hin
    cases l2 with
    | nil => rfl
    | cons b t =>
      exfalso
      have hb := ((isDigest_iff _).mp (h2 b (List.mem_cons_self _ _))).1
      have hl := congrArg List.length hin
      simp only [GitUseCase.treeHasherInput, List.flatMap_cons, List.flatMap_nil,
        List.length_nil, List.length_append] at hl
      omega
  | cons a t ih =>
    intro l2 h1 h2 hp1 hp2 hin
    have ha := (isDigest_iff _).mp (h1 a (List.mem_cons_self _ _))
    cases l2 with
    | nil =>
      exfalso
      have hl := congrArg List.length hin
      simp only [GitUseCase.treeHasherInput, List.flatMap_cons, List.flatMap_nil,
        List.length_nil, List.length_append] at hl
      omega
    | cons b t2 =>
      have hb := (isDigest_iff _).mp (h2 b (List.mem_cons_self _ _))
      simp only [GitUseCase.treeHasherInput, List.flatMap_cons, List.append_assoc] at hin
      have hp := path_of_front a.Path b.Path a.BlobHash b.BlobHash _ _
        (hp1 a (List.mem_cons_self _ _)) (hp2 b (List.mem_cons_self _ _)) ha hb hin
      rw [hp] at hin
      have hrest := List.append_cancel_left hin
      obtain ⟨hh, hrest2⟩ := List.append_inj hrest (by rw [ha.1, hb.1])
      have := ih t2 (fun e he => h1 e (List.mem_cons_of_mem _ he))
        (fun e he => h2 e (List.mem_cons_of_mem _ he))
        (fun e he => hp1 e (List.mem_cons_of_mem _ he))
        (fun e he => hp2 e (List.mem_cons_of_mem _ he)) hrest2
      simp only [List.map_cons, hp, hh, this]

/-- C29, amended: the hasher input determines the file set in two cases.  For two lists of
entries whose blob hashes are digests of 64 hex digits and which give the hasher the same
bytes: when the paths have the same lengths entry by entry (as when the same files are
committed with other contents), or when no path contains one of the hex digits `0` to `9`,
`a` to `f`, the two lists have the same paths and the same digests, in the same order. -/
theorem treeHasherInput_injective (l1 l2 : List Tree)
    (h1 : ∀ e ∈ l1, isDigest e.BlobHash = true) (h2 : ∀ e ∈ l2, isDigest e.BlobHash = true)
    (hin : GitUseCase.treeHasherInput l1 = GitUseCase.treeHasherInput l2) :
    (l1.map (fun e => e.Path.length) = l2.map (fun e => e.Path.length) →
      l1.map (fun e => (e.Path, e.BlobHash)) = l2.map (fun e => (e.Path, e.BlobHash)))
    ∧ ((∀ e ∈ l1 ++ l2, ∀ c ∈ e.Path, isLowerHex c = false) →
      l1.map (fun e => (e.Path, e.BlobHash)) = l2.map (fun e => (e.Path, e.BlobHash))) := by
  constructor
  · exact treeHasherInput_inj_lengths l1 l2
      (fun e he => ((isDigest_iff _).mp (h1 e he)).1)
      (fun e he => ((isDigest_iff _).mp (h2 e he)).1) hin
  · intro hp
    exact treeHasherInput_inj_nohex l1 l2 h1 h2
      (fun e he => hp e (List.mem_append_left _ he))
      (fun e he => hp e (List.mem_append_right _ he)) hin

set_option maxRecDepth 100000 in
/-- C29, amended, on two lists with the one path `a`: one entry made by `CommitChanges` for
the content `x`, and the same entry under another id; their paths and digests agree. -/
theorem treeHasherInput_injective_witness :
    (entriesFrom calmOracle 0 [(str "a", str "x")]).map (fun e => (e.Path, e.BlobHash))
      = (entriesFrom calmOracle 5 [(str "a", str "x")]).map (fun e => (e.Path, e.BlobHash)) :=
  (treeHasherInput_injective (entriesFrom calmOracle 0 [(str "a", str "x")])
    (entriesFrom calmOracle 5 [(str "a", str "x")]) (by decide) (by decide) (by decide)).1
    (by decide)

/-! ## The loop of `Process` over the tree entries -/

/-- An entry that is not of type `blob` is passed over. -/
theorem writeEntries_skip (s : Store) (o : Oracle) (site : Bytes) (k : Nat) (fs : FileStore)
    (e : Tree) (rest : List Tree) (h : e.Type_ ≠ "blob") :
    DeploymentProcessor.writeEntries s o site k fs (e :: rest)
      = DeploymentProcessor.writeEntries s o site k fs rest := by
  rw [DeploymentProcessor.writeEntries, if_neg h]

/-- The step of the loop for an entry of type `blob`: the blob is looked up, the directory of
the joined path is made, and the output content is written to the output path. -/
theorem writeEntries_blob (s : Store) (o : Oracle) (site : Bytes) (k : Nat) (fs : FileStore)
    (e : Tree) (rest : List Tree) (h : e.Type_ = "blob") :
    DeploymentProcessor.writeEntries s o site k fs (e :: rest)
      = match GitRepository.GetBlob s (o.fault k) e.BlobHash with
        | .error err => (.error err, fs, k + 1)
        | .ok blob =>
          match MkdirAll fs (o.fault (k + 1)) (filepathDir (filepathJoin [site, e.Path])) with
          | .error err => (.error err, fs, k + 2)
          | .ok fs1 =>
            match WriteFile fs1 (o.fault (k + 2)) (DeploymentProcessor.outputPath site e.Path)
                (DeploymentProcessor.outputContent e.Path blob.ContentJSON) with
            | .error err => (.error err, fs1, k + 3)
            | .ok fs2 => DeploymentProcessor.writeEntries s o site (k + 3) fs2 rest := by
  rw [DeploymentProcessor.writeEntries, if_pos h]
  cases GitRepository.GetBlob s (o.fault k) e.BlobHash with
  | error err => rfl
  | ok blob =>
    simp only
    cases MkdirAll fs (o.fault (k + 1)) (filepathDir (filepathJoin [site, e.Path])) with
    | error err => rfl
    | ok fs1 =>
      simp only [DeploymentProcessor.outputPath, DeploymentProcessor.outputContent]
      by_cases hmd : filepathExt e.Path = str ".md"
      · simp only [hmd, decide_True, if_true]
      · simp only [hmd, decide_False, if_false, Bool.false_eq_true]

/-- The loop passes over the entries that are not of type `blob`: it does to the entries of a
tree what it does to the entries of type `blob` among them. -/
theorem writeEntries_filter (s : Store) (o : Oracle) (site : Bytes) (l : List Tree) :
    ∀ (k : Nat) (fs : FileStore),
    DeploymentProcessor.writeEntries s o site k fs l
      = DeploymentProcessor.writeEntries s o site k fs
          (l.filter (fun e => decide (e.Type_ = "blob"))) := by
  induction l with
  | nil => intro k fs; rfl
  | cons e rest ih =>
    intro k fs
    by_cases h : e.Type_ = "blob"
    · rw [List.filter_cons_of_pos (by simpa using h), writeEntries_blob _ _ _ _ _ _ _ h,
        writeEntries_blob _ _ _ _ _ _ _ h]
      cases GitRepository.GetBlob s (o.fault k) e.BlobHash with
      | error err => rfl
      | ok blob =>
        simp only
        cases MkdirAll fs (o.fault (k + 1)) (filepathDir (filepathJoin [site, e.Path])) with
        | error err => rfl
        | ok fs1 =>
          simp only
          cases WriteFile fs1 (o.fault (k + 2)) (DeploymentProcessor.outputPath site e.Path)
              (DeploymentProcessor.outputContent e.Path blob.ContentJSON) with
          | error err => rfl
          | ok fs2 => exact ih (k + 3) fs2
    · rw [List.filter_cons_of_neg (by simpa using h), writeEntries_skip _ _ _ _ _ _ _ h]
      exact ih k fs

/-- The loop reads the database for blobs only. -/
theorem writeEntries_congr (s s2 : Store) (o : Oracle) (site : Bytes) (hb : s2.blobs = s.blobs)
    (l : List Tree) : ∀ (k : Nat) (fs : FileStore),
    DeploymentProcessor.writeEntries s2 o site k fs l
      = DeploymentProcessor.writeEntries s o site k fs l := by
  induction l with
  | nil => intro k fs; rfl
  | cons e rest ih =>
    intro k fs
    by_cases h : e.Type_ = "blob"
    · rw [writeEntries_blob _ _ _ _ _ _ _ h, writeEntries_blob _ _ _ _ _ _ _ h]
      have hg : GitRepository.GetBlob s2 (o.fault k) e.BlobHash
          = GitRepository.GetBlob s (o.fault k) e.BlobHash := by
        simp only [GitRepository.GetBlob, hb]
      rw [hg]
      cases GitRepository.GetBlob s (o.fault k) e.BlobHash with
      | error err => rfl
      | ok blob =>
        simp only
        cases MkdirAll fs (o.fault (k + 1)) (filepathDir (filepathJoin [site, e.Path])) with
        | error err => rfl
        | ok fs1 =>
          simp only
          cases WriteFile fs1 (o.fault (k + 2)) (DeploymentProcessor.outputPath site e.Path)
              (DeploymentProcessor.outputContent e.Path blob.ContentJSON) with
          | error err => rfl
          | ok fs2 => exact ih (k + 3) fs2
    · rw [writeEntries_skip _ _ _ _ _ _ _ h, writeEntries_skip _ _ _ _ _ _ _ h]
      exact ih k fs

/-! ## The file store -/

/-- Making directories leaves the files alone. -/
theorem mkdirAll_files {fs fs1 : FileStore} {f : Bool} {p : Bytes}
    (h : MkdirAll fs f p = .ok fs1) : fs1.files = fs.files := by
  unfold MkdirAll at h
  by_cases hf : f = true
  · simp [hf] at h
  · by_cases ha : (ancestors (p.length + 1) p).any fs.isFile = true
    · simp [hf, ha] at h
    · simp only [hf, ha, if_false, Bool.false_eq_true, Except.ok.injEq] at h
      rw [← h]

/-- After a write the file holds what was written. -/
theorem writeFile_read {fs fs1 : FileStore} {f : Bool} {p data : Bytes}
    (h : WriteFile fs f p data = .ok fs1) : fs1.read p = some data := by
  unfold WriteFile at h
  split_ifs at h
  cases h
  simp only [FileStore.read]
  rw [List.find?_append]
  have hnone : (fs.files.filter (fun f => decide (f.1 ≠ p))).find? (fun f => decide (f.1 = p))
      = none := by
    rw [List.find?_eq_none]
    intro x hx
    have := (List.mem_filter.mp hx).2
    simpa using this
  rw [hnone]
  simp

/-- A write leaves the files at the other paths alone. -/
theorem writeFile_read_other {fs fs1 : FileStore} {f : Bool} {p q data : Bytes}
    (h : WriteFile fs f p data = .ok fs1) (hq : p ≠ q) : fs1.read q = fs.read q := by
  unfold WriteFile at h
  split_ifs at h
  cases h
  simp only [FileStore.read]
  rw [List.find?_append]
  have hlast : [(p, data)].find? (fun f => decide (f.1 = q)) = none := by
    simp [hq]
  rw [hlast, Option.or_none]
  congr 1
  induction fs.files with
  | nil => rfl
  | cons x rest ih =>
    by_cases hx : x.1 = p
    · have hxq : x.1 ≠ q := by rw [hx]; exact hq
      rw [List.filter_cons_of_neg (by simpa using hx), List.find?_cons_of_neg _ (by simpa using hxq)]
      exact ih
    · rw [List.filter_cons_of_pos (by simpa using hx)]
      by_cases hxq : x.1 = q
      · rw [List.find?_cons_of_pos _ (by simpa using hxq),
          List.find?_cons_of_pos _ (by simpa using hxq)]
      · rw [List.find?_cons_of_neg _ (by simpa using hxq),
          List.find?_cons_of_neg _ (by simpa using hxq)]
        exact ih

/-- A blob lookup that returns a blob was answered by the database. -/
theorem getBlob_ok {s : Store} {f : Bool} {h : Bytes} {b : Blob}
    (hg : GitRepository.GetBlob s f h = .ok b) :
    f = false ∧ GitRepository.GetBlob s false h = .ok b := by
  cases f
  · exact ⟨rfl, hg⟩
  · simp [GitRepository.GetBlob] at hg

/-- A run of the loop over two lists, one after the other, that ends well: the run over the
first list ends well, and the run over the second goes on from there. -/
theorem writeEntries_append_ok (s : Store) (o : Oracle) (site : Bytes) (pre post : List Tree) :
    ∀ (k : Nat) (fs fsF : FileStore) (kF : Nat),
    DeploymentProcessor.writeEntries s o site k fs (pre ++ post) = (.ok (), fsF, kF) →
    ∃ fsA kA, DeploymentProcessor.writeEntries s o site k fs pre = (.ok (), fsA, kA)
      ∧ DeploymentProcessor.writeEntries s o site kA fsA post = (.ok (), fsF, kF) := by
  induction pre with
  | nil => intro k fs fsF kF h; exact ⟨fs, k, rfl, h⟩
  | cons e rest ih =>
    intro k fs fsF kF h
    rw [List.cons_append] at h
    by_cases hb : e.Type_ = "blob"
    · rw [writeEntries_blob _ _ _ _ _ _ _ hb] at h ⊢
      cases hg : GitRepository.GetBlob s (o.fault k) e.BlobHash with
      | error err => rw [hg] at h; cases h
      | ok blob =>
        rw [hg] at h
        simp only at h ⊢
        cases hm : MkdirAll fs (o.fault (k + 1)) (filepathDir (filepathJoin [site, e.Path])) with
        | error err => rw [hm] at h; cases h
        | ok fs1 =>
          rw [hm] at h
          simp only at h ⊢
          cases hw : WriteFile fs1 (o.fault (k + 2)) (DeploymentProcessor.outputPath site e.Path)
              (DeploymentProcessor.outputContent e.Path blob.ContentJSON) with
          | error err => rw [hw] at h; cases h
          | ok fs2 =>
            rw [hw] at h
            simp only at h ⊢
            exact ih (k + 3) fs2 fsF kF h
    · rw [writeEntries_skip _ _ _ _ _ _ _ hb] at h ⊢
      exact ih k fs fsF kF h

/-- The step of a run that ends well, for an entry of type `blob`: the blob is found, the
directory made, the output written, and the run goes on with the rest. -/
theorem writeEntries_blob_ok {s : Store} {o : Oracle} {site : Bytes} {k : Nat} {fs : FileStore}
    {e : Tree} {rest : List Tree} {fsF : FileStore} {kF : Nat} (hb : e.Type_ = "blob")
    (h : DeploymentProcessor.writeEntries s o site k fs (e :: rest) = (.ok (), fsF, kF)) :
    ∃ blob fsM fsB, GitRepository.GetBlob s (o.fault k) e.BlobHash = .ok blob
      ∧ MkdirAll fs (o.fault (k + 1)) (filepathDir (filepathJoin [site, e.Path])) = .ok fsM
      ∧ WriteFile fsM (o.fault (k + 2)) (DeploymentProcessor.outputPath site e.Path)
          (DeploymentProcessor.outputContent e.Path blob.ContentJSON) = .ok fsB
      ∧ DeploymentProcessor.writeEntries s o site (k + 3) fsB rest = (.ok (), fsF, kF) := by
  rw [writeEntries_blob _ _ _ _ _ _ _ hb] at h
  cases hg : GitRepository.GetBlob s (o.fault k) e.BlobHash with
  | error err => rw [hg] at h; cases h
  | ok blob =>
    rw [hg] at h
    simp only at h
    cases hm : MkdirAll fs (o.fault (k + 1)) (filepathDir (filepathJoin [site, e.Path])) with
    | error err => rw [hm] at h; cases h
    | ok fs1 =>
      rw [hm] at h
      simp only at h
      cases hw : WriteFile fs1 (o.fault (k + 2)) (DeploymentProcessor.outputPath site e.Path)
          (DeploymentProcessor.outputContent e.Path blob.ContentJSON) with
      | error err => rw [hw] at h; cases h
      | ok fs2 =>
        rw [hw] at h
        exact ⟨blob, fs1, fs2, rfl, rfl, hw, h⟩

/-- The loop leaves the file at a path alone when no entry of type `blob` has that path as its
output path, whether it ends well or not. -/
theorem writeEntries_read_other (s : Store) (o : Oracle) (site P : Bytes) (l : List Tree) :
    ∀ (k : Nat) (fs : FileStore),
    (∀ x ∈ l, x.Type_ = "blob" → DeploymentProcessor.outputPath site x.Path ≠ P) →
    (DeploymentProcessor.writeEntries s o site k fs l).2.1.read P = fs.read P := by
  induction l with
  | nil => intro k fs _; rfl
  | cons e rest ih =>
    intro k fs hne
    have hrest : ∀ x ∈ rest, x.Type_ = "blob" → DeploymentProcessor.outputPath site x.Path ≠ P :=
      fun x hx => hne x (List.mem_cons_of_mem _ hx)
    by_cases hb : e.Type_ = "blob"
    · rw [writeEntries_blob _ _ _ _ _ _ _ hb]
      cases hg : GitRepository.GetBlob s (o.fault k) e.BlobHash with
      | error err => rfl
      | ok blob =>
        simp only
        cases hm : MkdirAll fs (o.fault (k + 1)) (filepathDir (filepathJoin [site, e.Path])) with
        | error err => rfl
        | ok fs1 =>
          have hf1 : fs1.read P = fs.read P := by
            simp only [FileStore.read, mkdirAll_files hm]
          simp only
          cases hw : WriteFile fs1 (o.fault (k + 2)) (DeploymentProcessor.outputPath site e.Path)
              (DeploymentProcessor.outputContent e.Path blob.ContentJSON) with
          | error err => exact hf1
          | ok fs2 =>
            simp only
            rw [ih (k + 3) fs2 hrest,
              writeFile_read_other hw (hne e (List.mem_cons_self _ _) hb), hf1]
    · rw [writeEntries_skip _ _ _ _ _ _ _ hb]
      exact ih k fs hrest

/-- What a run of the loop that ends well does for one entry of type `blob` of the tree: the
run over the entries before it ends well; then the directory is made and the output content
of the blob is written to the output path of the entry, where it can be read; then the run
goes on over the entries behind.  When no entry behind has the same output path, the file
holds that content at the end. -/
theorem writeEntries_entry {s : Store} {o : Oracle} {site : Bytes} {k : Nat} {fs : FileStore}
    {pre post : List Tree} {e : Tree} {b : Blob} {fsF : FileStore} {kF : Nat}
    (hb : e.Type_ = "blob") (hblob : GitRepository.GetBlob s false e.BlobHash = .ok b)
    (h : DeploymentProcessor.writeEntries s o site k fs (pre ++ e :: post) = (.ok (), fsF, kF)) :
    (∃ fsA kA fsM fsB, DeploymentProcessor.writeEntries s o site k fs pre = (.ok (), fsA, kA)
      ∧ MkdirAll fsA (o.fault (kA + 1)) (filepathDir (filepathJoin [site, e.Path])) = .ok fsM
      ∧ WriteFile fsM (o.fault (kA + 2)) (DeploymentProcessor.outputPath site e.Path)
          (DeploymentProcessor.outputContent e.Path b.ContentJSON) = .ok fsB
      ∧ fsB.read (DeploymentProcessor.outputPath site e.Path)
          = some (DeploymentProcessor.outputContent e.Path b.ContentJSON)
      ∧ DeploymentProcessor.writeEntries s o site (kA + 3) fsB post = (.ok (), fsF, kF))
    ∧ ((∀ x ∈ post, x.Type_ = "blob" →
          DeploymentProcessor.outputPath site x.Path ≠ DeploymentProcessor.outputPath site e.Path) →
      fsF.read (DeploymentProcessor.outputPath site e.Path)
        = some (DeploymentProcessor.outputContent e.Path b.ContentJSON)) := by
  obtain ⟨fsA, kA, hpre, hrest⟩ := writeEntries_append_ok s o site pre (e :: post) k fs fsF kF h
  obtain ⟨blob, fsM, fsB, hg, hm, hw, hpost⟩ := writeEntries_blob_ok hb hrest
  have hbb := (getBlob_ok hg).2
  rw [hblob] at hbb
  cases hbb
  have hread := writeFile_read hw
  refine ⟨⟨fsA, kA, fsM, fsB, hpre, hm, hw, hread, hpost⟩, ?_⟩
  intro hne
  have := writeEntries_read_other s o site (DeploymentProcessor.outputPath site e.Path) post
    (kA + 3) fsB hne
  rw [hpost] at this
  simp only at this
  rw [this, hread]

/-! ## A run of `Process` that ends well -/

/-- A build that ends well: the commit reference parses, the commit is stored, the deployment
directory is made, and the loop over the tree of the commit ends well. -/
theorem build_ok {sp : Bytes} {s : Store} {fs : FileStore} {o : Oracle} {d : Deployment}
    {fs2 : FileStore} {k : Nat}
    (h : DeploymentProcessor.build sp s fs o d = (.ok (), fs2, k)) :
    ∃ c fs1, uuidParse d.CommitHash = some c
      ∧ (∃ commit ∈ s.commits, commit.ID = c)
      ∧ MkdirAll fs (o.fault 3) (filepathJoin [sp, uuidString d.WorkspaceID,
          uuidString d.SiteID, d.CommitHash]) = .ok fs1
      ∧ DeploymentProcessor.writeEntries s o (filepathJoin [sp, uuidString d.WorkspaceID,
          uuidString d.SiteID, d.CommitHash]) 5 fs1
          (s.trees.filter (fun t => decide (t.CommitID = c))) = (.ok (), fs2, k) := by
  unfold DeploymentProcessor.build at h
  cases hp : uuidParse d.CommitHash with
  | none => rw [hp] at h; cases h
  | some c =>
    rw [hp] at h
    simp only at h
    cases hc : GitRepository.GetCommit s (o.fault 2) c with
    | error err => rw [hc] at h; cases h
    | ok commit =>
      rw [hc] at h
      simp only at h
      have hmem : commit ∈ s.commits ∧ commit.ID = c := by
        unfold GitRepository.GetCommit at hc
        split_ifs at hc
        split at hc
        · rename_i x hx
          cases hc
          exact ⟨List.mem_of_find?_eq_some hx, by simpa using List.find?_some hx⟩
        · cases hc
      cases hm : MkdirAll fs (o.fault 3) (filepathJoin [sp, uuidString d.WorkspaceID,
          uuidString d.SiteID, d.CommitHash]) with
      | error err => rw [hm] at h; cases h
      | ok fs1 =>
        rw [hm] at h
        simp only at h
        cases ht : GitRepository.GetTree s (o.fault 4) commit.ID with
        | error err => rw [ht] at h; cases h
        | ok trees =>
          rw [ht] at h
          simp only at h
          have htrees : trees = s.trees.filter (fun t => decide (t.CommitID = c)) := by
            unfold GitRepository.GetTree at ht
            split_ifs at ht
            cases ht
            rw [hmem.2]
          rw [htrees] at h
          exact ⟨c, fs1, rfl, ⟨commit, hmem.1, hmem.2⟩, rfl, h⟩

/-- A run of `Process` that returns no error: the deployment is stored, its commit reference
parses and names a stored commit, the deployment directory is made, and the loop over the
tree of the commit ends well, leaving the file store `Process` leaves. -/
theorem process_ok_run {sp : Bytes} {s : Store} {fs : FileStore} {o : Oracle} {id : UUID}
    (h : (DeploymentProcessor.Process sp s fs o id).1 = .ok ()) :
    ∃ d c fs1 k, DeploymentRepository.GetByID s false id = .ok d
      ∧ uuidParse d.CommitHash = some c
      ∧ (∃ commit ∈ s.commits, commit.ID = c)
      ∧ MkdirAll fs (o.fault 3) (filepathJoin [sp, uuidString d.WorkspaceID,
          uuidString d.SiteID, d.CommitHash]) = .ok fs1
      ∧ DeploymentProcessor.writeEntries s o (filepathJoin [sp, uuidString d.WorkspaceID,
          uuidString d.SiteID, d.CommitHash]) 5 fs1
          (s.trees.filter (fun t => decide (t.CommitID = c)))
        = (.ok (), (DeploymentProcessor.Process sp s fs o id).2.2, k) := by
  rcases process_cases sp s fs o id with ⟨e, -, hp⟩ | ⟨d, e, -, -, hp⟩ |
    ⟨d, s1, e, fs2, k, -, -, -, hp⟩ | ⟨d, s1, e, fs2, k, -, -, -, -, hp⟩ |
    ⟨d, s1, s2, fs2, k, hd, hb, hbuild, hs, hp⟩
  · rw [hp] at h; cases h
  · rw [hp] at h; cases h
  · rw [hp] at h; cases h
  · rw [hp] at h; cases h
  · obtain ⟨-, hcom, htr, hbl⟩ := updateStatus_frame hb
    obtain ⟨c, fs1, hc, ⟨commit, hcm, hcid⟩, hm, hw⟩ := build_ok hbuild
    rw [writeEntries_congr s s1 o _ hbl, htr] at hw
    rw [hcom] at hcm
    rw [hp]
    exact ⟨d, c, fs1, k, (getByID_ok hd).2, hc, ⟨commit, hcm, hcid⟩, hm, hw⟩

/-! ## The extension `.md` -/

/-- The bytes of `.md`. -/
theorem str_md : str ".md" = [0x2E, 0x6D, 0x64] := by decide

/-- The extension of a path is `.md` exactly when the path, read backwards, starts with
`dm.`. -/
theorem filepathExt_md_rev (p : Bytes) :
    filepathExt p = [0x2E, 0x6D, 0x64] ↔ ∃ t, p.reverse = 0x64 :: 0x6D :: 0x2E :: t := by
  unfold filepathExt
  generalize p.reverse = r
  rcases r with _ | ⟨a, r⟩
  · simp
  · by_cases ha : a = 0x2F
    · subst ha; simp
    · by_cases ha2 : a = 0x2E
      · subst ha2; simp
      · have ha3 : ¬ 46 = a := fun h => ha2 h.symm
        rcases r with _ | ⟨b, r⟩
        · simp [List.takeWhile_cons, ha, ha2, ha3]
        · by_cases hb : b = 0x2F
          · subst hb; simp [List.takeWhile_cons, ha, ha2, ha3]
          · by_cases hb2 : b = 0x2E
            · subst hb2; simp [List.takeWhile_cons, ha, ha2, ha3]
            · have hb3 : ¬ 46 = b := fun h => hb2 h.symm
              rcases r with _ | ⟨c, r⟩
              · simp [List.takeWhile_cons, ha, ha2, hb, hb2, ha3, hb3]
              · by_cases hc : c = 0x2F
                · subst hc; simp [List.takeWhile_cons, ha, ha2, hb, hb2, ha3, hb3]
                · by_cases hc2 : c = 0x2E
                  · subst hc2
                    simp [List.takeWhile_cons, ha, ha2, hb, hb2]
                    constructor
                    · rintro ⟨h1, h2⟩; exact ⟨h2, h1⟩
                    · rintro ⟨h1, h2⟩; exact ⟨h2, h1⟩
                  · have hc3 : ¬ 46 = c := fun h => hc2 h.symm
                    simp [List.takeWhile_cons, ha, ha2, hb, hb2, hc, hc2, ha3, hb3, hc3]
                    intro h
                    split_ifs at h
                    have hl := congrArg List.length h
                    simp at hl

/-- The extension of a path is `.md` exactly when the path ends in `.md`. -/
theorem filepathExt_md_iff (p : Bytes) : filepathExt p = str ".md" ↔ str ".md" <:+ p := by
  rw [str_md, filepathExt_md_rev]
  constructor
  · rintro ⟨t, ht⟩
    refine ⟨t.reverse, ?_⟩
    have := congrArg List.reverse ht
    simp only [List.reverse_reverse, List.reverse_cons, List.append_assoc, List.singleton_append,
      List.cons_append, List.nil_append] at this
    rw [this]
  · rintro ⟨t, ht⟩
    refine ⟨t.reverse, ?_⟩
    rw [← ht]
    simp

/-- The output of an entry whose path does not end in `.md` is the joined path and the decoded
content. -/
theorem output_plain (site p contentJSON : Bytes) (h : ¬ str ".md" <:+ p) :
    DeploymentProcessor.outputPath site p = filepathJoin [site, p]
    ∧ DeploymentProcessor.outputContent p contentJSON = decodeBlobContent contentJSON := by
  have hext : filepathExt p ≠ str ".md" := fun he => h ((filepathExt_md_iff p).mp he)
  simp [DeploymentProcessor.outputPath, DeploymentProcessor.outputContent, hext]

/-! ## The files `Process` writes -/

/-- C26: in a run of `Process` that returns no error, for the stored deployment `d`, whose
commit reference names the commit `c`, and an entry `e` of type `blob` of the tree of `c`
whose path does not end in `.md`, with blob `b`: after the entries before `e` are done, the
decoded content of `b` is written to the path `e.Path` joined to the deployment directory
(storage root, workspace, site, commit reference), where it can be read, and the run goes on
with the entries behind `e` to the file store `Process` leaves; when none of these is written
to the same path, the file holds the decoded content at the end.  An entry of another type is
passed over. -/
theorem process_writes_blob (sp : Bytes) (s : Store) (fs : FileStore) (o : Oracle) (id : UUID)
    (d : Deployment) (c : UUID) (pre post : List Tree) (e : Tree) (b : Blob)
    (hok : (DeploymentProcessor.Process sp s fs o id).1 = .ok ())
    (hd : DeploymentRepository.GetByID s false id = .ok d)
    (hc : uuidParse d.CommitHash = some c)
    (htree : s.trees.filter (fun t => decide (t.CommitID = c)) = pre ++ e :: post)
    (htype : e.Type_ = "blob") (hmd : ¬ str ".md" <:+ e.Path)
    (hb : GitRepository.GetBlob s false e.BlobHash = .ok b) :
    (∃ fs1 fsA kA fsM fsB kF,
      MkdirAll fs (o.fault 3) (DeploymentProcessor.siteStoragePath sp d) = .ok fs1
      ∧ DeploymentProcessor.writeEntries s o (DeploymentProcessor.siteStoragePath sp d) 5 fs1 pre
        = (.ok (), fsA, kA)
      ∧ WriteFile fsM (o.fault (kA + 2))
          (filepathJoin [DeploymentProcessor.siteStoragePath sp d, e.Path])
          (decodeBlobContent b.ContentJSON) = .ok fsB
      ∧ fsM.files = fsA.files
      ∧ fsB.read (filepathJoin [DeploymentProcessor.siteStoragePath sp d, e.Path])
        = some (decodeBlobContent b.ContentJSON)
      ∧ DeploymentProcessor.writeEntries s o (DeploymentProcessor.siteStoragePath sp d) (kA + 3)
          fsB post = (.ok (), (DeploymentProcessor.Process sp s fs o id).2.2, kF))
    ∧ ((∀ x ∈ post, x.Type_ = "blob" →
          DeploymentProcessor.outputPath (DeploymentProcessor.siteStoragePath sp d) x.Path
            ≠ filepathJoin [DeploymentProcessor.siteStoragePath sp d, e.Path]) →
      (DeploymentProcessor.Process sp s fs o id).2.2.read
          (filepathJoin [DeploymentProcessor.siteStoragePath sp d, e.Path])
        = some (decodeBlobContent b.ContentJSON))
    ∧ (∀ (x : Tree) (rest : List Tree) (k : Nat) (fs0 : FileStore), x.Type_ ≠ "blob" →
      DeploymentProcessor.writeEntries s o (DeploymentProcessor.siteStoragePath sp d) k fs0
          (x :: rest)
        = DeploymentProcessor.writeEntries s o (DeploymentProcessor.siteStoragePath sp d) k fs0
          rest) := by
  obtain ⟨d', c', fs1, k, hd', hc', -, hm, hw⟩ := process_ok_run hok
  rw [hd] at hd'
  cases hd'
  rw [hc] at hc'
  cases hc'
  rw [htree] at hw
  obtain ⟨⟨fsA, kA, fsM, fsB, hpre, hmk, hwr, hread, hpost⟩, hfinal⟩ :=
    writeEntries_entry htype hb hw
  obtain ⟨hout, hcont⟩ := output_plain (DeploymentProcessor.siteStoragePath sp d) e.Path
    b.ContentJSON hmd
  have hsite : filepathJoin [sp, uuidString d.WorkspaceID, uuidString d.SiteID, d.CommitHash]
      = DeploymentProcessor.siteStoragePath sp d := rfl
  rw [hsite] at hm hpre hmk hwr hread hpost hfinal
  rw [hout, hcont] at hwr hread hfinal
  exact ⟨⟨fs1, fsA, kA, fsM, fsB, k, hm, hpre, hwr, mkdirAll_files hmk, hread, hpost⟩, hfinal,
    fun x rest k fs0 hx => writeEntries_skip _ _ _ _ _ _ _ hx⟩

set_option maxRecDepth 100000 in
/-- C26, on the store `siteStore` with storage root `/srv`: after `Process` the file
`index.html` of the deployment directory holds `<html>Hello</html>`. -/
theorem process_writes_blob_witness :
    (DeploymentProcessor.Process (str "/srv") siteStore FileStore.empty calmOracle 100).2.2.read
        (str ("/srv/00000000-0000-0000-0000-000000000001/00000000-0000-0000-0000-000000000002"
          ++ "/00000000-0000-0000-0000-000000000007/index.html"))
      = some (str "<html>Hello</html>") :=
  (process_writes_blob (str "/srv") siteStore FileStore.empty calmOracle 100
    ⟨100, 1, 2, 3, "pending", str "00000000-0000-0000-0000-000000000007", "", "", "", 9, 0, none⟩
    7 []
    [⟨21, 7, str "docs", str "", "tree", "040000"⟩,
     ⟨22, 7, str "docs/page.md",
      str "38c64a17e33e98b7abb8edace0888dffe5918eea28fe4812281fa1ecc0664af4", "blob", "100644"⟩]
    ⟨20, 7, str "index.html",
      str "2b200d8c3cd569d3017aba0bf0ab12b54786f0f89c55c41202d93d5a4971333e", "blob", "100644"⟩
    ⟨str "2b200d8c3cd569d3017aba0bf0ab12b54786f0f89c55c41202d93d5a4971333e",
      jsonMarshalString (str "<html>Hello</html>"), 18, 0⟩
    (by decide) (by decide) (by decide) (by decide) (by decide) (by decide) (by decide)).2.1
    (by decide)

/-! ## Cleaned paths and their last element -/

/-- A byte string without a slash is one element. -/
theorem splitSlash_noslash (w : Bytes) (h : 0x2F ∉ w) : splitSlash w = [w] := by
  induction w with
  | nil => rfl
  | cons c rest ih =>
    have hc : c ≠ 0x2F := fun hc => h (by rw [hc]; exact List.mem_cons_self _ _)
    have hrest : 0x2F ∉ rest := fun hr => h (List.mem_cons_of_mem _ hr)
    rw [splitSlash, if_neg hc, ih hrest]

/-- The last element of a path that ends in bytes without a slash ends in these bytes. -/
theorem splitSlash_append_noslash (w : Bytes) (h : 0x2F ∉ w) (s : Bytes) :
    ∃ init last, splitSlash (s ++ w) = init ++ [last ++ w] := by
  induction s with
  | nil => exact ⟨[], [], by rw [List.nil_append, splitSlash_noslash w h]; rfl⟩
  | cons c rest ih =>
    obtain ⟨init, last, hs⟩ := ih
    rw [List.cons_append, splitSlash]
    by_cases hc : c = 0x2F
    · rw [if_pos hc, hs]
      exact ⟨[] :: init, last, rfl⟩
    · rw [if_neg hc, hs]
      cases init with
      | nil => exact ⟨[], c :: last, rfl⟩
      | cons i0 it => exact ⟨(c :: i0) :: it, last, rfl⟩

/-- An element that is not empty, `.` or `..`, at the end of the elements, is kept by
`filepath.Clean` as the last element. -/
theorem cleanElems_snoc (rooted : Bool) (e : Bytes) (h0 : e ≠ []) (h1 : e ≠ [0x2E])
    (h2 : e ≠ [0x2E, 0x2E]) (es : List Bytes) :
    ∀ stack, ∃ pre, cleanElems rooted stack (es ++ [e]) = pre ++ [e] := by
  induction es with
  | nil =>
    intro stack
    refine ⟨stack.reverse, ?_⟩
    simp only [List.nil_append, cleanElems, h0, h1, h2, or_self, if_false, List.reverse_cons]
  | cons x rest ih =>
    intro stack
    rw [List.cons_append]
    by_cases hx : x = [] ∨ x = [0x2E]
    · simp only [cleanElems, hx, if_true]
      exact ih stack
    · by_cases hxx : x = [0x2E, 0x2E]
      · cases stack with
        | nil =>
          cases rooted
          · simp only [cleanElems, hx, hxx, Bool.false_eq_true, if_false, if_true]
            exact ih _
          · simp only [cleanElems, hx, hxx, if_false, if_true]
            exact ih _
        | cons top below =>
          by_cases ht : top = [0x2E, 0x2E]
          · simp only [cleanElems, hx, hxx, ht, if_false, if_true]
            exact ih _
          · simp only [cleanElems, hx, hxx, ht, if_false, if_true]
            exact ih _
      · simp only [cleanElems, hx, hxx, if_false]
        exact ih _

/-- Joining with slashes, for a list with at least two elements. -/
theorem intercalate_cons_cons (a b : Bytes) (l : List Bytes) :
    [0x2F].intercalate (a :: b :: l) = a ++ 0x2F :: [0x2F].intercalate (b :: l) := by
  simp [List.intercalate, List.intersperse]

/-- The elements joined with slashes end in the last element. -/
theorem intercalate_snoc (e : Bytes) (l : List Bytes) :
    ∃ pre, [0x2F].intercalate (l ++ [e]) = pre ++ e := by
  induction l with
  | nil => exact ⟨[], by simp [List.intercalate]⟩
  | cons a rest ih =>
    obtain ⟨pre, hp⟩ := ih
    cases rest with
    | nil =>
      refine ⟨a ++ [0x2F], ?_⟩
      rw [List.cons_append, List.nil_append, intercalate_cons_cons]
      simp [List.intercalate]
    | cons b rest2 =>
      refine ⟨a ++ 0x2F :: pre, ?_⟩
      rw [List.cons_append, List.cons_append, intercalate_cons_cons, ← List.cons_append, hp]
      simp

/-- A path that ends in `.md` is cleaned to a path that ends in `.md`. -/
theorem pathClean_md (s : Bytes) : ∃ stem, pathClean (s ++ [0x2E, 0x6D, 0x64])
    = stem ++ [0x2E, 0x6D, 0x64] := by
  obtain ⟨init, last, hs⟩ := splitSlash_append_noslash [0x2E, 0x6D, 0x64] (by decide) s
  have hclean : ∀ rooted, ∃ pre, cleanElems rooted [] (splitSlash (s ++ [0x2E, 0x6D, 0x64]))
      = pre ++ [last ++ [0x2E, 0x6D, 0x64]] := by
    intro rooted
    rw [hs]
    apply cleanElems_snoc
    · simp
    · intro h
      have := congrArg List.length h
      simp at this
    · intro h
      have := congrArg List.length h
      simp at this
  cases hsw : s ++ [0x2E, 0x6D, 0x64] with
  | nil => simp at hsw
  | cons c t =>
    rw [← hsw]
    unfold pathClean
    rw [hsw]
    simp only
    rw [← hsw]
    obtain ⟨pre, hp⟩ := hclean (decide (c = 0x2F))
    rw [hp]
    obtain ⟨q, hq⟩ := intercalate_snoc (last ++ [0x2E, 0x6D, 0x64]) pre
    rw [hq]
    by_cases hc : c = 0x2F
    · simp only [hc, decide_True, if_true]
      exact ⟨0x2F :: (q ++ last), by simp⟩
    · simp only [hc, decide_False, Bool.false_eq_true, if_false]
      rw [if_neg (by simp)]
      exact ⟨q ++ last, by simp⟩

/-- The joined path of an entry with extension `.md` ends in `.md`, and the output path is
the joined path with this `.md` replaced by `.html`. -/
theorem outputPath_md (site p : Bytes) (h : filepathExt p = str ".md") :
    ∃ stem, filepathJoin [site, p] = stem ++ str ".md"
      ∧ DeploymentProcessor.outputPath site p = stem ++ str ".html" := by
  obtain ⟨stem0, hp⟩ := (filepathExt_md_iff p).mp h
  rw [str_md] at hp
  have hjoin : ∃ stem, filepathJoin [site, p] = stem ++ [0x2E, 0x6D, 0x64] := by
    unfold filepathJoin
    by_cases hs : site = []
    · subst hs
      have hpne : p ≠ [] := by rw [← hp]; simp
      simp only [List.dropWhile, decide_True, hpne, decide_False]
      simp only [List.intercalate, List.intersperse, List.flatten, List.append_nil]
      rw [← hp]
      exact pathClean_md stem0
    · simp only [List.dropWhile, hs, decide_False]
      rw [intercalate_cons_cons]
      simp only [List.intercalate, List.intersperse, List.flatten, List.append_nil]
      rw [← hp]
      have := pathClean_md (site ++ 0x2F :: stem0)
      simpa using this
  obtain ⟨stem, hst⟩ := hjoin
  refine ⟨stem, by rw [hst, str_md], ?_⟩
  simp only [DeploymentProcessor.outputPath, h, if_true]
  rw [hst]
  simp

/-- C27: in a run of `Process` that returns no error, for the stored deployment `d`, whose
commit reference names the commit `c`, and an entry `e` of type `blob` of the tree of `c`
whose path has the extension `.md`, with blob `b`: the path of the entry joined to the
deployment directory is `stem.md` for some `stem`; what is written for the entry is written to
`stem.html`, and is `<html><body><pre>`, the decoded content of `b`, `</pre></body></html>`;
that write leaves the file at `stem.md` as it was.  When no entry behind `e` is written to
`stem.html`, the file holds that content at the end; when no entry of the tree is written to
`stem.md`, the file at `stem.md` is at the end what it was before the run. -/
theorem process_writes_markdown (sp : Bytes) (s : Store) (fs : FileStore) (o : Oracle) (id : UUID)
    (d : Deployment) (c : UUID) (pre post : List Tree) (e : Tree) (b : Blob)
    (hok : (DeploymentProcessor.Process sp s fs o id).1 = .ok ())
    (hd : DeploymentRepository.GetByID s false id = .ok d)
    (hc : uuidParse d.CommitHash = some c)
    (htree : s.trees.filter (fun t => decide (t.CommitID = c)) = pre ++ e :: post)
    (htype : e.Type_ = "blob") (hext : filepathExt e.Path = str ".md")
    (hb : GitRepository.GetBlob s false e.BlobHash = .ok b) :
    ∃ stem, filepathJoin [DeploymentProcessor.siteStoragePath sp d, e.Path] = stem ++ str ".md"
      ∧ (∃ fs1 fsA kA fsM fsB kF,
        MkdirAll fs (o.fault 3) (DeploymentProcessor.siteStoragePath sp d) = .ok fs1
        ∧ DeploymentProcessor.writeEntries s o (DeploymentProcessor.siteStoragePath sp d) 5 fs1
            pre = (.ok (), fsA, kA)
        ∧ WriteFile fsM (o.fault (kA + 2)) (stem ++ str ".html")
            (str "<html><body><pre>" ++ decodeBlobContent b.ContentJSON
              ++ str "</pre></body></html>") = .ok fsB
        ∧ fsM.files = fsA.files
        ∧ fsB.read (stem ++ str ".html")
          = some (str "<html><body><pre>" ++ decodeBlobContent b.ContentJSON
              ++ str "</pre></body></html>")
        ∧ fsB.read (stem ++ str ".md") = fsA.read (stem ++ str ".md")
        ∧ DeploymentProcessor.writeEntries s o (DeploymentProcessor.siteStoragePath sp d)
            (kA + 3) fsB post = (.ok (), (DeploymentProcessor.Process sp s fs o id).2.2, kF))
      ∧ ((∀ x ∈ post, x.Type_ = "blob" →
            DeploymentProcessor.outputPath (DeploymentProcessor.siteStoragePath sp d) x.Path
              ≠ stem ++ str ".html") →
        (DeploymentProcessor.Process sp s fs o id).2.2.read (stem ++ str ".html")
          = some (str "<html><body><pre>" ++ decodeBlobContent b.ContentJSON
              ++ str "</pre></body></html>"))
      ∧ ((∀ x ∈ pre ++ post, x.Type_ = "blob" →
            DeploymentProcessor.outputPath (DeploymentProcessor.siteStoragePath sp d) x.Path
              ≠ stem ++ str ".md") →
        (DeploymentProcessor.Process sp s fs o id).2.2.read (stem ++ str ".md")
          = fs.read (stem ++ str ".md")) := by
  obtain ⟨d', c', fs1, k, hd', hc', -, hm, hw⟩ := process_ok_run hok
  rw [hd] at hd'
  cases hd'
  rw [hc] at hc'
  cases hc'
  rw [htree] at hw
  have hsite : filepathJoin [sp, uuidString d.WorkspaceID, uuidString d.SiteID, d.CommitHash]
      = DeploymentProcessor.siteStoragePath sp d := rfl
  rw [hsite] at hm hw
  obtain ⟨⟨fsA, kA, fsM, fsB, hpre, hmk, hwr, hread, hpost⟩, hfinal⟩ :=
    writeEntries_entry htype hb hw
  obtain ⟨stem, hjoin, hout⟩ := outputPath_md (DeploymentProcessor.siteStoragePath sp d) e.Path
    hext
  have hcont : DeploymentProcessor.outputContent e.Path b.ContentJSON
      = str "<html><body><pre>" ++ decodeBlobContent b.ContentJSON
        ++ str "</pre></body></html>" := by
    simp only [DeploymentProcessor.outputContent, hext, if_true]
  rw [hout, hcont] at hwr hread hfinal
  have hne : stem ++ str ".html" ≠ stem ++ str ".md" := by
    intro h
    have := List.append_cancel_left h
    revert this
    decide
  have hmdB : fsB.read (stem ++ str ".md") = fsA.read (stem ++ str ".md") := by
    rw [writeFile_read_other hwr hne]
    simp only [FileStore.read, mkdirAll_files hmk]
  refine ⟨stem, hjoin, ⟨fs1, fsA, kA, fsM, fsB, k, hm, hpre, hwr, mkdirAll_files hmk, hread,
    hmdB, hpost⟩, hfinal, ?_⟩
  intro hno
  have hall : ∀ x ∈ pre ++ e :: post, x.Type_ = "blob" →
      DeploymentProcessor.outputPath (DeploymentProcessor.siteStoragePath sp d) x.Path
        ≠ stem ++ str ".md" := by
    intro x hx hxb
    rw [List.mem_append, List.mem_cons] at hx
    rcases hx with hx | hx | hx
    · exact hno x (List.mem_append_left _ hx) hxb
    · rw [hx, hout]
      exact hne
    · exact hno x (List.mem_append_right _ hx) hxb
  have := writeEntries_read_other s o (DeploymentProcessor.siteStoragePath sp d)
    (stem ++ str ".md") (pre ++ e :: post) 5 fs1 hall
  rw [hw] at this
  simp only at this
  rw [this]
  simp only [FileStore.read, mkdirAll_files hm]

set_option maxRecDepth 100000 in
/-- C27, on the store `siteStore` with storage root `/srv`: after `Process` the file
`docs/page.html` of the deployment directory holds the wrapped `# Hi`, and there is no file
`docs/page.md`. -/
theorem process_writes_markdown_witness :
    (DeploymentProcessor.Process (str "/srv") siteStore FileStore.empty calmOracle 100).2.2.read
        (str ("/srv/00000000-0000-0000-0000-000000000001/00000000-0000-0000-0000-000000000002"
          ++ "/00000000-0000-0000-0000-000000000007/docs/page") ++ str ".html")
      = some (str "<html><body><pre>" ++ str "# Hi" ++ str "</pre></body></html>")
    ∧ (DeploymentProcessor.Process (str "/srv") siteStore FileStore.empty calmOracle
        100).2.2.read
        (str ("/srv/00000000-0000-0000-0000-000000000001/00000000-0000-0000-0000-000000000002"
          ++ "/00000000-0000-0000-0000-000000000007/docs/page") ++ str ".md")
      = none := by
  obtain ⟨stem, hjoin, -, hhtml, hmd⟩ :=
    process_writes_markdown (str "/srv") siteStore FileStore.empty calmOracle 100
      ⟨100, 1, 2, 3, "pending", str "00000000-0000-0000-0000-000000000007", "", "", "", 9, 0,
        none⟩
      7
      [⟨20, 7, str "index.html",
        str "2b200d8c3cd569d3017aba0bf0ab12b54786f0f89c55c41202d93d5a4971333e", "blob", "100644"⟩,
       ⟨21, 7, str "docs", str "", "tree", "040000"⟩]
      []
      ⟨22, 7, str "docs/page.md",
        str "38c64a17e33e98b7abb8edace0888dffe5918eea28fe4812281fa1ecc0664af4", "blob", "100644"⟩
      ⟨str "38c64a17e33e98b7abb8edace0888dffe5918eea28fe4812281fa1ecc0664af4",
        jsonMarshalString (str "# Hi"), 4, 0⟩
      (by decide) (by decide) (by decide) (by decide) (by decide) (by decide) (by decide)
  have hstem : stem = str ("/srv/00000000-0000-0000-0000-000000000001/"
      ++ "00000000-0000-0000-0000-000000000002/00000000-0000-0000-0000-000000000007/docs/page") :=
    List.append_cancel_right (hjoin.symm.trans (by decide))
  subst hstem
  exact ⟨hhtml (by decide), (hmd (by decide)).trans (by decide)⟩

/-! ## The elements of a path -/

/-- A path has at least one element. -/
theorem splitSlash_cons (s : Bytes) : ∃ h t, splitSlash s = h :: t := by
  induction s with
  | nil => exact ⟨[], [], rfl⟩
  | cons c rest ih =>
    obtain ⟨h, t, hs⟩ := ih
    rw [splitSlash]
    by_cases hc : c = 0x2F
    · rw [if_pos hc]; exact ⟨[], _, rfl⟩
    · rw [if_neg hc, hs]; exact ⟨c :: h, t, rfl⟩

/-- The elements of a path with a slash in it: those before the slash, then those behind. -/
theorem splitSlash_slash (a b : Bytes) :
    splitSlash (a ++ 0x2F :: b) = splitSlash a ++ splitSlash b := by
  induction a with
  | nil => simp [splitSlash]
  | cons c rest ih =>
    rw [List.cons_append, splitSlash, splitSlash]
    by_cases hc : c = 0x2F
    · rw [if_pos hc, if_pos hc, ih]; rfl
    · rw [if_neg hc, if_neg hc, ih]
      obtain ⟨h, t, hs⟩ := splitSlash_cons rest
      rw [hs]
      rfl

/-- No element of a path has a slash. -/
theorem splitSlash_noslash_mem (s : Bytes) : ∀ e ∈ splitSlash s, 0x2F ∉ e := by
  induction s with
  | nil => intro e he; simp [splitSlash] at he; subst he; simp
  | cons c rest ih =>
    intro e he
    rw [splitSlash] at he
    by_cases hc : c = 0x2F
    · rw [if_pos hc] at he
      rcases List.mem_cons.mp he with h | h
      · subst h; simp
      · exact ih e h
    · rw [if_neg hc] at he
      obtain ⟨h, t, hs⟩ := splitSlash_cons rest
      rw [hs] at he ih
      rcases List.mem_cons.mp he with h1 | h1
      · subst h1
        intro hm
        rcases List.mem_cons.mp hm with h2 | h2
        · exact hc h2.symm
        · exact ih h (List.mem_cons_self _ _) h2
      · exact ih e (List.mem_cons_of_mem _ h1)

/-- Joining with slashes, with one more byte in front of the first element. -/
theorem intercalate_cons_head (c : Nat) (h : Bytes) (t : List Bytes) :
    [0x2F].intercalate ((c :: h) :: t) = c :: [0x2F].intercalate (h :: t) := by
  cases t with
  | nil => simp [List.intercalate]
  | cons b t2 => rw [intercalate_cons_cons, intercalate_cons_cons]; rfl

/-- The elements of a path, joined with slashes, are the path. -/
theorem intercalate_splitSlash (s : Bytes) : [0x2F].intercalate (splitSlash s) = s := by
  induction s with
  | nil => simp [splitSlash, List.intercalate]
  | cons c rest ih =>
    obtain ⟨h, t, hs⟩ := splitSlash_cons rest
    rw [splitSlash]
    by_cases hc : c = 0x2F
    · rw [if_pos hc, hs, intercalate_cons_cons, ← hs, ih, hc]; rfl
    · rw [if_neg hc, hs]
      simp only
      rw [intercalate_cons_head, ← hs, ih]

/-- Elements without slashes, joined with slashes, are the elements of the joined path. -/
theorem splitSlash_intercalate (e : Bytes) (l : List Bytes) :
    (∀ x ∈ e :: l, 0x2F ∉ x) → splitSlash ([0x2F].intercalate (e :: l)) = e :: l := by
  induction l generalizing e with
  | nil =>
    intro h
    have : [0x2F].intercalate [e] = e := by simp [List.intercalate]
    rw [this, splitSlash_noslash e (h e (List.mem_cons_self _ _))]
  | cons b rest ih =>
    intro h
    rw [intercalate_cons_cons, splitSlash_slash, splitSlash_noslash e (h e (List.mem_cons_self _ _)),
      ih b (fun x hx => h x (List.mem_cons_of_mem _ hx))]
    rfl

/-- Joining with slashes, element by element, behind a first element. -/
theorem intercalate_cons_flatMap (e : Bytes) (l : List Bytes) :
    [0x2F].intercalate (e :: l) = e ++ l.flatMap (fun x => 0x2F :: x) := by
  induction l generalizing e with
  | nil => simp [List.intercalate]
  | cons b rest ih => rw [intercalate_cons_cons, ih b]; simp

/-- Joining with slashes, for two lists of elements behind one another. -/
theorem intercalate_append (e : Bytes) (l k : List Bytes) :
    [0x2F].intercalate (e :: l ++ k)
      = [0x2F].intercalate (e :: l) ++ k.flatMap (fun x => 0x2F :: x) := by
  rw [List.cons_append, intercalate_cons_flatMap, intercalate_cons_flatMap, List.flatMap_append,
    List.append_assoc]

/-! ## The stack of `filepath.Clean` -/

/-- A stack of `..` only, for a path that is not rooted, is a stack `cleanElems` can hold. -/
theorem isCleanStack_dots (st : List Bytes)
    (h : st.all (fun x => decide (x = [0x2E, 0x2E])) = true) : isCleanStack false st = true := by
  cases st with
  | nil => rfl
  | cons e below =>
    simp only [List.all_cons, Bool.and_eq_true, decide_eq_true_eq] at h
    simp [isCleanStack, h.1, h.2]

/-- The elements of a stack `cleanElems` can hold are not empty and have no slash. -/
theorem isCleanStack_mem (rooted : Bool) (st : List Bytes) (h : isCleanStack rooted st = true) :
    ∀ x ∈ st, x ≠ [] ∧ 0x2F ∉ x := by
  induction st with
  | nil => intro x hx; cases hx
  | cons e below ih =>
    intro x hx
    rw [isCleanStack] at h
    by_cases he : e = [0x2E, 0x2E]
    · rw [if_pos he] at h
      simp only [Bool.and_eq_true, Bool.not_eq_true', List.all_eq_true, decide_eq_true_eq] at h
      have hx2 : x = [0x2E, 0x2E] := by
        rcases List.mem_cons.mp hx with h1 | h1
        · rw [h1, he]
        · exact h.2 x h1
      rw [hx2]
      exact ⟨by simp, by decide⟩
    · rw [if_neg he] at h
      simp only [Bool.and_eq_true, decide_eq_true_eq, Bool.not_eq_true',
        List.contains_eq_any_beq, List.any_eq_false, beq_iff_eq] at h
      rcases List.mem_cons.mp hx with h1 | h1
      · rw [h1]
        refine ⟨h.1.1.1, ?_⟩
        intro hm
        exact h.1.2 _ hm rfl
      · exact ih h.2 x h1

/-- Invariant: `cleanElems` keeps its stack one it can hold. -/
theorem cleanElems_stack (rooted : Bool) (es : List Bytes) :
    ∀ st, isCleanStack rooted st = true → (∀ e ∈ es, 0x2F ∉ e) →
    ∃ st2, cleanElems rooted st es = st2.reverse ∧ isCleanStack rooted st2 = true := by
  induction es with
  | nil => intro st hst _; exact ⟨st, by simp [cleanElems], hst⟩
  | cons x rest ih =>
    intro st hst hes
    have hrest : ∀ e ∈ rest, 0x2F ∉ e := fun e he => hes e (List.mem_cons_of_mem _ he)
    have hx0 : 0x2F ∉ x := hes x (List.mem_cons_self _ _)
    by_cases hx : x = [] ∨ x = [0x2E]
    · simp only [cleanElems, hx, if_true]
      exact ih st hst hrest
    · by_cases hxx : x = [0x2E, 0x2E]
      · cases st with
        | nil =>
          cases rooted
          · simp only [cleanElems, hx, hxx, Bool.false_eq_true, if_false, if_true]
            exact ih _ (by simp [isCleanStack, hxx]) hrest
          · simp only [cleanElems, hx, hxx, if_false, if_true]
            exact ih _ hst hrest
        | cons top below =>
          by_cases ht : top = [0x2E, 0x2E]
          · simp only [cleanElems, hx, hxx, ht, if_false, if_true]
            apply ih _ _ hrest
            rw [isCleanStack, if_pos ht] at hst
            simp only [Bool.and_eq_true] at hst
            simp [isCleanStack, hxx, hst.1, hst.2, ht]
          · simp only [cleanElems, hx, hxx, ht, if_false, if_true]
            apply ih _ _ hrest
            rw [isCleanStack, if_neg ht] at hst
            simp only [Bool.and_eq_true] at hst
            exact hst.2
      · simp only [cleanElems, hx, hxx, if_false]
        apply ih _ _ hrest
        rw [not_or] at hx
        rw [isCleanStack, if_neg hxx]
        simp only [Bool.and_eq_true, decide_eq_true_eq, Bool.not_eq_true',
          List.contains_eq_any_beq, List.any_eq_false, beq_iff_eq]
        exact ⟨⟨⟨hx.1, hx.2⟩, fun y hy hy2 => hx0 (by rw [hy2]; exact hy)⟩, hst⟩

/-- The run of `cleanElems` over two lists of elements, one after the other. -/
theorem cleanElems_append (rooted : Bool) (a b : List Bytes) :
    ∀ st0 st, cleanElems rooted st0 a = st.reverse →
    cleanElems rooted st0 (a ++ b) = cleanElems rooted st b := by
  induction a with
  | nil =>
    intro st0 st h
    simp only [cleanElems] at h
    rw [List.reverse_inj.mp h]
    rfl
  | cons x rest ih =>
    intro st0 st h
    rw [List.cons_append]
    by_cases hx : x = [] ∨ x = [0x2E]
    · simp only [cleanElems, hx, if_true] at h ⊢
      exact ih _ _ h
    · by_cases hxx : x = [0x2E, 0x2E]
      · cases st0 with
        | nil =>
          cases rooted
          · simp only [cleanElems, hx, hxx, Bool.false_eq_true, if_false, if_true] at h ⊢
            exact ih _ _ h
          · simp only [cleanElems, hx, hxx, if_false, if_true] at h ⊢
            exact ih _ _ h
        | cons top below =>
          by_cases ht : top = [0x2E, 0x2E]
          · simp only [cleanElems, hx, hxx, ht, if_false, if_true] at h ⊢
            exact ih _ _ h
          · simp only [cleanElems, hx, hxx, ht, if_false, if_true] at h ⊢
            exact ih _ _ h
      · simp only [cleanElems, hx, hxx, if_false] at h ⊢
        exact ih _ _ h

/-- Cleaning the elements of a stack `cleanElems` can hold gives the stack back. -/
theorem cleanElems_of_stack (rooted : Bool) (st : List Bytes) :
    isCleanStack rooted st = true → cleanElems rooted [] st.reverse = st.reverse := by
  induction st with
  | nil => intro _; rfl
  | cons e below ih =>
    intro hst
    have hbelow : isCleanStack rooted below = true := by
      rw [isCleanStack] at hst
      by_cases he : e = [0x2E, 0x2E]
      · rw [if_pos he] at hst
        simp only [Bool.and_eq_true, Bool.not_eq_true'] at hst
        rw [hst.1]
        exact isCleanStack_dots below hst.2
      · rw [if_neg he] at hst
        simp only [Bool.and_eq_true] at hst
        exact hst.2
    rw [List.reverse_cons, cleanElems_append rooted below.reverse [e] [] below (ih hbelow)]
    rw [isCleanStack] at hst
    by_cases he : e = [0x2E, 0x2E]
    · rw [if_pos he] at hst
      simp only [Bool.and_eq_true, Bool.not_eq_true'] at hst
      have hr := hst.1
      subst hr
      cases below with
      | nil => simp [cleanElems, he]
      | cons top b2 =>
        have ht : top = [0x2E, 0x2E] := by
          have := hst.2
          simp only [List.all_cons, Bool.and_eq_true, decide_eq_true_eq] at this
          exact this.1
        simp [cleanElems, he, ht]
    · rw [if_neg he] at hst
      simp only [Bool.and_eq_true, decide_eq_true_eq] at hst
      simp [cleanElems, he, hst.1.1.1, hst.1.1.2]

/-- Elements without `..` are pushed on the stack, but for the empty ones and `.`. -/
theorem cleanElems_nodotdot (rooted : Bool) (es : List Bytes) :
    ∀ st, [0x2E, 0x2E] ∉ es →
    cleanElems rooted st es
      = st.reverse ++ es.filter (fun e => decide (e ≠ []) && decide (e ≠ [0x2E])) := by
  induction es with
  | nil => intro st _; simp [cleanElems]
  | cons x rest ih =>
    intro st h
    have hx2 : x ≠ [0x2E, 0x2E] := fun hx => h (by rw [hx]; exact List.mem_cons_self _ _)
    have hrest : [0x2E, 0x2E] ∉ rest := fun hr => h (List.mem_cons_of_mem _ hr)
    by_cases hx : x = [] ∨ x = [0x2E]
    · simp only [cleanElems, hx, if_true]
      rw [ih st hrest]
      rcases hx with hx | hx
      · simp [hx]
      · simp [hx]
    · simp only [cleanElems, hx, hx2, if_false]
      rw [ih _ hrest]
      rw [not_or] at hx
      simp [hx.1, hx.2]

/-! ## Joining a path to a cleaned directory -/

/-- The two steps of `pathClean` for a path that is not empty: the elements are cleaned, and
joined. -/
theorem pathClean_cons (c : Nat) (t : Bytes) :
    pathClean (c :: t)
      = joinElems (decide (c = 0x2F))
          (cleanElems (decide (c = 0x2F)) [] (splitSlash (c :: t))) := by
  simp only [pathClean, joinElems]

/-- The text of a cleaned path starts with a slash exactly when the path is rooted. -/
theorem joinElems_head (rooted : Bool) (st : List Bytes) (h : isCleanStack rooted st = true) :
    ∃ c t, joinElems rooted st.reverse = c :: t ∧ decide (c = 0x2F) = rooted := by
  cases rooted with
  | true => exact ⟨0x2F, [0x2F].intercalate st.reverse, by simp [joinElems], by simp⟩
  | false =>
    cases hE : st.reverse with
    | nil => exact ⟨0x2E, [], by simp [joinElems], by decide⟩
    | cons e0 rest =>
      have hmem : e0 ∈ st := by
        rw [← List.mem_reverse, hE]
        exact List.mem_cons_self _ _
      obtain ⟨hne, hns⟩ := isCleanStack_mem false st h e0 hmem
      cases e0 with
      | nil => exact absurd rfl hne
      | cons c e1 =>
        refine ⟨c, e1 ++ rest.flatMap (fun x => 0x2F :: x), ?_, ?_⟩
        · simp only [joinElems, Bool.false_eq_true, if_false]
          rw [if_neg (by simp), intercalate_cons_flatMap]
          rfl
        · have : c ≠ 0x2F := fun hc => hns (by rw [hc]; exact List.mem_cons_self _ _)
          simp [this]

/-- The elements of the text of a cleaned path, cleaned again, are the elements it was made
of: going on from them is going on from the stack. -/
theorem cleanElems_joinElems (rooted : Bool) (st : List Bytes)
    (h : isCleanStack rooted st = true) (rest : List Bytes) :
    cleanElems rooted [] (splitSlash (joinElems rooted st.reverse) ++ rest)
      = cleanElems rooted st rest := by
  have hself := cleanElems_of_stack rooted st h
  have hgo : cleanElems rooted [] (st.reverse ++ rest) = cleanElems rooted st rest :=
    cleanElems_append rooted st.reverse rest [] st hself
  cases hE : st.reverse with
  | nil =>
    have hst : st = [] := by simpa using hE
    subst hst
    cases rooted
    · simp [joinElems, splitSlash, cleanElems]
    · simp [joinElems, splitSlash, cleanElems, List.intercalate]
  | cons e0 E =>
    have hfree : ∀ x ∈ e0 :: E, 0x2F ∉ x := by
      intro x hx
      rw [← hE, List.mem_reverse] at hx
      exact (isCleanStack_mem rooted st h x hx).2
    rw [hE] at hgo
    cases rooted
    · simp only [joinElems, Bool.false_eq_true, if_false]
      rw [if_neg (by simp), splitSlash_intercalate e0 E hfree]
      exact hgo
    · simp only [joinElems, if_true]
      rw [splitSlash, if_pos rfl, splitSlash_intercalate e0 E hfree, List.cons_append]
      simp only [cleanElems, true_or, if_true]
      exact hgo

/-- Joining a path without `..` elements to a cleaned directory: the elements of the directory
stay, and the elements of the path that are not empty or `.` follow them. -/
theorem join_clean (Y p : Bytes) (hY : Y ≠ []) (hp : [0x2E, 0x2E] ∉ splitSlash p) :
    ∃ rooted E, pathClean Y = joinElems rooted E
      ∧ filepathJoin [pathClean Y, p]
        = joinElems rooted
            (E ++ (splitSlash p).filter (fun e => decide (e ≠ []) && decide (e ≠ [0x2E]))) := by
  cases Y with
  | nil => exact absurd rfl hY
  | cons c t =>
    obtain ⟨st, hst, hok⟩ := cleanElems_stack (decide (c = 0x2F)) (splitSlash (c :: t)) []
      rfl (splitSlash_noslash_mem _)
    refine ⟨decide (c = 0x2F), st.reverse, by rw [pathClean_cons, hst], ?_⟩
    rw [pathClean_cons, hst]
    obtain ⟨c2, t2, hj, hc2⟩ := joinElems_head (decide (c = 0x2F)) st hok
    have hjoin : filepathJoin [joinElems (decide (c = 0x2F)) st.reverse, p]
        = pathClean (joinElems (decide (c = 0x2F)) st.reverse ++ 0x2F :: p) := by
      unfold filepathJoin
      rw [hj]
      simp only [List.dropWhile, decide_False, reduceCtorEq]
      rw [intercalate_cons_cons]
      simp [List.intercalate]
    rw [hjoin]
    have hcons : joinElems (decide (c = 0x2F)) st.reverse ++ 0x2F :: p = c2 :: (t2 ++ 0x2F :: p) := by
      rw [hj]; rfl
    rw [hcons, pathClean_cons, hc2, ← hcons, splitSlash_slash,
      cleanElems_joinElems _ st hok, cleanElems_nodotdot _ _ _ hp]

/-- The text of a cleaned path with more elements behind: the text of the path, and the
elements behind, each after a slash. -/
theorem joinElems_append (rooted : Bool) (E K : List Bytes) (hE : E ≠ []) :
    joinElems rooted (E ++ K) = joinElems rooted E ++ K.flatMap (fun x => 0x2F :: x) := by
  cases E with
  | nil => exact absurd rfl hE
  | cons e rest =>
    cases rooted
    · simp only [joinElems, Bool.false_eq_true, if_false]
      rw [if_neg (by simp), if_neg (by simp), intercalate_append]
    · simp only [joinElems, if_true]
      rw [intercalate_append]
      rfl

/-- Joining a path without `..` elements to a cleaned directory other than `/` and `.`: the
directory, and behind it the elements of the path that are not empty or `.`, each after a
slash. -/
theorem join_inside (Y p : Bytes) (hY : Y ≠ []) (hroot : pathClean Y ≠ [0x2F])
    (hdot : pathClean Y ≠ [0x2E]) (hp : [0x2E, 0x2E] ∉ splitSlash p) :
    filepathJoin [pathClean Y, p]
      = pathClean Y ++ ((splitSlash p).filter
          (fun e => decide (e ≠ []) && decide (e ≠ [0x2E]))).flatMap (fun x => 0x2F :: x) := by
  obtain ⟨rooted, E, hS, hJ⟩ := join_clean Y p hY hp
  have hE : E ≠ [] := by
    intro hE
    subst hE
    cases rooted
    · exact hdot (by rw [hS]; simp [joinElems])
    · exact hroot (by rw [hS]; simp [joinElems, List.intercalate])
  rw [hJ, joinElems_append rooted E _ hE, ← hS]

/-- The text of an identifier is not empty. -/
theorem uuidString_ne_nil (u : UUID) : uuidString u ≠ [] := by
  simp [uuidString]

/-- The deployment directory is a cleaned path. -/
theorem siteStoragePath_clean (sp : Bytes) (d : Deployment) :
    ∃ Y, Y ≠ [] ∧ DeploymentProcessor.siteStoragePath sp d = pathClean Y := by
  unfold DeploymentProcessor.siteStoragePath filepathJoin
  have hw := uuidString_ne_nil d.WorkspaceID
  by_cases hs : sp = []
  · subst hs
    simp only [List.dropWhile, decide_True, hw, decide_False]
    refine ⟨_, ?_, rfl⟩
    rw [intercalate_cons_flatMap]
    simp [hw]
  · simp only [List.dropWhile, hs, decide_False]
    refine ⟨_, ?_, rfl⟩
    rw [intercalate_cons_flatMap]
    simp [hs]

/-! ## Where `Process` writes -/

/-- The build leaves the file at a path alone when no entry of type `blob` of the tree of the
commit has that path as its output path. -/
theorem build_read_other (sp : Bytes) (s : Store) (fs : FileStore) (o : Oracle) (d : Deployment)
    (c : UUID) (P : Bytes) (hc : uuidParse d.CommitHash = some c)
    (h : ∀ x ∈ s.trees, x.CommitID = c → x.Type_ = "blob" →
      DeploymentProcessor.outputPath (DeploymentProcessor.siteStoragePath sp d) x.Path ≠ P) :
    (DeploymentProcessor.build sp s fs o d).2.1.read P = fs.read P := by
  unfold DeploymentProcessor.build
  rw [hc]
  simp only
  cases hg : GitRepository.GetCommit s (o.fault 2) c with
  | error err => rfl
  | ok commit =>
    have hid : commit.ID = c := by
      unfold GitRepository.GetCommit at hg
      split_ifs at hg
      split at hg
      · rename_i x hx
        cases hg
        simpa using List.find?_some hx
      · cases hg
    simp only
    cases hm : MkdirAll fs (o.fault 3) (filepathJoin [sp, uuidString d.WorkspaceID,
        uuidString d.SiteID, d.CommitHash]) with
    | error err => rfl
    | ok fs1 =>
      have hf1 : fs1.read P = fs.read P := by
        simp only [FileStore.read, mkdirAll_files hm]
      simp only
      cases ht : GitRepository.GetTree s (o.fault 4) commit.ID with
      | error err => exact hf1
      | ok trees =>
        simp only
        have htrees : ∀ x ∈ trees, x ∈ s.trees ∧ x.CommitID = c := by
          unfold GitRepository.GetTree at ht
          split_ifs at ht
          cases ht
          intro x hx
          rw [List.mem_filter] at hx
          exact ⟨hx.1, by rw [← hid]; simpa using hx.2⟩
        have := writeEntries_read_other s o (DeploymentProcessor.siteStoragePath sp d) P trees 5
          fs1 (fun x hx hb => h x (htrees x hx).1 (htrees x hx).2 hb)
        rw [← hf1]
        exact this

/-- A run of `Process` leaves the file at a path alone when no entry of type `blob` of the
tree of the commit of the deployment has that path as its output path. -/
theorem process_read_other (sp : Bytes) (s : Store) (fs : FileStore) (o : Oracle) (id : UUID)
    (d : Deployment) (c : UUID) (P : Bytes)
    (hd : DeploymentRepository.GetByID s false id = .ok d)
    (hc : uuidParse d.CommitHash = some c)
    (h : ∀ x ∈ s.trees, x.CommitID = c → x.Type_ = "blob" →
      DeploymentProcessor.outputPath (DeploymentProcessor.siteStoragePath sp d) x.Path ≠ P) :
    (DeploymentProcessor.Process sp s fs o id).2.2.read P = fs.read P := by
  rcases process_cases sp s fs o id with ⟨e, -, hp⟩ | ⟨d', e, -, -, hp⟩ |
    ⟨d', s1, e, fs2, k, hd', hb, hbuild, hp⟩ | ⟨d', s1, e, fs2, k, hd', hb, hbuild, -, hp⟩ |
    ⟨d', s1, s2, fs2, k, hd', hb, hbuild, -, hp⟩
  · rw [hp]
  · rw [hp]
  all_goals
    have hdd := (getByID_ok hd').2
    rw [hd] at hdd
    cases hdd
    obtain ⟨-, -, htr, -⟩ := updateStatus_frame hb
    have := build_read_other sp s1 fs o d c P hc (by rw [htr]; exact h)
    rw [hbuild] at this
    rw [hp]
    exact this

/-- The output path of an entry whose path has no `..` element, for a deployment directory
other than `/` and `.`: the directory itself, or a path that starts with the directory and a
slash. -/
theorem outputPath_within (sp : Bytes) (d : Deployment) (p : Bytes)
    (hroot : DeploymentProcessor.siteStoragePath sp d ≠ [0x2F])
    (hdot : DeploymentProcessor.siteStoragePath sp d ≠ [0x2E])
    (hp : [0x2E, 0x2E] ∉ splitSlash p) :
    DeploymentProcessor.outputPath (DeploymentProcessor.siteStoragePath sp d) p
        = DeploymentProcessor.siteStoragePath sp d
    ∨ (DeploymentProcessor.siteStoragePath sp d ++ [0x2F])
        <+: DeploymentProcessor.outputPath (DeploymentProcessor.siteStoragePath sp d) p := by
  obtain ⟨Y, hY, hS⟩ := siteStoragePath_clean sp d
  rw [hS] at hroot hdot ⊢
  have hJ := join_inside Y p hY hroot hdot hp
  by_cases hext : filepathExt p = str ".md"
  · right
    obtain ⟨stem, hjoin, hout⟩ := outputPath_md (pathClean Y) p hext
    obtain ⟨stem0, hp0⟩ := (filepathExt_md_iff p).mp hext
    rw [str_md] at hp0 hjoin
    obtain ⟨init, last, hsplit⟩ := splitSlash_append_noslash [0x2E, 0x6D, 0x64] (by decide) stem0
    rw [hp0] at hsplit
    have hfil : List.filter (fun e : Bytes => decide (e ≠ []) && decide (e ≠ [0x2E]))
        [last ++ [0x2E, 0x6D, 0x64]] = [last ++ [0x2E, 0x6D, 0x64]] := by
      have h2 : last ++ [0x2E, 0x6D, 0x64] ≠ [0x2E] := by
        intro h
        have := congrArg List.length h
        simp at this
      simp [List.filter_cons, h2]
    rw [hsplit, List.filter_append, hfil, List.flatMap_append] at hJ
    simp only [List.flatMap_cons, List.flatMap_nil, List.append_nil] at hJ
    rw [hjoin] at hJ
    have hstem : stem = pathClean Y ++ ((List.filter
        (fun e => decide (e ≠ []) && decide (e ≠ [0x2E])) init).flatMap (fun x => 0x2F :: x)
          ++ 0x2F :: last) := by
      have h3 : stem ++ [0x2E, 0x6D, 0x64] = (pathClean Y ++ ((List.filter
          (fun e => decide (e ≠ []) && decide (e ≠ [0x2E])) init).flatMap (fun x => 0x2F :: x)
            ++ 0x2F :: last)) ++ [0x2E, 0x6D, 0x64] := by
        rw [hJ]
        simp
      exact List.append_cancel_right h3
    rw [hout, hstem]
    cases hK : List.filter (fun e => decide (e ≠ []) && decide (e ≠ [0x2E])) init with
    | nil => exact ⟨last ++ str ".html", by simp⟩
    | cons k0 K0 =>
      exact ⟨k0 ++ (K0.flatMap (fun x => 0x2F :: x) ++ 0x2F :: last) ++ str ".html", by simp⟩
  · have hout : DeploymentProcessor.outputPath (pathClean Y) p = filepathJoin [pathClean Y, p] := by
      simp [DeploymentProcessor.outputPath, hext]
    rw [hout, hJ]
    cases hK : List.filter (fun e => decide (e ≠ []) && decide (e ≠ [0x2E])) (splitSlash p) with
    | nil => left; simp
    | cons k0 K0 =>
      right
      exact ⟨k0 ++ K0.flatMap (fun x => 0x2F :: x), by simp⟩

set_option maxRecDepth 100000 in
/-- C28, as stated, fails.  On the store `escapeStore`, whose commit `7` has the one file
`../../../evil.html`, `Process` with storage root `/srv` returns no error and writes the one
file `/srv/evil.html`; the deployment directory is `/srv/0...1/0...2/0...7`, and is not a
prefix of that path. -/
theorem process_writes_outside :
    (DeploymentProcessor.Process (str "/srv") escapeStore FileStore.empty calmOracle 100).1
      = .ok ()
    ∧ (DeploymentProcessor.Process (str "/srv") escapeStore FileStore.empty calmOracle
        100).2.2.files = [(str "/srv/evil.html", str "<html>Hello</html>")]
    ∧ DeploymentProcessor.siteStoragePath (str "/srv")
        ⟨100, 1, 2, 3, "pending", str "00000000-0000-0000-0000-000000000007", "", "", "", 9, 0,
          none⟩
      = str ("/srv/00000000-0000-0000-0000-000000000001/00000000-0000-0000-0000-000000000002"
          ++ "/00000000-0000-0000-0000-000000000007")
    ∧ ¬ (DeploymentProcessor.siteStoragePath (str "/srv")
        ⟨100, 1, 2, 3, "pending", str "00000000-0000-0000-0000-000000000007", "", "", "", 9, 0,
          none⟩ <+: str "/srv/evil.html") := by
  decide

/-- C28, amended: for a stored deployment `d` whose commit reference names the commit `c`,
with a deployment directory other than `/` and `.`, when no entry of type `blob` of the tree of
`c` has a `..` element in its path: the path each of these entries is written to is the
deployment directory or starts with the deployment directory and a slash, and a run of
`Process`, whatever its outcome, leaves every file at another path as it was. -/
theorem process_contained (sp : Bytes) (s : Store) (fs : FileStore) (o : Oracle) (id : UUID)
    (d : Deployment) (c : UUID) (P : Bytes)
    (hd : DeploymentRepository.GetByID s false id = .ok d)
    (hc : uuidParse d.CommitHash = some c)
    (hroot : DeploymentProcessor.siteStoragePath sp d ≠ [0x2F])
    (hdot : DeploymentProcessor.siteStoragePath sp d ≠ [0x2E])
    (hpaths : ∀ x ∈ s.trees, x.CommitID = c → x.Type_ = "blob" →
      [0x2E, 0x2E] ∉ splitSlash x.Path)
    (hP : P ≠ DeploymentProcessor.siteStoragePath sp d)
    (hP2 : ¬ (DeploymentProcessor.siteStoragePath sp d ++ [0x2F]) <+: P) :
    (∀ x ∈ s.trees, x.CommitID = c → x.Type_ = "blob" →
      (DeploymentProcessor.outputPath (DeploymentProcessor.siteStoragePath sp d) x.Path
          = DeploymentProcessor.siteStoragePath sp d
        ∨ (DeploymentProcessor.siteStoragePath sp d ++ [0x2F])
          <+: DeploymentProcessor.outputPath (DeploymentProcessor.siteStoragePath sp d) x.Path))
    ∧ (DeploymentProcessor.Process sp s fs o id).2.2.read P = fs.read P := by
  have hin : ∀ x ∈ s.trees, x.CommitID = c → x.Type_ = "blob" →
      (DeploymentProcessor.outputPath (DeploymentProcessor.siteStoragePath sp d) x.Path
          = DeploymentProcessor.siteStoragePath sp d
        ∨ (DeploymentProcessor.siteStoragePath sp d ++ [0x2F])
          <+: DeploymentProcessor.outputPath (DeploymentProcessor.siteStoragePath sp d) x.Path) :=
    fun x hx hxc hxb => outputPath_within sp d x.Path hroot hdot (hpaths x hx hxc hxb)
  refine ⟨hin, process_read_other sp s fs o id d c P hd hc ?_⟩
  intro x hx hxc hxb hout
  rcases hin x hx hxc hxb with h | h
  · exact hP (by rw [← hout, h])
  · exact hP2 (by rw [← hout]; exact h)

set_option maxRecDepth 100000 in
/-- C28, amended, on the store `siteStore` with storage root `/srv`: `Process` leaves the path
`/srv/evil.html` without a file. -/
theorem process_contained_witness :
    (DeploymentProcessor.Process (str "/srv") siteStore FileStore.empty calmOracle 100).2.2.read
        (str "/srv/evil.html") = none :=
  (process_contained (str "/srv") siteStore FileStore.empty calmOracle 100
    ⟨100, 1, 2, 3, "pending", str "00000000-0000-0000-0000-000000000007", "", "", "", 9, 0, none⟩
    7 (str "/srv/evil.html") (by decide) (by decide) (by decide) (by decide) (by decide)
    (by decide) (by decide)).2

/-! ## Output paths of plain tree paths -/

/-- A path made of names only, joined to a cleaned directory other than `/` and `.`: the
directory, a slash, and the path. -/
theorem join_plain (Y p : Bytes) (hY : Y ≠ []) (hroot : pathClean Y ≠ [0x2F])
    (hdot : pathClean Y ≠ [0x2E]) (hp : isPlainPath p = true) :
    filepathJoin [pathClean Y, p] = pathClean Y ++ 0x2F :: p := by
  simp only [isPlainPath, List.all_eq_true, Bool.and_eq_true, decide_eq_true_eq] at hp
  have hnd : [0x2E, 0x2E] ∉ splitSlash p := fun h => (hp _ h).2 rfl
  rw [join_inside Y p hY hroot hdot hnd]
  have hfil : (splitSlash p).filter (fun e => decide (e ≠ []) && decide (e ≠ [0x2E]))
      = splitSlash p := by
    rw [List.filter_eq_self]
    intro e he
    simp [(hp e he).1.1, (hp e he).1.2]
  rw [hfil]
  obtain ⟨h, t, hs⟩ := splitSlash_cons p
  have hint := intercalate_splitSlash p
  rw [hs, intercalate_cons_flatMap] at hint
  rw [hs, List.flatMap_cons, List.cons_append, hint]

/-- The output path of a path made of names only: the deployment directory, a slash, and the
path, with a last `.md` replaced by `.html`. -/
theorem outputPath_plain (sp : Bytes) (d : Deployment) (p : Bytes)
    (hroot : DeploymentProcessor.siteStoragePath sp d ≠ [0x2F])
    (hdot : DeploymentProcessor.siteStoragePath sp d ≠ [0x2E])
    (hp : isPlainPath p = true) :
    DeploymentProcessor.outputPath (DeploymentProcessor.siteStoragePath sp d) p
      = DeploymentProcessor.siteStoragePath sp d ++ 0x2F ::
          (if filepathExt p = str ".md" then p.take (p.length - 3) ++ str ".html" else p) := by
  obtain ⟨Y, hY, hS⟩ := siteStoragePath_clean sp d
  rw [hS] at hroot hdot ⊢
  have hJ := join_plain Y p hY hroot hdot hp
  by_cases hext : filepathExt p = str ".md"
  · obtain ⟨stem0, hp0⟩ := (filepathExt_md_iff p).mp hext
    simp only [DeploymentProcessor.outputPath, hext, if_true]
    rw [hJ, ← hp0]
    have h1 : (stem0 ++ str ".md").take ((stem0 ++ str ".md").length - 3) = stem0 := by
      apply List.take_left'
      simp [str_md]
    have h2 : (pathClean Y ++ 0x2F :: (stem0 ++ str ".md")).take
        ((pathClean Y ++ 0x2F :: (stem0 ++ str ".md")).length - 3)
        = pathClean Y ++ 0x2F :: stem0 := by
      have : pathClean Y ++ 0x2F :: (stem0 ++ str ".md")
          = (pathClean Y ++ 0x2F :: stem0) ++ str ".md" := by simp
      rw [this]
      apply List.take_left'
      simp [str_md]
      omega
    rw [h1, h2]
    simp
  · simp only [DeploymentProcessor.outputPath, hext, if_false]
    exact hJ

/-- Two paths with the same output name, one not being the other with `.md` replaced by
`.html`, are the same path. -/
theorem relOut_inj (p q : Bytes)
    (hpq : filepathExt p = str ".md" → q ≠ p.take (p.length - 3) ++ str ".html")
    (hqp : filepathExt q = str ".md" → p ≠ q.take (q.length - 3) ++ str ".html")
    (h : (if filepathExt p = str ".md" then p.take (p.length - 3) ++ str ".html" else p)
      = (if filepathExt q = str ".md" then q.take (q.length - 3) ++ str ".html" else q)) :
    p = q := by
  have htake : ∀ x : Bytes, filepathExt x = str ".md" →
      x = x.take (x.length - 3) ++ str ".md" := by
    intro x hx
    obtain ⟨stem0, hx0⟩ := (filepathExt_md_iff x).mp hx
    have h1 : (stem0 ++ str ".md").take ((stem0 ++ str ".md").length - 3) = stem0 := by
      apply List.take_left'
      simp [str_md]
    rw [← hx0, h1]
  by_cases hp : filepathExt p = str ".md"
  · by_cases hq : filepathExt q = str ".md"
    · rw [if_pos hp, if_pos hq] at h
      rw [htake p hp, htake q hq, List.append_cancel_right h]
    · rw [if_pos hp, if_neg hq] at h
      exact absurd h.symm (hpq hp)
  · by_cases hq : filepathExt q = str ".md"
    · rw [if_neg hp, if_pos hq] at h
      exact absurd h (hqp hq)
    · rw [if_neg hp, if_neg hq] at h
      exact h

set_option maxRecDepth 100000 in
/-- C30, as stated, fails.  On the store `collideStore`, whose commit `7` has the two blob
entries `a.md` and `a.html`, two different paths, `Process` with storage root `/srv` returns
no error and leaves one file, `a.html` of the deployment directory, with the content of the
entry `a.html`: the page written for `a.md` was overwritten. -/
theorem process_outputs_collide :
    (DeploymentProcessor.Process (str "/srv") collideStore FileStore.empty calmOracle 100).1
      = .ok ()
    ∧ (collideStore.trees.map (fun e => (e.CommitID, e.Path, e.Type_)))
      = [(7, str "a.md", "blob"), (7, str "a.html", "blob")]
    ∧ (DeploymentProcessor.Process (str "/srv") collideStore FileStore.empty calmOracle
        100).2.2.files
      = [(str ("/srv/00000000-0000-0000-0000-000000000001/00000000-0000-0000-0000-000000000002"
          ++ "/00000000-0000-0000-0000-000000000007/a.html"), str "<html>Hello</html>")] := by
  decide

/-- C30, amended: for a stored deployment `d` whose commit reference names the commit `c`,
with a deployment directory other than `/` and `.`, when the paths of the entries of the tree
of `c` are pairwise distinct, are made of names only (no empty element, `.` or `..`), and none
is another one with its extension `.md` replaced by `.html`: the output paths of the entries
are pairwise distinct, and after a run of `Process` that returns no error the file at the
output path of each entry of type `blob` holds the output content of that entry. -/
theorem process_outputs_distinct (sp : Bytes) (s : Store) (fs : FileStore) (o : Oracle)
    (id : UUID) (d : Deployment) (c : UUID)
    (hok : (DeploymentProcessor.Process sp s fs o id).1 = .ok ())
    (hd : DeploymentRepository.GetByID s false id = .ok d)
    (hc : uuidParse d.CommitHash = some c)
    (hroot : DeploymentProcessor.siteStoragePath sp d ≠ [0x2F])
    (hdot : DeploymentProcessor.siteStoragePath sp d ≠ [0x2E])
    (hplain : ∀ x ∈ s.trees.filter (fun t => decide (t.CommitID = c)), isPlainPath x.Path = true)
    (hnodup : ((s.trees.filter (fun t => decide (t.CommitID = c))).map Tree.Path).Nodup)
    (htwin : ∀ a ∈ s.trees.filter (fun t => decide (t.CommitID = c)),
      ∀ b ∈ s.trees.filter (fun t => decide (t.CommitID = c)),
      filepathExt a.Path = str ".md" → b.Path ≠ a.Path.take (a.Path.length - 3) ++ str ".html") :
    ((s.trees.filter (fun t => decide (t.CommitID = c))).map
      (fun e => DeploymentProcessor.outputPath (DeploymentProcessor.siteStoragePath sp d)
        e.Path)).Nodup
    ∧ ∀ e ∈ s.trees.filter (fun t => decide (t.CommitID = c)), e.Type_ = "blob" →
      ∀ b, GitRepository.GetBlob s false e.BlobHash = .ok b →
      (DeploymentProcessor.Process sp s fs o id).2.2.read
          (DeploymentProcessor.outputPath (DeploymentProcessor.siteStoragePath sp d) e.Path)
        = some (DeploymentProcessor.outputContent e.Path b.ContentJSON) := by
  have hinj : ∀ x ∈ s.trees.filter (fun t => decide (t.CommitID = c)),
      ∀ y ∈ s.trees.filter (fun t => decide (t.CommitID = c)),
      DeploymentProcessor.outputPath (DeploymentProcessor.siteStoragePath sp d) x.Path
        = DeploymentProcessor.outputPath (DeploymentProcessor.siteStoragePath sp d) y.Path →
      x = y := by
    intro x hx y hy hxy
    rw [outputPath_plain sp d x.Path hroot hdot (hplain x hx),
      outputPath_plain sp d y.Path hroot hdot (hplain y hy)] at hxy
    have hrel := List.cons_injective (List.append_cancel_left hxy)
    have hpath := relOut_inj x.Path y.Path (htwin x hx y hy) (htwin y hy x hx) hrel
    exact List.inj_on_of_nodup_map hnodup hx hy hpath
  have hnd : ((s.trees.filter (fun t => decide (t.CommitID = c))).map
      (fun e => DeploymentProcessor.outputPath (DeploymentProcessor.siteStoragePath sp d)
        e.Path)).Nodup :=
    List.Nodup.map_on hinj (List.Nodup.of_map _ hnodup)
  refine ⟨hnd, ?_⟩
  intro e he hblob b hb
  obtain ⟨d', c', fs1, k, hd', hc', -, hm, hw⟩ := process_ok_run hok
  rw [hd] at hd'
  cases hd'
  rw [hc] at hc'
  cases hc'
  have hsite : filepathJoin [sp, uuidString d.WorkspaceID, uuidString d.SiteID, d.CommitHash]
      = DeploymentProcessor.siteStoragePath sp d := rfl
  rw [hsite] at hw
  obtain ⟨pre, post, hsplit⟩ := List.append_of_mem he
  rw [hsplit] at hw hnd
  have hfinal := (writeEntries_entry hblob hb hw).2
  apply hfinal
  intro x hx _ hxe
  rw [List.map_append, List.map_cons, List.nodup_append] at hnd
  have hcons := (List.nodup_cons.mp hnd.2.1).1
  apply hcons
  rw [← hxe]
  exact List.mem_map_of_mem _ hx

set_option maxRecDepth 100000 in
/-- C30, amended, on the store `siteStore` with storage root `/srv`: the two files of the
commit have two output paths, and `docs/page.html` holds the page of `docs/page.md`. -/
theorem process_outputs_distinct_witness :
    (DeploymentProcessor.Process (str "/srv") siteStore FileStore.empty calmOracle 100).2.2.read
        (DeploymentProcessor.outputPath
          (DeploymentProcessor.siteStoragePath (str "/srv")
            ⟨100, 1, 2, 3, "pending", str "00000000-0000-0000-0000-000000000007", "", "", "", 9,
              0, none⟩)
          (str "docs/page.md"))
      = some (DeploymentProcessor.outputContent (str "docs/page.md")
          (jsonMarshalString (str "# Hi"))) :=
  (process_outputs_distinct (str "/srv") siteStore FileStore.empty calmOracle 100
    ⟨100, 1, 2, 3, "pending", str "00000000-0000-0000-0000-000000000007", "", "", "", 9, 0, none⟩
    7 (by decide) (by decide) (by decide) (by decide) (by decide) (by decide) (by decide)
    (by decide)).2
    ⟨22, 7, str "docs/page.md",
      str "38c64a17e33e98b7abb8edace0888dffe5918eea28fe4812281fa1ecc0664af4", "blob", "100644"⟩
    (by decide) (by decide)
    ⟨str "38c64a17e33e98b7abb8edace0888dffe5918eea28fe4812281fa1ecc0664af4",
      jsonMarshalString (str "# Hi"), 4, 0⟩
    (by decide)

end OpenBook
